import Mathlib

/-!
Verification development for the `modular_equations` crate: solvers for linear
(`a*x + b ≡ c (mod n)`) and quadratic (`a*x^2 + b*x + c ≡ d (mod n)`) modular
equations over unsigned machine integers, with signed front ends.

The Rust sources are embedded shallowly over `ℕ` (and `ℤ` for signed values):

* unsigned machine values of width `W` become natural numbers; the code is
  written so that, on the argument ranges in which the library calls them, no
  primitive operation wraps, hence plain `ℕ` arithmetic is faithful.  For the
  overflow claims about the arithmetic kernel a second family of definitions
  (`wadd`, `wsub`, ... suffix `W`) executes every primitive `+`/`-` with
  explicit two's-complement wrapping at width `w`, exactly as the machine does.
* every Rust loop is translated into structural recursion over an explicit
  fuel argument; fuel bounds are chosen so that the fuel can provably never
  run out on the loop's reachable inputs (the relevant equations are proved
  below), and keeping the recursion structural lets the kernel evaluate the
  functions on concrete inputs.
* fallible operations return `Option`; a Rust panic (integer division by zero
  in `SignCast::cast_to_unsigned` when `modu = 0`) is modelled by `Except.error`.
-/

/-! ### Arithmetic kernel, plain `ℕ` form (src/arith/mod.rs, traits CoreArith / Arith) -/

/-- Rust `CoreArith::add_mod_unsafe`: modular addition for operands already
reduced below `modu`.  (`min x y - (modu - max x y)` is `x + y - modu` there.) -/
def add_mod_u (x y modu : ℕ) : ℕ :=
  if x < modu - y then x + y else min x y - (modu - max x y)

/-- Rust `CoreArith::sub_mod_unsafe`: modular subtraction for operands already
reduced below `modu`. -/
def sub_mod_u (x y modu : ℕ) : ℕ :=
  if x ≥ y then x - y else modu - (y - x)

/-- Loop body of Rust `CoreArith::mult_mod_unsafe` (Russian-peasant
multiplication built on `add_mod_unsafe`).  The `while y > 0` loop is coded
as structural recursion on a fuel argument; `y` at least halves each round,
so fuel `y` is always sufficient. -/
def mult_mod_loop (modu : ℕ) : ℕ → ℕ → ℕ → ℕ → ℕ
  | 0, _, _, res => res
  | f + 1, x, y, res =>
    if y = 0 then res
    else
      mult_mod_loop modu f (add_mod_u x x modu) (y / 2)
        (if y % 2 = 1 then add_mod_u res x modu else res)

/-- Rust `CoreArith::mult_mod_unsafe`. -/
def mult_mod_u (x y modu : ℕ) : ℕ :=
  mult_mod_loop modu y x y 0

/-- Loop body of Rust `CoreArith::exp_mod_unsafe` (square and multiply built
on `mult_mod_unsafe`), fuel-structural like `mult_mod_loop`. -/
def exp_mod_loop (modu : ℕ) : ℕ → ℕ → ℕ → ℕ → ℕ
  | 0, _, _, res => res
  | f + 1, base, ex, res =>
    if ex = 0 then res
    else
      exp_mod_loop modu f (mult_mod_u base base modu) (ex / 2)
        (if ex % 2 = 1 then mult_mod_u res base modu else res)

/-- Rust `CoreArith::exp_mod_unsafe`. -/
def exp_mod_u (base ex modu : ℕ) : ℕ :=
  exp_mod_loop modu ex base ex 1

/-- Rust `CoreArith::exp_mod_unsafe_u128`: identical loop with the exponent
held in a fixed 128-bit type; over `ℕ` the two coincide. -/
def exp_mod_u_u128 (base ex modu : ℕ) : ℕ :=
  exp_mod_u base ex modu

/-- Rust `Arith::add_mod`: reduce the operands first when necessary. -/
def add_mod (x y modu : ℕ) : ℕ :=
  if x < modu ∧ y < modu then add_mod_u x y modu
  else add_mod_u (x % modu) (y % modu) modu

/-- Rust `Arith::sub_mod`. -/
def sub_mod (x y modu : ℕ) : ℕ :=
  if x < modu ∧ y < modu then sub_mod_u x y modu
  else sub_mod_u (x % modu) (y % modu) modu

/-- Rust `Arith::mult_mod`. -/
def mult_mod (x y modu : ℕ) : ℕ :=
  if x < modu ∧ y < modu then mult_mod_u x y modu
  else mult_mod_u (x % modu) (y % modu) modu

/-- Rust `Arith::exp_mod` (only the base is reduced). -/
def exp_mod (base ex modu : ℕ) : ℕ :=
  if base < modu then exp_mod_u base ex modu
  else exp_mod_u (base % modu) ex modu

/-- Rust `u128::trailing_zeros` via repeated halving, fuel-structural.
The library only evaluates it on nonzero arguments, where the result is the
2-adic valuation; for `n = 0` this returns `0` (Rust would return the bit
width, but no call site passes `0`). -/
def tz_go : ℕ → ℕ → ℕ
  | 0, _ => 0
  | f + 1, n => if n % 2 = 1 ∨ n = 0 then 0 else tz_go f (n / 2) + 1

/-- Trailing zeros (2-adic valuation) of a nonzero `n`. -/
def trailing_zeros (n : ℕ) : ℕ :=
  tz_go n n

/-- Loop of Rust `Arith::gcd_mod` (binary / Stein gcd).  One round strips `y`
to odd, swaps so that `x ≤ y`, and replaces `y` by `y - x`; the sum `x + y`
strictly decreases, so fuel `x + y` suffices. -/
def gcd_loop (shift : ℕ) : ℕ → ℕ → ℕ → ℕ
  | 0, x, _ => x * 2 ^ shift
  | f + 1, x, y =>
    let y1 := y / 2 ^ trailing_zeros y
    let p := if x > y1 then (y1, x) else (x, y1)
    let y2 := p.2 - p.1
    if y2 = 0 then p.1 * 2 ^ shift
    else gcd_loop shift f p.1 y2

/-- Rust `Arith::gcd_mod`. -/
def gcd_mod (x y : ℕ) : ℕ :=
  if x = 0 ∨ y = 0 then x ||| y
  else
    let shift := trailing_zeros (x ||| y)
    gcd_loop shift (x + y) (x / 2 ^ trailing_zeros x) y

/-- Loop of Rust `Arith::multip_inv` (extended Euclid; the new inverse is kept
reduced below `modu` via `sub_mod_unsafe`/`mult_mod_unsafe`).  `rem_new`
strictly decreases, so fuel `rem_new + 1` suffices. -/
def inv_loop (modu : ℕ) : ℕ → ℕ → ℕ → ℕ → ℕ → ℕ
  | 0, rem, _, inv, _ => if rem > 1 then 0 else inv
  | f + 1, rem, rem_new, inv, inv_new =>
    if rem_new = 0 then (if rem > 1 then 0 else inv)
    else
      let quo := rem / rem_new
      inv_loop modu f rem_new (rem - quo * rem_new) inv_new
        (sub_mod_u inv (mult_mod_u quo inv_new modu) modu)

/-- Rust `Arith::multip_inv`: multiplicative inverse of `x` modulo `modu`,
returning `0` when the inverse does not exist. -/
def multip_inv (x modu : ℕ) : ℕ :=
  let x1 := if x ≥ modu then x % modu else x
  inv_loop modu (x1 + 1) modu x1 0 1

/-- Rust (num crate) `PrimInt::signed_shr` by one bit on an unsigned value of
width `w`: the value is reinterpreted as a signed integer, shifted
arithmetically, and reinterpreted back, so the top bit is copied into the
result. -/
def sshr (w x : ℕ) : ℕ :=
  if 2 ^ (w - 1) ≤ x then x / 2 + 2 ^ (w - 1) else x / 2

/-- Inner loop of Rust `Arith::jacobi_symbol`: strip factors of two from `x`
with `signed_shr` (!), flipping the sign when `n % 8 ∈ {3, 5}`.  Stripping
ends after at most `w` rounds on `w`-bit values. -/
def jacobi_strip (w : ℕ) : ℕ → ℕ → ℕ → ℤ → ℕ × ℤ
  | 0, x, _, t => (x, t)
  | f + 1, x, n, t =>
    if x % 2 = 0 then
      let x1 := sshr w x
      let pr := n % 8
      jacobi_strip w f x1 n (if pr = 3 ∨ pr = 5 then -t else t)
    else (x, t)

/-- Outer loop of Rust `Arith::jacobi_symbol`: strip `x`, swap, apply
quadratic reciprocity sign, reduce. -/
def jacobi_loop (w : ℕ) : ℕ → ℕ → ℕ → ℤ → ℤ
  | 0, _, _, _ => 0
  | f + 1, x, n, t =>
    if x = 0 then (if n = 1 then t else 0)
    else
      let s := jacobi_strip w (w + 1) x n t
      let x2 := n
      let n2 := s.1
      let t2 := if x2 % 4 = 3 ∧ n2 % 4 = 3 then -s.2 else s.2
      jacobi_loop w f (x2 % n2) n2 t2

/-- Rust `Arith::jacobi_symbol` at unsigned width `w` (the primality oracle
instantiates it at `w = 128`). -/
def jacobi_symbol (w x n : ℕ) : ℤ :=
  let x1 := if x ≥ n then x % n else x
  jacobi_loop w (x1 + n + 4 * w + 8) x1 n 1

/-- Rust `Arith::trunc_square` at width `w`: `x * x`, or `0` if that would
wrap the `w`-bit type (or if `x = 0`). -/
def trunc_square (w x : ℕ) : ℕ :=
  if 0 < x then (if x < (2 ^ w - 1) / x then x * x else 0) else 0

/-- Floor square root by linear search (model of `num::integer::sqrt`),
fuel-structural so that the kernel can evaluate it. -/
def sqrt_go (n : ℕ) : ℕ → ℕ → ℕ
  | 0, r => r
  | f + 1, r => if (r + 1) * (r + 1) ≤ n then sqrt_go n f (r + 1) else r

/-- Floor square root, equal to `Nat.sqrt` (proved below). -/
def nat_sqrt (n : ℕ) : ℕ :=
  sqrt_go n n 0

/-! ### Sign cast (src/arith/mod.rs, trait SignCast) -/

/-- Rust `SignCast::cast_to_unsigned` for the signed/unsigned type pair of
width `w` (i8/u8, ..., i128/u128).  A value `x ≥ 0` is passed through
`T::try_from` unchanged (no reduction mod `modu`); a negative non-minimal
value is replaced by the smallest nonnegative representative of its class.
`Except.error ()` models the Rust panic: when `modu = 0` and `modu < |x|`,
the code divides by `modu`. -/
def cast_to_unsigned (w : ℕ) (x : ℤ) (modu : ℕ) : Except Unit (Option ℕ) :=
  if 0 ≤ x then
    if x.toNat < 2 ^ w then .ok (some x.toNat) else .ok none
  else if x = -(2 ^ (w - 1) : ℤ) then .ok none
  else if x.natAbs < 2 ^ w then
    if x.natAbs ≤ modu then .ok (some (modu - x.natAbs))
    else if modu = 0 then .error ()
    else
      .ok (some ((if x.natAbs % modu > 0 then x.natAbs / modu + 1 else x.natAbs / modu) * modu
        - x.natAbs))
  else .ok none

/-! ### Arithmetic kernel, explicit width-`w` wrapping form (for the overflow claims).
These repeat the CoreArith / Arith operations with every primitive `+`/`-`
executed as the machine would: wrapping modulo `2 ^ w`. -/

/-- Wrapping (two's-complement) addition at width `w`. -/
def wadd (w a b : ℕ) : ℕ :=
  (a + b) % 2 ^ w

/-- Wrapping (two's-complement) subtraction at width `w` (for `a, b < 2 ^ w`). -/
def wsub (w a b : ℕ) : ℕ :=
  (a + (2 ^ w - b)) % 2 ^ w

/-- Rust `CoreArith::add_mod_unsafe` with width-`w` wrapping primitives. -/
def add_mod_uW (w x y modu : ℕ) : ℕ :=
  if x < wsub w modu y then wadd w x y else wsub w (min x y) (wsub w modu (max x y))

/-- Rust `CoreArith::sub_mod_unsafe` with width-`w` wrapping primitives. -/
def sub_mod_uW (w x y modu : ℕ) : ℕ :=
  if x ≥ y then wsub w x y else wsub w modu (wsub w y x)

/-- Rust `CoreArith::mult_mod_unsafe` loop with width-`w` wrapping primitives. -/
def mult_mod_loopW (w modu : ℕ) : ℕ → ℕ → ℕ → ℕ → ℕ
  | 0, _, _, res => res
  | f + 1, x, y, res =>
    if y = 0 then res
    else
      mult_mod_loopW w modu f (add_mod_uW w x x modu) (y / 2)
        (if y % 2 = 1 then add_mod_uW w res x modu else res)

/-- Rust `CoreArith::mult_mod_unsafe` with width-`w` wrapping primitives. -/
def mult_mod_uW (w x y modu : ℕ) : ℕ :=
  mult_mod_loopW w modu y x y 0

/-- Rust `CoreArith::exp_mod_unsafe` loop with width-`w` wrapping primitives. -/
def exp_mod_loopW (w modu : ℕ) : ℕ → ℕ → ℕ → ℕ → ℕ
  | 0, _, _, res => res
  | f + 1, base, ex, res =>
    if ex = 0 then res
    else
      exp_mod_loopW w modu f (mult_mod_uW w base base modu) (ex / 2)
        (if ex % 2 = 1 then mult_mod_uW w res base modu else res)

/-- Rust `CoreArith::exp_mod_unsafe` with width-`w` wrapping primitives. -/
def exp_mod_uW (w base ex modu : ℕ) : ℕ :=
  exp_mod_loopW w modu ex base ex 1

/-- Rust `Arith::add_mod` with width-`w` wrapping primitives. -/
def add_modW (w x y modu : ℕ) : ℕ :=
  if x < modu ∧ y < modu then add_mod_uW w x y modu
  else add_mod_uW w (x % modu) (y % modu) modu

/-- Rust `Arith::sub_mod` with width-`w` wrapping primitives. -/
def sub_modW (w x y modu : ℕ) : ℕ :=
  if x < modu ∧ y < modu then sub_mod_uW w x y modu
  else sub_mod_uW w (x % modu) (y % modu) modu

/-- Rust `Arith::mult_mod` with width-`w` wrapping primitives. -/
def mult_modW (w x y modu : ℕ) : ℕ :=
  if x < modu ∧ y < modu then mult_mod_uW w x y modu
  else mult_mod_uW w (x % modu) (y % modu) modu

/-- Rust `Arith::exp_mod` with width-`w` wrapping primitives. -/
def exp_modW (w base ex modu : ℕ) : ℕ :=
  if base < modu then exp_mod_uW w base ex modu
  else exp_mod_uW w (base % modu) ex modu

/-! ### Sorting and ranges -/

/-- Model of Rust `Vec::sort` / `sort_unstable` on a vector of unsigned
values: sort ascending (both sorts agree with insertion sort on `ℕ`). -/
def vec_sort (l : List ℕ) : List ℕ :=
  List.insertionSort (fun a b => a ≤ b) l

/-- Fuel-structural body of `num::iter::range_step`. -/
def range_step_go : ℕ → ℕ → ℕ → ℕ → List ℕ
  | 0, _, _, _ => []
  | f + 1, start, stop, step =>
    if start < stop then start :: range_step_go f (start + step) stop step else []

/-- Rust `num::iter::range_step(start, stop, step).collect()`: the values
`start, start + step, ...` strictly below `stop`. -/
def range_step (start stop step : ℕ) : List ℕ :=
  range_step_go (stop + 1) start stop step

/-! ### Linear solver (src/lin/mod.rs) -/

/-- Rust struct `LinEq<T>`: the equation `a*x + b ≡ c (mod modu)` over an
unsigned type. -/
structure LinEq where
  a : ℕ
  b : ℕ
  c : ℕ
  modu : ℕ

/-- Rust `LinEq::solve_unique`. -/
def LinEq.solve_unique (a c modu : ℕ) : ℕ :=
  mult_mod (multip_inv a modu) c modu

/-- Body of Rust `LinEq::solve` after the initial guard, with the Rust local
`c` (the reduced right-hand side) passed as the argument `c` and the locals
`gcd_am`, `new_modu`, `base_sol` inlined. -/
def lin_solve_core (a c modu : ℕ) : Option (List ℕ) :=
  if c % gcd_mod a modu > 0 then none
  else if gcd_mod a modu = 1 then some [LinEq.solve_unique a c modu]
  else
    some (range_step
      (LinEq.solve_unique (a / gcd_mod a modu) (c / gcd_mod a modu) (modu / gcd_mod a modu))
      modu (modu / gcd_mod a modu))

/-- Rust `LinEq::solve`. -/
def LinEq.solve (eq : LinEq) : Option (List ℕ) :=
  if eq.modu ≤ 1 ∨ eq.a % eq.modu = 0 then none
  else lin_solve_core eq.a (if eq.b > 0 then sub_mod eq.c eq.b eq.modu else eq.c) eq.modu

/-- Rust struct `LinEqSigned<S, T>` for the signed/unsigned pair of width `w`
(the width is passed to `solve` below). -/
structure LinEqSigned where
  a : ℤ
  b : ℤ
  c : ℤ
  modu : ℕ

/-- Rust `LinEqSigned::solve` at width `w`.  The casts are performed in the
source order `a`, `b`, `c` and each failing cast returns `None` at once;
`Except.error ()` propagates the division-by-zero panic of the sign cast and
`.ok none` is Rust `None`. -/
def LinEqSigned.solve (w : ℕ) (eq : LinEqSigned) : Except Unit (Option (List ℕ)) :=
  match cast_to_unsigned w eq.a eq.modu with
  | .error e => .error e
  | .ok none => .ok none
  | .ok (some a) =>
    match cast_to_unsigned w eq.b eq.modu with
    | .error e => .error e
    | .ok none => .ok none
    | .ok (some b) =>
      match cast_to_unsigned w eq.c eq.modu with
      | .error e => .error e
      | .ok none => .ok none
      | .ok (some c) =>
          .ok (LinEq.solve { a := a, b := b, c := c, modu := eq.modu })

/-! ### Primality oracle (src/prime/mod.rs).
Everything here is deterministic straight-line code; the only unbounded Rust
loop is the search for Lucas parameters, which gets a generous explicit fuel
(the Rust loop, too, terminates only because a suitable `D` is found).  None
of the claims depend on the value computed by the fueled search. -/

/-- Bit length of `n` (Rust `128 - num.leading_zeros()` for the values the
library feeds it), fuel-structural. -/
def bit_length_go : ℕ → ℕ → ℕ
  | 0, _ => 0
  | f + 1, n => if n = 0 then 0 else bit_length_go f (n / 2) + 1

/-- Bit length of `n`. -/
def bit_length (n : ℕ) : ℕ :=
  bit_length_go n n

/-- The 17 odd primes of Rust `is_sure_odd_small_prime`. -/
def small_primes : List ℕ :=
  [3, 5, 7, 11, 13, 17, 19, 23, 29, 31, 37, 41, 43, 47, 53, 59, 61]

/-- Loop of Rust `is_sure_odd_small_prime`. -/
def is_sure_odd_small_prime_go (num : ℕ) : List ℕ → Bool
  | [] => false
  | p :: ps =>
    if p > num / p then true
    else if num % p = 0 then false
    else is_sure_odd_small_prime_go num ps

/-- Rust `is_sure_odd_small_prime`. -/
def is_sure_odd_small_prime (num : ℕ) : Bool :=
  is_sure_odd_small_prime_go num small_primes

/-- Rust `is_prime_mr`: the `for _ in 1..pow` squaring loop for one base. -/
def mr_square_loop (num num_even : ℕ) : ℕ → ℕ → Bool
  | 0, _ => false
  | k + 1, q =>
    if mult_mod q q num = num_even then true
    else mr_square_loop num num_even k (mult_mod q q num)

/-- Rust `is_prime_mr`: the test for one base. -/
def mr_base_passes (num num_even num_odd pow base : ℕ) : Bool :=
  if exp_mod base num_odd num = 1 ∨ exp_mod base num_odd num = num_even then true
  else mr_square_loop num num_even (pow - 1) (exp_mod base num_odd num)

/-- Rust `is_prime_mr` (deterministic Miller-Rabin over a base list). -/
def is_prime_mr (num : ℕ) (bases : List ℕ) : Bool :=
  bases.all fun base =>
    mr_base_passes num (num - 1) ((num - 1) / 2 ^ trailing_zeros (num - 1))
      (trailing_zeros (num - 1)) base

/-- Rust struct `LucasParams(D, P, Q)`. -/
structure LucasParams where
  d : ℕ
  p : ℕ
  q : ℕ

/-- The candidate `D` of round `i` of the Selfridge search, as a residue:
`5, num - 7 % num, 9, num - 11 % num, ...`. -/
def lucas_d (num i : ℕ) : ℕ :=
  if i % 2 = 1 then num - (5 + 2 * i) % num else 5 + 2 * i

/-- Loop of Rust `select_lucas_params`, fuel-structural (the Rust loop is
unbounded; the fuel below is far beyond any value reached in practice). -/
def select_lucas_params_go (num : ℕ) : ℕ → ℕ → Option LucasParams
  | 0, _ => none
  | fuel + 1, i =>
    if jacobi_symbol 128 (lucas_d num i) num = -1 then
      some (if i % 2 = 1 then ⟨lucas_d num i, 1, (1 + (5 + 2 * i)) / 4⟩
        else if lucas_d num i = 5 then ⟨lucas_d num i, 5, 5⟩
        else ⟨lucas_d num i, 1, num - ((5 + 2 * i) - 1) / 4 % num⟩)
    else if jacobi_symbol 128 (lucas_d num i) num = 0
        ∧ ((5 + 2 * i) < num ∨ (5 + 2 * i) % num ≠ 0) then none
    else if i = 10 ∧ nat_sqrt num * nat_sqrt num = num then none
    else select_lucas_params_go num fuel (i + 1)

/-- Rust `select_lucas_params`. -/
def select_lucas_params (num : ℕ) : Option LucasParams :=
  select_lucas_params_go num 1000 0

/-- Rust `update_lucas_normal_uvq`. -/
def update_lucas_normal_uvq (num u v w : ℕ) : ℕ × ℕ × ℕ :=
  (mult_mod u v num,
    add_mod (mult_mod v v num) (mult_mod (num - 2) w num) num,
    mult_mod w w num)

/-- Rust `modify_lucas_coef` (halving a sum modulo the odd `num`). -/
def modify_lucas_coef (x_left x_right num : ℕ) : ℕ :=
  if add_mod x_left x_right num % 2 = 1 then
    add_mod ((add_mod x_left x_right num - 1) / 2) ((num - 1) / 2 + 1) num
  else add_mod x_left x_right num / 2

/-- Rust `update_lucas_odd_bit_uvq`. -/
def update_lucas_odd_bit_uvq (num : ℕ) (pr : LucasParams) (u v w : ℕ) : ℕ × ℕ × ℕ :=
  (modify_lucas_coef (mult_mod pr.p u num) v num,
    modify_lucas_coef (mult_mod pr.d u num) (mult_mod pr.p v num) num,
    mult_mod pr.q w num)

/-- One iteration of the bit loop of Rust `pass_strong_lucas_test`; the state
is `(u, v, w, round, is_slprp, pass_euler_crit)`. -/
def lucas_step (num num_odd euler_round bits : ℕ) (pr : LucasParams)
    (st : ℕ × ℕ × ℕ × ℕ × Bool × Bool) (bit : ℕ) : ℕ × ℕ × ℕ × ℕ × Bool × Bool :=
  match st with
  | (u0, v0, w0, round0, slprp0, euler0) =>
    let s1 := if bit > 0 then update_lucas_normal_uvq num u0 v0 w0 else (u0, v0, w0)
    let round1 := if bit > 0 then round0 * 2 else round0
    let slprp1 := if ¬ slprp0 ∧ s1.2.1 = 0 ∧ round1 > num_odd ∧ bit < bits - 1 then true
      else slprp0
    let odd_bit := (num + 1) / 2 ^ (bits - 1 - bit) % 2 = 1
    let s2 := if odd_bit then update_lucas_odd_bit_uvq num pr s1.1 s1.2.1 s1.2.2 else s1
    let round2 := if odd_bit then round1 + 1 else round1
    let slprp2 := if round2 = num_odd ∧ (s2.1 = 0 ∨ s2.2.1 = 0) then true else slprp1
    let euler1 := if round2 = euler_round then
        (if add_mod s2.2.2
            (if jacobi_symbol 128 pr.q num = 0 then 0
              else if 0 < jacobi_symbol 128 pr.q num then num - pr.q % num else pr.q)
            num = 0 then true else euler0)
      else euler0
    (s2.1, s2.2.1, s2.2.2, round2, slprp2, euler1)

/-- Rust `pass_strong_lucas_test`. -/
def pass_strong_lucas_test (num : ℕ) (pr : LucasParams) : Bool :=
  let num_odd := (num + 1) / 2 ^ trailing_zeros (num + 1)
  let st := (List.range (bit_length (num + 1))).foldl
    (lucas_step num num_odd ((num + 1) / 2) (bit_length (num + 1)) pr) (0, 2, 1, 0, false, false)
  if st.1 ≠ 0 ∨ ¬ st.2.2.2.2.1 ∨ ¬ st.2.2.2.2.2 then false
  else if mult_mod 2 pr.q num ≠ st.2.1 % num then false
  else true

/-- Rust `is_prime_strong_bpsw`. -/
def is_prime_strong_bpsw (num : ℕ) : Bool :=
  if is_prime_mr num [2] = false then false
  else if num = 2 ^ 127 - 1 then true
  else
    match select_lucas_params num with
    | some params => pass_strong_lucas_test num params
    | none => false

/-- Rust `is_odd_prime` after its first dispatch step (the `n ≤ 1` / even
guard): small-prime lookup, then Miller-Rabin by ranges, then strong BPSW. -/
def is_odd_prime_body (num : ℕ) : Bool :=
  if is_sure_odd_small_prime num ∨ num < 67 then is_sure_odd_small_prime num
  else if num > 2 ^ 64 - 1 then is_prime_strong_bpsw num
  else if num > 2 ^ 32 - 1 then
    is_prime_mr num [2, 325, 9375, 28178, 450775, 9780504, 1795265022]
  else is_prime_mr num [2, 7, 61]

/-- Rust `is_odd_prime` (the primality oracle used by the quadratic solver). -/
def is_odd_prime (num : ℕ) : Bool :=
  if num ≤ 1 ∨ num % 2 = 0 then false
  else is_odd_prime_body num

/-! ### Utilities (src/utils.rs) -/

/-- Recursion of Rust `make_index_combinations` / `make_combs`: the cartesian
product of the index ranges, first bound outermost, in the exact emission
order of the Rust depth-first stack walk. -/
def index_combos : List ℕ → List (List ℕ)
  | [] => [[]]
  | n :: ns => (List.range n).bind (fun i => (index_combos ns).map (fun rest => i :: rest))

/-- Rust `make_index_combinations`. -/
def make_index_combinations (bounds : List ℕ) : Option (List (List ℕ)) :=
  if bounds.isEmpty ∨ bounds.any (fun v => v == 0) then none
  else some (index_combos bounds)

/-- Rust `largest_common_dividing_power_of_two`. -/
def largest_common_dividing_power_of_two (x y z : ℕ) : ℕ :=
  if x % 2 ≠ 0 ∨ y % 2 ≠ 0 ∨ z % 2 ≠ 0 then 0
  else if x = 0 ∨ y = 0 then 0
  else if z = 0 then min (trailing_zeros x) (trailing_zeros y)
  else min (trailing_zeros z) (min (trailing_zeros x) (trailing_zeros y))

/-! ### Prime factorization model (src/factor).

Modelled from the spec: the factor engine of src/factor is randomized
(Pollard rho over worker threads), so it has no deterministic shallow
embedding.  Its contract -- stated in the spec and in the comment at the
call site in quad/mod.rs -- is that `prime_factor_repr` returns the prime
factor representation `[(p_1,k_1), ..., (p_n,k_n)]` of its argument with
`modu = p_1^k_1 * ... * p_n^k_n`.  We realize that contract by
deterministic trial division (ascending primes), which is the unique
sorted representation. -/

/-- Trial-division loop: divisor candidates ascend from `d`; fuel-structural
(each step divides `n` down or bumps `d`, and `d` never passes `n`). -/
def factor_go : ℕ → ℕ → ℕ → List ℕ
  | 0, _, _ => []
  | fuel + 1, n, d =>
    if n ≤ 1 then []
    else if n % d = 0 then d :: factor_go fuel (n / d) d
    else factor_go fuel n (d + 1)

/-- Ascending list of prime factors of `n` with multiplicity. -/
def factor_list (n : ℕ) : List ℕ :=
  factor_go (2 * n) n 2

/-- Run-length encoding of a factor list into `(prime, exponent)` pairs. -/
def rle_go : List ℕ → ℕ → ℕ → List (ℕ × ℕ)
  | [], p, k => [(p, k)]
  | q :: rest, p, k => if q = p then rle_go rest p (k + 1) else (p, k) :: rle_go rest q 1

/-- The prime factor representation `[(p_1,k_1), ..., (p_n,k_n)]` of `n`
(the contract of `Factors::prime_factor_repr`, see the section comment). -/
def prime_factor_repr (n : ℕ) : List (ℕ × ℕ) :=
  match factor_list n with
  | [] => []
  | p :: rest => rle_go rest p 1

/-! ### Quadratic solver (src/quad/mod.rs).

The width `w` of the unsigned type is threaded through `QuadEq.solve`
because `trunc_square` is width-dependent.  The Rust `HashSet` in
`scale_possible_solutions_mod_power_of_two` is modelled by `List.dedup`
over the generation order: `Vec::from_iter` of a `HashSet` yields the set
in unspecified order, and every property proved below about these lists is
order-independent (the callers either sort afterwards or only consume the
set of elements). -/

/-- Rust struct `QuadEq<T>`: the equation `a*x^2 + b*x + c ≡ d (mod modu)`
over an unsigned type. -/
structure QuadEq where
  a : ℕ
  b : ℕ
  c : ℕ
  d : ℕ
  modu : ℕ

/-- The value `a*x^2 + b*x + (0 - d)` reduced mod `modu`, exactly as both
Hensel lifting loops of quad/mod.rs compute it (`ax`, `bx`, `cx`, `poly`). -/
def quad_poly_val (a b d x modu : ℕ) : ℕ :=
  add_mod_u (add_mod_u (mult_mod a (mult_mod x x modu) modu) (mult_mod b x modu) modu)
    (sub_mod 0 d modu) modu

/-- Loop of the non-singular branch of Rust `QuadEq::lift_with_hensel_method`:
`prm_k - 1` Newton steps, the modulus growing by a factor `p` each time. -/
def hensel_go (p a b d t : ℕ) : ℕ → ℕ → ℕ → ℕ
  | 0, _, lifted => lifted
  | k + 1, modu, lifted =>
    hensel_go p a b d t k (modu * p)
      (sub_mod_u lifted (mult_mod_u (quad_poly_val a b d lifted (modu * p)) t (modu * p))
        (modu * p))

/-- Loop of Rust `QuadEq::lift_singular_root`: at each stage every current
root whose polynomial value vanishes mod the next modulus spawns all its
lifts `sol + t * modu_prev`. -/
def singular_go (p a b d : ℕ) : ℕ → ℕ → List ℕ → Option (List ℕ)
  | 0, _, sols => some sols
  | k + 1, modu, sols =>
    if (sols.bind fun sol =>
        if quad_poly_val a b d sol (modu * p) % (modu * p) = 0
        then range_step sol (modu * p) modu else []) = [] then none
    else
      singular_go p a b d k (modu * p)
        (sols.bind fun sol =>
          if quad_poly_val a b d sol (modu * p) % (modu * p) = 0
          then range_step sol (modu * p) modu else [])

/-- Rust `QuadEq::lift_singular_root`. -/
def lift_singular_root (eq : QuadEq) (sub_sol prm_k : ℕ) : Option (List ℕ) :=
  singular_go eq.modu eq.a eq.b eq.d (prm_k - 1) eq.modu [sub_sol]

/-- The derivative value `2*a*s + b mod modu` (`poly_d` in
`lift_with_hensel_method`). -/
def hensel_poly_d (eq : QuadEq) (s : ℕ) : ℕ :=
  add_mod (mult_mod 2 (mult_mod eq.a s eq.modu) eq.modu) eq.b eq.modu

/-- Body of Rust `QuadEq::lift_with_hensel_method`: lift each sub-solution,
through the singular path when the derivative has no inverse, and
concatenate (a failed singular lift contributes nothing). -/
def hensel_collect (eq : QuadEq) (prm_k : ℕ) : List ℕ → List ℕ
  | [] => []
  | s :: rest =>
    (if gcd_mod eq.modu (hensel_poly_d eq s) ≠ 1 then
      (match lift_singular_root eq s prm_k with
       | some ls => ls
       | none => [])
    else
      [hensel_go eq.modu eq.a eq.b eq.d (multip_inv (hensel_poly_d eq s) eq.modu)
        (prm_k - 1) eq.modu s])
    ++ hensel_collect eq prm_k rest

/-- Rust `QuadEq::lift_with_hensel_method`. -/
def lift_with_hensel_method (eq : QuadEq) (sub_sols : List ℕ) (prm_k : ℕ) :
    Option (List ℕ) :=
  if hensel_collect eq prm_k sub_sols = [] then none
  else some (hensel_collect eq prm_k sub_sols)

/-- First index `i` in `[1, m)` with `par_t ^ (2^i mod modu) ≡ 1 (mod modu)`,
`0 when none exists (the inner `while pow_i < m` search of
`QuadEq::tonelli_shanks`). -/
def ts_least_i (par_t modu m : ℕ) : ℕ :=
  match ((List.range m).drop 1).find?
      (fun i => exp_mod_u_u128 par_t (2 ^ i % modu) modu == 1) with
  | some i => i
  | none => 0

/-- `par_b` of the Tonelli-Shanks loop. -/
def ts_par_b (par_c m least_i modu : ℕ) : ℕ :=
  exp_mod_u_u128 par_c (2 ^ (m - least_i - 1) % modu) modu

/-- Main loop of Rust `QuadEq::tonelli_shanks`, fuel-structural: the state
is `(par_c, par_t, res, m)` and `m` strictly decreases on every round that
does not exit, so fuel `m + 2` always suffices. -/
def ts_loop (modu : ℕ) : ℕ → ℕ → ℕ → ℕ → ℕ → Option ℕ
  | 0, _, _, _, _ => none
  | f + 1, par_c, par_t, res, m =>
    if par_t = 0 then some par_t
    else if par_t = 1 then some res
    else if ts_least_i par_t modu m = 0 then none
    else
      ts_loop modu f
        (mult_mod_u (ts_par_b par_c m (ts_least_i par_t modu m) modu)
          (ts_par_b par_c m (ts_least_i par_t modu m) modu) modu)
        (mult_mod_u par_t
          (mult_mod_u (ts_par_b par_c m (ts_least_i par_t modu m) modu)
            (ts_par_b par_c m (ts_least_i par_t modu m) modu) modu) modu)
        (mult_mod_u res (ts_par_b par_c m (ts_least_i par_t modu m) modu) modu)
        (ts_least_i par_t modu m)

/-- Rust `QuadEq::tonelli_shanks`. -/
def tonelli_shanks (q modu : ℕ) : Option ℕ :=
  match ((List.range modu).drop 2).find?
      (fun b => exp_mod_u b ((modu - 1) / 2) modu != 1) with
  | none => none
  | some non_resid =>
    ts_loop modu (trailing_zeros (modu - 1) % modu + 2)
      (exp_mod_u non_resid ((modu - 1) / 2 ^ trailing_zeros (modu - 1)) modu)
      (exp_mod q ((modu - 1) / 2 ^ trailing_zeros (modu - 1)) modu)
      (exp_mod q (((modu - 1) / 2 ^ trailing_zeros (modu - 1) + 1) / 2) modu)
      (trailing_zeros (modu - 1) % modu)

/-- Rust `QuadEq::solve_quad_residue_odd_prime_mod`. -/
def solve_quad_residue_odd_prime_mod (eq : QuadEq) : Option (List ℕ) :=
  if eq.d = 0 then some [eq.d]
  else if exp_mod eq.d ((eq.modu - 1) / 2) eq.modu ≠ 1 then none
  else
    match tonelli_shanks eq.d eq.modu with
    | none => none
    | some x => if x = 0 then some [x] else some (vec_sort [x, sub_mod_u 0 x eq.modu])

/-- Rust `QuadEq::solve_linear_singular`. -/
def solve_linear_singular (eq : QuadEq) : Option (List ℕ) :=
  if eq.b = 0 ∧ eq.d = 0 then some [0]
  else if eq.d % gcd_mod eq.b eq.modu > 0 then none
  else if gcd_mod eq.b eq.modu = 1 then
    some [mult_mod (multip_inv eq.b eq.modu) eq.d eq.modu]
  else
    some (range_step
      (mult_mod (multip_inv (eq.b / gcd_mod eq.b eq.modu) (eq.modu / gcd_mod eq.b eq.modu))
        (eq.d / gcd_mod eq.b eq.modu) (eq.modu / gcd_mod eq.b eq.modu))
      eq.modu (eq.modu / gcd_mod eq.b eq.modu))

/-- The completed-square right-hand side `b^2 + 4ad` of `solve_quad_simple`
(`b2`, `four_ad` and their `add_mod_unsafe` sum). -/
def quad_simple_d (eq : QuadEq) : ℕ :=
  add_mod_u (mult_mod eq.b eq.b eq.modu)
    (mult_mod 4 (mult_mod eq.a eq.d eq.modu) eq.modu) eq.modu

/-- Rust `QuadEq::solve_quad_simple`: complete the square, take the square
roots mod the (odd prime) modulus, and solve the resulting linear
equations. -/
def solve_quad_simple (eq : QuadEq) : Option (List ℕ) :=
  if eq.a = 0 ∧ eq.b = 0 then none
  else if eq.a % eq.modu = 0 then solve_linear_singular eq
  else
    match solve_quad_residue_odd_prime_mod { eq with d := quad_simple_d eq } with
    | none => none
    | some [] => none
    | some (z0 :: ztail) =>
      match LinEq.solve { a := mult_mod 2 eq.a eq.modu, b := eq.b, c := z0, modu := eq.modu } with
      | none => none
      | some x_sols =>
        if z0 = 0 ∨ ztail = [] then some x_sols
        else
          match ztail.headD 0 with
          | z1 =>
            match LinEq.solve
                { a := mult_mod 2 eq.a eq.modu, b := eq.b, c := z1, modu := eq.modu } with
            | none => some x_sols
            | some x_sols_2 => some (vec_sort (x_sols ++ x_sols_2))

/-- Rust `QuadEq::search_possible_solutions_mod_power_of_two`: test the
candidates `0` and `1` against the polynomial. -/
def search_possible_solutions_mod_power_of_two (eq : QuadEq) : Option (List ℕ) :=
  if ([0, 1].filter fun s =>
      sub_mod (add_mod_u (mult_mod eq.a (s * s) eq.modu) (mult_mod eq.b s eq.modu) eq.modu)
        eq.d eq.modu == 0) = [] then none
  else
    some ([0, 1].filter fun s =>
      sub_mod (add_mod_u (mult_mod eq.a (s * s) eq.modu) (mult_mod eq.b s eq.modu) eq.modu)
        eq.d eq.modu == 0)

/-- Rust `QuadEq::scale_possible_solutions_mod_power_of_two` (the `HashSet`
is modelled by `dedup`, see the section comment). -/
def scale_possible_solutions_mod_power_of_two (eq : QuadEq)
    (sub_sols : List ℕ) (prm_k m_prm_k t : ℕ) : Option (List ℕ) :=
  if (sub_sols.bind fun s =>
      (List.range (eq.modu ^ t)).map fun r =>
        add_mod s (mult_mod r (eq.modu ^ m_prm_k) (eq.modu ^ prm_k)) (eq.modu ^ prm_k)).dedup
      = [] then none
  else
    some (sub_sols.bind fun s =>
      (List.range (eq.modu ^ t)).map fun r =>
        add_mod s (mult_mod r (eq.modu ^ m_prm_k) (eq.modu ^ prm_k)) (eq.modu ^ prm_k)).dedup

/-- Rust `QuadEq::solve_quad_simple_mod_two`. -/
def solve_quad_simple_mod_two (eq : QuadEq) : Option (List ℕ) :=
  if eq.a % 2 = 1 ∧ eq.d % 2 = 1 then some [1]
  else if eq.a % 2 = 1 then some [0]
  else if eq.d % 2 = 1 then none
  else some [0, 1]

/-- Rust `QuadEq::solve_quad_simple_mod_four`. -/
def solve_quad_simple_mod_four (eq : QuadEq) (total_modulo : ℕ) : Option (List ℕ) :=
  if eq.d % 2 = 0 then
    if eq.d % 4 = 0 ∧ eq.a % 4 = 0 then some [0, 1, 2, 3]
    else if eq.d % 4 = 0 then some [0, 2]
    else if eq.a % 4 = 2 then some [1, 3]
    else none
  else if gcd_mod eq.a total_modulo = 1 then
    if mult_mod (multip_inv eq.a total_modulo) eq.d total_modulo % 4 = 1 then some [1, 3]
    else none
  else none

/-- One step of the odd-square lifting loop (`for j in 3..prm_k`) of Rust
`QuadEq::solve_quad_simple_mod_higher_power_of_two`. -/
def pow2_step (d T s j : ℕ) : ℕ :=
  add_mod s
    ((if mult_mod s s T ≥ d then (mult_mod s s T - d) / 2 ^ j
      else (d - mult_mod s s T) / 2 ^ j) % 2 * (2 ^ j / 2)) T

/-- The odd-square lifting loop run from `base` over `j = 3, ..., k - 1`. -/
def pow2_lift (d T base k : ℕ) : ℕ :=
  (List.range' 3 (k - 3)).foldl (pow2_step d T) base

/-- Rust `QuadEq::solve_quad_simple_mod_higher_power_of_two`. -/
def solve_quad_simple_mod_higher_power_of_two (w : ℕ) (eq : QuadEq)
    (prm_k total_modulo : ℕ) : Option (List ℕ) :=
  if mult_mod (multip_inv eq.a total_modulo) eq.d total_modulo = 0 then
    some (range_step 0 total_modulo (eq.modu ^ ((prm_k + 1) / 2)))
  else if mult_mod (multip_inv eq.a total_modulo) eq.d total_modulo % 8 = 1 then
    some
      [pow2_lift (mult_mod (multip_inv eq.a total_modulo) eq.d total_modulo) total_modulo 1 prm_k,
       total_modulo -
         pow2_lift (mult_mod (multip_inv eq.a total_modulo) eq.d total_modulo) total_modulo 1 prm_k,
       pow2_lift (mult_mod (multip_inv eq.a total_modulo) eq.d total_modulo) total_modulo 3 prm_k,
       total_modulo -
         pow2_lift (mult_mod (multip_inv eq.a total_modulo) eq.d total_modulo) total_modulo 3 prm_k]
  else if trunc_square w
      (nat_sqrt (mult_mod (multip_inv eq.a total_modulo) eq.d total_modulo))
      = mult_mod (multip_inv eq.a total_modulo) eq.d total_modulo then
    lift_with_hensel_method
      { eq with a := 1, d := mult_mod (multip_inv eq.a total_modulo) eq.d total_modulo } [0] prm_k
  else none

/-- The common dividing power of two taken out by
`solve_quad_simple_even_terms_mod_higher_power_of_two`. -/
def even_terms_t (eq : QuadEq) (total_modulo : ℕ) : ℕ :=
  largest_common_dividing_power_of_two (eq.a % total_modulo) total_modulo (eq.d % total_modulo)

/-- Rust `QuadEq::solve_quad_residue_power_of_two_mod` together with the
mutually recursive `solve_quad_simple_even_terms_mod_higher_power_of_two`
(inlined as the fourth arm).  The recursion re-enters with
`prm_k - t < prm_k` (`t ≥ 1` there), so fuel `prm_k + 1` always suffices. -/
def solve_quad_residue_power_of_two_mod (w : ℕ) : ℕ → QuadEq → ℕ → ℕ → Option (List ℕ)
  | 0, _, _, _ => none
  | fuel + 1, eq, prm_k, total_modulo =>
    if prm_k = 1 then solve_quad_simple_mod_two eq
    else if prm_k = 2 then solve_quad_simple_mod_four eq total_modulo
    else if gcd_mod eq.a total_modulo = 1 then
      solve_quad_simple_mod_higher_power_of_two w eq prm_k total_modulo
    else if eq.d % 2 = 0 ∧ eq.a % 2 = 0 ∧ eq.a % total_modulo > 0 then
      match solve_quad_residue_power_of_two_mod w fuel
          { eq with a := eq.a / 2 ^ even_terms_t eq total_modulo,
                    d := eq.d / 2 ^ even_terms_t eq total_modulo }
          (prm_k - even_terms_t eq total_modulo)
          (eq.modu ^ (prm_k - even_terms_t eq total_modulo)) with
      | some sols =>
        scale_possible_solutions_mod_power_of_two eq sols prm_k
          (prm_k - even_terms_t eq total_modulo) (even_terms_t eq total_modulo)
      | none => none
    else none

/-- The common dividing power of two taken out by
`solve_quad_mod_power_of_two`. -/
def pow2_t (eq : QuadEq) (total_modulo : ℕ) : ℕ :=
  largest_common_dividing_power_of_two (eq.a % total_modulo) (eq.b % total_modulo)
    (eq.d % total_modulo)

/-- The equation with the common power of two `2^t` divided out. -/
def pow2_shift (eq : QuadEq) (t : ℕ) : QuadEq :=
  { eq with a := eq.a / 2 ^ t, b := eq.b / 2 ^ t, d := eq.d / 2 ^ t }

/-- Rust `QuadEq::solve_quad_mod_power_of_two`. -/
def solve_quad_mod_power_of_two (w : ℕ) (eq : QuadEq) (prm_k total_modulo : ℕ) :
    Option (List ℕ) :=
  if eq.b = 0 then solve_quad_residue_power_of_two_mod w (prm_k + 1) eq prm_k total_modulo
  else
    if (pow2_shift eq (pow2_t eq total_modulo)).d % 2 = 1 ∧
        (((pow2_shift eq (pow2_t eq total_modulo)).a % 2 = 0 ∧
          (pow2_shift eq (pow2_t eq total_modulo)).b % 2 = 0) ∨
         ((pow2_shift eq (pow2_t eq total_modulo)).a % 2 = 1 ∧
          (pow2_shift eq (pow2_t eq total_modulo)).b % 2 = 1)) then none
    else
      match search_possible_solutions_mod_power_of_two
          (pow2_shift eq (pow2_t eq total_modulo)) with
      | none => none
      | some simple_sols =>
        if prm_k > 1 then
          match lift_with_hensel_method (pow2_shift eq (pow2_t eq total_modulo)) simple_sols
              (prm_k - pow2_t eq total_modulo) with
          | none => none
          | some sols =>
            if pow2_t eq total_modulo = 0 then some sols
            else
              scale_possible_solutions_mod_power_of_two eq sols prm_k
                (prm_k - pow2_t eq total_modulo) (pow2_t eq total_modulo)
        else
          scale_possible_solutions_mod_power_of_two eq simple_sols prm_k
            (prm_k - pow2_t eq total_modulo) (pow2_t eq total_modulo)

/-- One CRT summand of Rust `QuadEq::combine_solution_for_compo_modu`. -/
def crt_term (compo_modu x Mi : ℕ) : ℕ :=
  mult_mod_u (mult_mod x (compo_modu / Mi) compo_modu) (multip_inv (compo_modu / Mi) Mi)
    compo_modu

/-- The inner accumulation of `combine_solution_for_compo_modu` for one index
combination: the flat `all_sols` vector with its start-index bookkeeping is
represented as one `(sub-solutions, prime-power modulus)` group per factor,
so `all_sols[c_i + start_i]` is exactly entry `c_i` of group `i`. -/
def crt_sum (compo_modu : ℕ) : List (List ℕ × ℕ) → List ℕ → ℕ → ℕ
  | [], _, acc => acc
  | _ :: _, [], acc => acc
  | g :: gs, ci :: cs, acc =>
    crt_sum compo_modu gs cs (add_mod_u acc (crt_term compo_modu (g.1.getD ci 0) g.2) compo_modu)

/-- Rust `QuadEq::combine_solution_for_compo_modu`.  The `None` arm of
`make_index_combinations` is a `panic!` in Rust; it is unreachable (every
group is nonempty), and modelled by the empty list. -/
def combine_solution_for_compo_modu (all_sols : List (List ℕ × ℕ)) (compo_modu : ℕ) :
    List ℕ :=
  match make_index_combinations (all_sols.map fun g => g.1.length) with
  | none => []
  | some combos => vec_sort (combos.map fun combi => crt_sum compo_modu all_sols combi 0)

/-- The per-factor sub-solution computation of
`QuadEq::solve_quad_composite_mod` (the body of its `for` loop). -/
def composite_sub_sols (w : ℕ) (eq : QuadEq) (p k : ℕ) : Option (List ℕ) :=
  if p > 2 then
    match solve_quad_simple { eq with modu := p } with
    | some xs => if k ≤ 1 then some xs else lift_with_hensel_method { eq with modu := p } xs k
    | none => none
  else solve_quad_mod_power_of_two w { eq with modu := p } k (p ^ k)

/-- The collection loop of `QuadEq::solve_quad_composite_mod`: one
`(sub-solutions, p^k)` group per factor, `none` as soon as a factor has no
solutions. -/
def composite_collect (w : ℕ) (eq : QuadEq) : List (ℕ × ℕ) → Option (List (List ℕ × ℕ))
  | [] => some []
  | (p, k) :: rest =>
    match composite_sub_sols w eq p k with
    | none => none
    | some ss =>
      if ss = [] then none
      else
        match composite_collect w eq rest with
        | none => none
        | some groups => some ((ss, p ^ k) :: groups)

/-- Rust `QuadEq::solve_quad_composite_mod`. -/
def solve_quad_composite_mod (w : ℕ) (eq : QuadEq) (factor_repr : List (ℕ × ℕ)) :
    Option (List ℕ) :=
  match composite_collect w eq factor_repr with
  | none => none
  | some groups =>
    if 1 < factor_repr.length then some (combine_solution_for_compo_modu groups eq.modu)
    else some (vec_sort (groups.bind fun g => g.1))

/-- The `c`-elimination step at the top of Rust `QuadEq::solve`. -/
def quad_zero_c (eq : QuadEq) : QuadEq :=
  if eq.c > 0 then { eq with d := sub_mod eq.d eq.c eq.modu, c := 0 } else eq

/-- Rust `QuadEq::solve` at unsigned width `w`. -/
def QuadEq.solve (w : ℕ) (eq : QuadEq) : Option (List ℕ) :=
  if eq.modu ≤ 1 then none
  else if eq.a % eq.modu = 0 ∧ eq.b % eq.modu = 0 then none
  else if eq.a % eq.modu = 0 then
    LinEq.solve { a := eq.b, b := eq.c, c := eq.d, modu := eq.modu }
  else if is_odd_prime eq.modu then
    if (quad_zero_c eq).a = 1 ∧ (quad_zero_c eq).b = 0 then
      solve_quad_residue_odd_prime_mod (quad_zero_c eq)
    else solve_quad_simple (quad_zero_c eq)
  else solve_quad_composite_mod w (quad_zero_c eq) (prime_factor_repr eq.modu)

/-- Rust struct `QuadEqSigned<S, T>` for the signed/unsigned pair of width
`w` (the width is passed to `solve`). -/
structure QuadEqSigned where
  a : ℤ
  b : ℤ
  c : ℤ
  d : ℤ
  modu : ℕ

/-- Rust `QuadEqSigned::solve` at width `w`: cast `a`, `b`, `c`, `d` in source
order (each failing cast returns `None` at once; `Except.error ()` propagates
the division-by-zero panic of the sign cast), then call `QuadEq.solve`. -/
def QuadEqSigned.solve (w : ℕ) (eq : QuadEqSigned) : Except Unit (Option (List ℕ)) :=
  match cast_to_unsigned w eq.a eq.modu with
  | .error e => .error e
  | .ok none => .ok none
  | .ok (some a) =>
    match cast_to_unsigned w eq.b eq.modu with
    | .error e => .error e
    | .ok none => .ok none
    | .ok (some b) =>
      match cast_to_unsigned w eq.c eq.modu with
      | .error e => .error e
      | .ok none => .ok none
      | .ok (some c) =>
        match cast_to_unsigned w eq.d eq.modu with
        | .error e => .error e
        | .ok none => .ok none
        | .ok (some d) =>
          .ok (QuadEq.solve w { a := a, b := b, c := c, d := d, modu := eq.modu })

/-! ### Basic facts about the arithmetic kernel -/

theorem add_mod_u_eq {x y n : ℕ} (hx : x < n) (hy : y < n) :
    add_mod_u x y n = (x + y) % n := by
  unfold add_mod_u
  by_cases h : x < n - y
  · rw [if_pos h, Nat.mod_eq_of_lt (by omega)]
  · rw [if_neg h]
    have h1 : min x y - (n - max x y) = x + y - n := by omega
    have h2 : (x + y) % n = x + y - n := by
      rw [Nat.mod_eq_sub_mod (by omega), Nat.mod_eq_of_lt (by omega)]
    omega

theorem add_mod_u_lt {x y n : ℕ} (hx : x < n) (hy : y < n) :
    add_mod_u x y n < n := by
  rw [add_mod_u_eq hx hy]
  exact Nat.mod_lt _ (by omega)

theorem sub_mod_u_eq {x y n : ℕ} (hx : x < n) (hy : y < n) :
    sub_mod_u x y n = (x + (n - y)) % n := by
  unfold sub_mod_u
  by_cases h : x ≥ y
  · rw [if_pos h]
    rcases Nat.eq_zero_or_pos y with hy0 | hy0
    · subst hy0
      rw [Nat.sub_zero, Nat.sub_zero, Nat.add_mod_right, Nat.mod_eq_of_lt hx]
    · have : x + (n - y) = n + (x - y) := by omega
      rw [this, Nat.add_mod_left, Nat.mod_eq_of_lt (by omega)]
  · rw [if_neg h, Nat.mod_eq_of_lt (by omega)]
    omega

theorem sub_mod_u_lt {x y n : ℕ} (hx : x < n) (hy : y < n) :
    sub_mod_u x y n < n := by
  rw [sub_mod_u_eq hx hy]
  exact Nat.mod_lt _ (by omega)

theorem mod_add_mul_mod (a b c n : ℕ) : (a % n + b % n * c) % n = (a + b * c) % n :=
  ((Nat.mod_modEq a n).add ((Nat.mod_modEq b n).mul_right c))

theorem add_mod_u_le_eq {x y n : ℕ} (hx : x < n) (hy : y ≤ n) :
    add_mod_u x y n = (x + y) % n := by
  rcases eq_or_lt_of_le hy with rfl | hy'
  · unfold add_mod_u
    have h1 : ¬ x < y - y := by omega
    rw [if_neg h1, max_eq_right (le_of_lt hx), min_eq_left (le_of_lt hx),
      Nat.sub_self, Nat.sub_zero, Nat.add_mod_right, Nat.mod_eq_of_lt hx]
  · exact add_mod_u_eq hx hy'

theorem add_mod_u_dbl {x n : ℕ} (hn : 1 ≤ n) (hx : x ≤ n) :
    add_mod_u x x n ≤ n ∧ add_mod_u x x n % n = (x + x) % n := by
  rcases eq_or_lt_of_le hx with rfl | hx'
  · unfold add_mod_u
    have h1 : ¬ x < x - x := by omega
    rw [if_neg h1, max_self, min_self, Nat.sub_self, Nat.sub_zero]
    constructor
    · exact le_rfl
    · rw [Nat.mod_self, Nat.add_mod_right, Nat.mod_self]
  · rw [add_mod_u_eq hx' hx']
    exact ⟨le_of_lt (Nat.mod_lt _ (by omega)), Nat.mod_mod_of_dvd _ dvd_rfl⟩

theorem mult_mod_loop_spec (n : ℕ) (hn : 1 ≤ n) :
    ∀ f y x res, y ≤ f → x ≤ n → res < n →
      mult_mod_loop n f x y res = (res + x * y) % n := by
  intro f
  induction f with
  | zero =>
    intro y x res hy hx hres
    have : y = 0 := by omega
    subst this
    simp [mult_mod_loop, Nat.mod_eq_of_lt hres]
  | succ f ih =>
    intro y x res hy hx hres
    rw [mult_mod_loop]
    by_cases h0 : y = 0
    · simp [h0, Nat.mod_eq_of_lt hres]
    · rw [if_neg h0]
      have hx2 := add_mod_u_dbl hn hx
      have hres2 : (if y % 2 = 1 then add_mod_u res x n else res) < n := by
        by_cases hp : y % 2 = 1
        · rw [if_pos hp, add_mod_u_le_eq hres hx]
          exact Nat.mod_lt _ (by omega)
        · rw [if_neg hp]; exact hres
      rw [ih (y / 2) _ _ (by omega) hx2.1 hres2]
      have hsplit : res + x * y = (res + x * (y % 2)) + (x + x) * (y / 2) := by
        conv_lhs => rw [← Nat.div_add_mod y 2]
        ring
      rw [hsplit]
      have hmain : ∀ r : ℕ, r < n → r % n = (res + x * (y % 2)) % n →
          (r + add_mod_u x x n * (y / 2)) % n
            = (res + x * (y % 2) + (x + x) * (y / 2)) % n := by
        intro r hr hcong
        calc (r + add_mod_u x x n * (y / 2)) % n
            = (r % n + (add_mod_u x x n % n) * (y / 2)) % n :=
              (mod_add_mul_mod r (add_mod_u x x n) (y / 2) n).symm
          _ = ((res + x * (y % 2)) % n + ((x + x) % n) * (y / 2)) % n := by
              rw [hcong, hx2.2]
          _ = (res + x * (y % 2) + (x + x) * (y / 2)) % n :=
              mod_add_mul_mod _ (x + x) (y / 2) n
      by_cases hp : y % 2 = 1
      · rw [if_pos hp]
        refine hmain _ ?_ ?_
        · rw [add_mod_u_le_eq hres hx]
          exact Nat.mod_lt _ (by omega)
        · rw [add_mod_u_le_eq hres hx, hp, Nat.mul_one,
            Nat.mod_mod_of_dvd _ dvd_rfl]
      · have hp0 : y % 2 = 0 := by omega
        rw [if_neg hp]
        refine hmain _ hres ?_
        rw [hp0, Nat.mul_zero, Nat.add_zero]

theorem mult_mod_u_eq {x n : ℕ} (y : ℕ) (hx : x ≤ n) (hn : 1 ≤ n) :
    mult_mod_u x y n = x * y % n := by
  rw [mult_mod_u, mult_mod_loop_spec n hn y y x 0 le_rfl hx (by omega), Nat.zero_add]

theorem mult_mod_u_lt {x n : ℕ} (y : ℕ) (hx : x ≤ n) (hn : 1 ≤ n) :
    mult_mod_u x y n < n := by
  rw [mult_mod_u_eq y hx hn]
  exact Nat.mod_lt _ (by omega)

theorem exp_mod_loop_spec (n : ℕ) (hn : 1 ≤ n) :
    ∀ f ex base res, ex ≤ f → base < n → res < n →
      exp_mod_loop n f base ex res = (res * base ^ ex) % n := by
  intro f
  induction f with
  | zero =>
    intro ex base res hex hb hres
    have : ex = 0 := by omega
    subst this
    simp [exp_mod_loop, Nat.mod_eq_of_lt hres]
  | succ f ih =>
    intro ex base res hex hb hres
    rw [exp_mod_loop]
    by_cases h0 : ex = 0
    · simp [h0, Nat.mod_eq_of_lt hres]
    · rw [if_neg h0]
      have hb2 : mult_mod_u base base n < n := mult_mod_u_lt base (le_of_lt hb) (by omega)
      have hres2 : (if ex % 2 = 1 then mult_mod_u res base n else res) < n := by
        by_cases hp : ex % 2 = 1
        · rw [if_pos hp]; exact mult_mod_u_lt base (le_of_lt hres) (by omega)
        · rw [if_neg hp]; exact hres
      rw [ih (ex / 2) _ _ (by omega) hb2 hres2]
      rw [mult_mod_u_eq base (le_of_lt hb) (by omega)]
      have hsplit : base ^ ex = base ^ (ex % 2) * (base * base) ^ (ex / 2) := by
        conv_lhs => rw [← Nat.div_add_mod ex 2, Nat.pow_add, Nat.pow_mul]
        ring
      have key : ∀ r : ℕ, r < n →
          (r * ((base * base) % n) ^ (ex / 2)) % n = (r * (base * base) ^ (ex / 2)) % n := by
        intro r hr
        exact (Nat.ModEq.refl r).mul ((Nat.mod_modEq (base * base) n).pow (ex / 2))
      by_cases hp : ex % 2 = 1
      · rw [if_pos hp, mult_mod_u_eq base (le_of_lt hres) (by omega), hsplit, hp, pow_one]
        calc (res * base % n * ((base * base) % n) ^ (ex / 2)) % n
            = (res * base % n * (base * base) ^ (ex / 2)) % n :=
              key _ (Nat.mod_lt _ (by omega))
          _ = (res * base * (base * base) ^ (ex / 2)) % n := by
              exact ((Nat.mod_modEq (res * base) n).mul_right _)
          _ = (res * (base * (base * base) ^ (ex / 2))) % n := by ring_nf
      · have hp0 : ex % 2 = 0 := by omega
        rw [if_neg hp, hsplit, hp0, pow_zero, one_mul]
        exact key res hres

theorem exp_mod_u_eq {base n : ℕ} (ex : ℕ) (hn : 2 ≤ n) (hb : base < n) :
    exp_mod_u base ex n = base ^ ex % n := by
  rw [exp_mod_u, exp_mod_loop_spec n (by omega) ex ex base 1 le_rfl hb (by omega), one_mul]

theorem add_mod_eq (x y : ℕ) {n : ℕ} (hn : 1 ≤ n) : add_mod x y n = (x + y) % n := by
  unfold add_mod
  by_cases h : x < n ∧ y < n
  · rw [if_pos h, add_mod_u_eq h.1 h.2]
  · rw [if_neg h, add_mod_u_eq (Nat.mod_lt _ (by omega)) (Nat.mod_lt _ (by omega)),
      Nat.add_mod x y]

theorem add_mod_lt (x y : ℕ) {n : ℕ} (hn : 1 ≤ n) : add_mod x y n < n := by
  rw [add_mod_eq x y hn]; exact Nat.mod_lt _ (by omega)

theorem sub_mod_eq (x y : ℕ) {n : ℕ} (hn : 1 ≤ n) :
    sub_mod x y n = (x % n + (n - y % n)) % n := by
  unfold sub_mod
  by_cases h : x < n ∧ y < n
  · rw [if_pos h, sub_mod_u_eq h.1 h.2, Nat.mod_eq_of_lt h.1, Nat.mod_eq_of_lt h.2]
  · rw [if_neg h, sub_mod_u_eq (Nat.mod_lt _ (by omega)) (Nat.mod_lt _ (by omega))]

theorem sub_mod_lt (x y : ℕ) {n : ℕ} (hn : 1 ≤ n) : sub_mod x y n < n := by
  rw [sub_mod_eq x y hn]; exact Nat.mod_lt _ (by omega)

theorem mult_mod_eq (x y : ℕ) {n : ℕ} (hn : 1 ≤ n) : mult_mod x y n = x * y % n := by
  unfold mult_mod
  by_cases h : x < n ∧ y < n
  · rw [if_pos h, mult_mod_u_eq y (le_of_lt h.1) hn]
  · rw [if_neg h, mult_mod_u_eq _ (le_of_lt (Nat.mod_lt _ (by omega))) hn]
    conv_rhs => rw [Nat.mul_mod]

theorem mult_mod_lt (x y : ℕ) {n : ℕ} (hn : 1 ≤ n) : mult_mod x y n < n := by
  rw [mult_mod_eq x y hn]; exact Nat.mod_lt _ (by omega)

theorem exp_mod_eq (base ex : ℕ) {n : ℕ} (hn : 2 ≤ n) :
    exp_mod base ex n = base ^ ex % n := by
  unfold exp_mod
  by_cases h : base < n
  · rw [if_pos h, exp_mod_u_eq ex hn h]
  · rw [if_neg h, exp_mod_u_eq ex hn (Nat.mod_lt _ (by omega))]
    conv_rhs => rw [Nat.pow_mod]

theorem exp_mod_lt (base ex : ℕ) {n : ℕ} (hn : 2 ≤ n) : exp_mod base ex n < n := by
  rw [exp_mod_eq base ex hn]; exact Nat.mod_lt _ (by omega)

/-! ### Trailing zeros, binary gcd, extended Euclid -/

theorem tz_go_spec : ∀ f n, n ≠ 0 → n ≤ f →
    2 ^ tz_go f n ∣ n ∧ n / 2 ^ tz_go f n % 2 = 1 := by
  intro f
  induction f with
  | zero => intro n h0 h1; omega
  | succ f ih =>
    intro n h0 h1
    rw [tz_go]
    by_cases h : n % 2 = 1 ∨ n = 0
    · rw [if_pos h]
      refine ⟨one_dvd n, ?_⟩
      rw [pow_zero, Nat.div_one]
      omega
    · rw [if_neg h]
      push_neg at h
      obtain ⟨hd, ho⟩ := ih (n / 2) (by omega) (by omega)
      obtain ⟨k, hk⟩ := hd
      constructor
      · refine ⟨k, ?_⟩
        rw [pow_succ]
        calc n = 2 * (n / 2) := by omega
          _ = 2 * (2 ^ tz_go f (n / 2) * k) := by conv_lhs => rw [hk]
          _ = 2 ^ tz_go f (n / 2) * 2 * k := by ring
      · have h2 : (2 : ℕ) ^ (tz_go f (n / 2) + 1) = 2 * 2 ^ tz_go f (n / 2) := by
          rw [pow_succ]; ring
        rw [h2, Nat.mul_comm 2 (2 ^ tz_go f (n / 2)), ← Nat.div_div_eq_div_mul]
        have h3 : n / 2 / 2 ^ tz_go f (n / 2) = n / 2 ^ tz_go f (n / 2) / 2 := by
          rw [Nat.div_div_eq_div_mul, Nat.div_div_eq_div_mul, Nat.mul_comm]
        rw [← h3]
        exact ho

theorem trailing_zeros_spec {n : ℕ} (hn : n ≠ 0) :
    2 ^ trailing_zeros n ∣ n ∧ n / 2 ^ trailing_zeros n % 2 = 1 :=
  tz_go_spec n n hn le_rfl

theorem v2_even_of_succ_dvd {n a : ℕ} (h : 2 ^ (a + 1) ∣ n) : n / 2 ^ a % 2 = 0 := by
  obtain ⟨k, hk⟩ := h
  subst hk
  rw [pow_succ]
  rw [show 2 ^ a * 2 * k = 2 ^ a * (2 * k) by ring,
    Nat.mul_div_cancel_left _ (Nat.pos_pow_of_pos a (by norm_num))]
  omega

theorem v2_unique {n a b : ℕ} (h1 : 2 ^ a ∣ n) (h2 : n / 2 ^ a % 2 = 1)
    (h3 : 2 ^ b ∣ n) (h4 : n / 2 ^ b % 2 = 1) : a = b := by
  rcases lt_trichotomy a b with h | h | h
  · have : 2 ^ (a + 1) ∣ n := dvd_trans (pow_dvd_pow 2 (by omega)) h3
    have := v2_even_of_succ_dvd this
    omega
  · exact h
  · have : 2 ^ (b + 1) ∣ n := dvd_trans (pow_dvd_pow 2 (by omega)) h1
    have := v2_even_of_succ_dvd this
    omega

theorem trailing_zeros_unique {n v : ℕ} (hn : n ≠ 0) (h1 : 2 ^ v ∣ n)
    (h2 : n / 2 ^ v % 2 = 1) : trailing_zeros n = v :=
  v2_unique (trailing_zeros_spec hn).1 (trailing_zeros_spec hn).2 h1 h2

theorem lor_parity (x y : ℕ) : ((x ||| y) % 2 = 1) ↔ (x % 2 = 1 ∨ y % 2 = 1) := by
  have h := Nat.testBit_lor x y 0
  simp only [Nat.testBit_zero] at h
  have h2 : (decide ((x ||| y) % 2 = 1) = true) ↔
      (decide (x % 2 = 1) || decide (y % 2 = 1)) = true := by rw [h]
  simpa [Bool.or_eq_true, decide_eq_true_iff] using h2

theorem lor_div_two (x y : ℕ) : (x ||| y) / 2 = x / 2 ||| y / 2 := by
  apply Nat.eq_of_testBit_eq
  intro i
  rw [Nat.testBit_div_two, Nat.testBit_lor, Nat.testBit_lor, Nat.testBit_div_two,
    Nat.testBit_div_two]

theorem lor_eq_zero_iff (x y : ℕ) : x ||| y = 0 ↔ x = 0 ∧ y = 0 := by
  constructor
  · intro h
    constructor
    · apply Nat.eq_of_testBit_eq
      intro i
      have h2 := congrArg (fun z => Nat.testBit z i) h
      simp only [Nat.zero_testBit] at h2 ⊢
      rw [Nat.testBit_lor] at h2
      exact (Bool.or_eq_false_iff.mp h2).1
    · apply Nat.eq_of_testBit_eq
      intro i
      have h2 := congrArg (fun z => Nat.testBit z i) h
      simp only [Nat.zero_testBit] at h2 ⊢
      rw [Nat.testBit_lor] at h2
      exact (Bool.or_eq_false_iff.mp h2).2
  · rintro ⟨rfl, rfl⟩
    simp

theorem pow_two_dvd_lor : ∀ m x y, 2 ^ m ∣ x → 2 ^ m ∣ y → 2 ^ m ∣ (x ||| y) := by
  intro m
  induction m with
  | zero => intro x y _ _; simp only [pow_zero]; exact one_dvd _
  | succ m ih =>
    intro x y hx hy
    have hx2 : x % 2 = 0 := by
      obtain ⟨k, rfl⟩ := hx
      have : (2 : ℕ) ∣ 2 ^ (m + 1) * k :=
        dvd_mul_of_dvd_left (dvd_pow_self 2 (by omega)) k
      omega
    have hy2 : y % 2 = 0 := by
      obtain ⟨k, rfl⟩ := hy
      have : (2 : ℕ) ∣ 2 ^ (m + 1) * k :=
        dvd_mul_of_dvd_left (dvd_pow_self 2 (by omega)) k
      omega
    have hl2 : (x ||| y) % 2 = 0 := by
      have := lor_parity x y
      omega
    have hdx : 2 ^ m ∣ x / 2 := by
      obtain ⟨k, rfl⟩ := hx
      have h3 : 2 ^ (m + 1) * k = 2 * (2 ^ m * k) := by rw [pow_succ]; ring
      rw [h3, Nat.mul_div_cancel_left _ (by norm_num : (0 : ℕ) < 2)]
      exact dvd_mul_right _ k
    have hdy : 2 ^ m ∣ y / 2 := by
      obtain ⟨k, rfl⟩ := hy
      have h3 : 2 ^ (m + 1) * k = 2 * (2 ^ m * k) := by rw [pow_succ]; ring
      rw [h3, Nat.mul_div_cancel_left _ (by norm_num : (0 : ℕ) < 2)]
      exact dvd_mul_right _ k
    obtain ⟨k, hk⟩ := ih (x / 2) (y / 2) hdx hdy
    refine ⟨k, ?_⟩
    have h4 : (x ||| y) = 2 * ((x ||| y) / 2) := by omega
    rw [h4, lor_div_two, hk, pow_succ]
    ring

theorem lor_div_pow : ∀ m x y, (x ||| y) / 2 ^ m = (x / 2 ^ m) ||| (y / 2 ^ m) := by
  intro m
  induction m with
  | zero => intro x y; simp
  | succ m ih =>
    intro x y
    have h2 : ∀ z : ℕ, z / 2 ^ (m + 1) = z / 2 ^ m / 2 := by
      intro z
      rw [Nat.div_div_eq_div_mul, pow_succ]
    rw [h2, h2, h2, ih, lor_div_two]

theorem trailing_zeros_lor {x y : ℕ} (hx : x ≠ 0) (hy : y ≠ 0) :
    trailing_zeros (x ||| y) = min (trailing_zeros x) (trailing_zeros y) := by
  obtain ⟨hdx, hox⟩ := trailing_zeros_spec hx
  obtain ⟨hdy, hoy⟩ := trailing_zeros_spec hy
  have hne : x ||| y ≠ 0 := by
    intro h
    exact hx ((lor_eq_zero_iff x y).mp h).1
  apply trailing_zeros_unique hne
  · exact pow_two_dvd_lor _ x y
      (dvd_trans (pow_dvd_pow 2 (min_le_left _ _)) hdx)
      (dvd_trans (pow_dvd_pow 2 (min_le_right _ _)) hdy)
  · rw [lor_div_pow]
    rw [lor_parity]
    rcases le_total (trailing_zeros x) (trailing_zeros y) with h | h
    · left
      rw [min_eq_left h]
      exact hox
    · right
      rw [min_eq_right h]
      exact hoy

theorem coprime_two_pow_of_odd {x t : ℕ} (hx : x % 2 = 1) : Nat.Coprime x (2 ^ t) := by
  apply Nat.Coprime.pow_right
  rw [Nat.coprime_comm]
  rw [Nat.Prime.coprime_iff_not_dvd Nat.prime_two]
  omega

theorem gcd_odd_strip {x y : ℕ} (hx : x % 2 = 1) (hy : y ≠ 0) :
    Nat.gcd x (y / 2 ^ trailing_zeros y) = Nat.gcd x y := by
  obtain ⟨hd, _⟩ := trailing_zeros_spec hy
  obtain ⟨k, hk⟩ := hd
  have hk2 : y / 2 ^ trailing_zeros y = k :=
    Nat.div_eq_of_eq_mul_left (pow_pos (by norm_num) _) (hk.trans (Nat.mul_comm _ _))
  rw [hk2]
  conv_rhs => rw [hk]
  exact ((coprime_two_pow_of_odd hx (t := trailing_zeros y)).symm.gcd_mul_left_cancel_right
    k).symm

theorem gcd_loop_spec (shift : ℕ) : ∀ f x y, x % 2 = 1 → 1 ≤ y → x + y ≤ f + 1 →
    gcd_loop shift f x y = 2 ^ shift * Nat.gcd x y := by
  intro f
  induction f with
  | zero => intro x y hx hy hf; omega
  | succ f ih =>
    intro x y hx hy hf
    have hy0 : y ≠ 0 := by omega
    obtain ⟨hdy, hoy⟩ := trailing_zeros_spec hy0
    rw [gcd_loop]
    have hy1le : y / 2 ^ trailing_zeros y ≤ y := Nat.div_le_self _ _
    have hgxy0 : Nat.gcd x (y / 2 ^ trailing_zeros y) = Nat.gcd x y := gcd_odd_strip hx hy0
    generalize hgen : y / 2 ^ trailing_zeros y = y1 at hoy hy1le hgxy0 ⊢
    have hy1pos : 1 ≤ y1 := by omega
    by_cases hxy : x > y1
    · rw [if_pos hxy]
      simp only []
      have hne : ¬ (x - y1 = 0) := by omega
      rw [if_neg hne]
      rw [ih y1 (x - y1) hoy (by omega) (by omega)]
      rw [Nat.gcd_sub_self_right (le_of_lt hxy), Nat.gcd_comm y1 x, hgxy0]
    · rw [if_neg hxy]
      simp only []
      by_cases he : y1 - x = 0
      · rw [if_pos he]
        have hxe : x = y1 := by omega
        rw [← hgxy0, ← hxe, Nat.gcd_self]
        exact Nat.mul_comm x (2 ^ shift)
      · rw [if_neg he]
        rw [ih x (y1 - x) hx (by omega) (by omega)]
        rw [Nat.gcd_sub_self_right (by omega), hgxy0]

theorem gcd_mod_eq (x y : ℕ) : gcd_mod x y = Nat.gcd x y := by
  unfold gcd_mod
  by_cases h : x = 0 ∨ y = 0
  · rw [if_pos h]
    rcases h with rfl | rfl
    · rw [Nat.zero_or, Nat.gcd_zero_left]
    · rw [Nat.or_zero, Nat.gcd_zero_right]
  · rw [if_neg h]
    push_neg at h
    obtain ⟨hx0, hy0⟩ := h
    simp only []
    obtain ⟨hdx, hox⟩ := trailing_zeros_spec hx0
    set a := trailing_zeros x with ha
    set x1 := x / 2 ^ a with hx1
    have hx1le : x1 ≤ x := Nat.div_le_self _ _
    have hx1pos : 1 ≤ x1 := by
      have := Nat.div_pos (Nat.le_of_dvd (by omega) hdx) (Nat.pos_pow_of_pos a (by norm_num))
      omega
    rw [gcd_loop_spec _ (x + y) x1 y hox (by omega) (by omega)]
    obtain ⟨hdy, hoy⟩ := trailing_zeros_spec hy0
    set b := trailing_zeros y with hb
    set y1 := y / 2 ^ b with hy1def
    have hgx : Nat.gcd x1 y = Nat.gcd x1 y1 := (gcd_odd_strip hox hy0).symm
    rw [trailing_zeros_lor hx0 hy0, ← ha, ← hb, hgx]
    obtain ⟨kx, hkx⟩ := hdx
    obtain ⟨ky, hky⟩ := hdy
    have hkx2 : x1 = kx := by
      rw [hx1, hkx]
      exact Nat.mul_div_cancel_left kx (Nat.pos_pow_of_pos _ (by norm_num))
    have hky2 : y1 = ky := by
      rw [hy1def, hky]
      exact Nat.mul_div_cancel_left ky (Nat.pos_pow_of_pos _ (by norm_num))
    subst hkx2
    subst hky2
    rcases le_total a b with hab | hab
    · rw [min_eq_left hab]
      conv_rhs => rw [hkx, hky]
      have : 2 ^ b = 2 ^ a * 2 ^ (b - a) := by
        rw [← pow_add]
        congr 1
        omega
      rw [this, Nat.mul_assoc, Nat.gcd_mul_left]
      congr 1
      exact ((coprime_two_pow_of_odd hox (t := b - a)).symm.gcd_mul_left_cancel_right y1).symm
    · rw [min_eq_right hab]
      conv_rhs => rw [hkx, hky]
      have : 2 ^ a = 2 ^ b * 2 ^ (a - b) := by
        rw [← pow_add]
        congr 1
        omega
      rw [this, Nat.mul_assoc, Nat.gcd_mul_left]
      congr 1
      exact ((coprime_two_pow_of_odd hoy (t := a - b)).symm.gcd_mul_left_cancel x1).symm

theorem inv_final_spec (modu x1 rem inv : ℕ) (hm : 2 ≤ modu)
    (hrem : (rem : ℤ) ≡ (inv : ℤ) * (x1 : ℤ) [ZMOD (modu : ℤ)])
    (hgcd : rem = Nat.gcd modu x1) (hinv : inv < modu) :
    (Nat.gcd modu x1 = 1 →
      (if rem > 1 then 0 else inv) * x1 % modu = 1 ∧
      (if rem > 1 then 0 else inv) < modu) ∧
    (Nat.gcd modu x1 ≠ 1 → (if rem > 1 then 0 else inv) = 0) := by
  constructor
  · intro hg1
    have hrem1 : rem = 1 := by rw [hgcd, hg1]
    rw [if_neg (by omega : ¬ rem > 1)]
    refine ⟨?_, hinv⟩
    have h4 := hrem
    rw [hrem1] at h4
    have h5 : ((inv * x1 % modu : ℕ) : ℤ) = ((1 % modu : ℕ) : ℤ) := by
      rw [Int.natCast_mod, Int.natCast_mod]
      push_cast
      exact h4.symm
    have h6 : (1 : ℕ) % modu = 1 := Nat.mod_eq_of_lt (by omega)
    have h7 := Nat.cast_inj (R := ℤ) |>.mp h5
    rw [h6] at h7
    exact h7
  · intro hg1
    have hpos : Nat.gcd modu x1 ≠ 0 := by
      intro h
      have := (Nat.gcd_eq_zero_iff.mp h).1
      omega
    rw [if_pos (by omega : rem > 1)]

theorem inv_loop_spec (modu x1 : ℕ) (hm : 2 ≤ modu) :
    ∀ f rem rem_new inv inv_new : ℕ,
      rem_new ≤ f → rem_new < rem → rem ≤ modu →
      (rem : ℤ) ≡ (inv : ℤ) * (x1 : ℤ) [ZMOD (modu : ℤ)] →
      (rem_new : ℤ) ≡ (inv_new : ℤ) * (x1 : ℤ) [ZMOD (modu : ℤ)] →
      Nat.gcd rem rem_new = Nat.gcd modu x1 →
      inv < modu → inv_new < modu →
      (Nat.gcd modu x1 = 1 →
        inv_loop modu f rem rem_new inv inv_new * x1 % modu = 1 ∧
        inv_loop modu f rem rem_new inv inv_new < modu) ∧
      (Nat.gcd modu x1 ≠ 1 → inv_loop modu f rem rem_new inv inv_new = 0) := by
  intro f
  induction f with
  | zero =>
    intro rem rem_new inv inv_new hf hlt hle hrem hremnew hgcd hinv hinvnew
    have h0 : rem_new = 0 := by omega
    subst h0
    rw [Nat.gcd_zero_right] at hgcd
    rw [inv_loop]
    exact inv_final_spec modu x1 rem inv hm hrem hgcd hinv
  | succ f ih =>
    intro rem rem_new inv inv_new hf hlt hle hrem hremnew hgcd hinv hinvnew
    rw [inv_loop]
    by_cases h0 : rem_new = 0
    · subst h0
      rw [Nat.gcd_zero_right] at hgcd
      rw [if_pos rfl]
      exact inv_final_spec modu x1 rem inv hm hrem hgcd hinv
    · rw [if_neg h0]
      simp only []
      have hrnpos : 0 < rem_new := by omega
      have hmodlt : rem % rem_new < rem_new := Nat.mod_lt _ hrnpos
      have hmc : rem / rem_new * rem_new = rem_new * (rem / rem_new) := Nat.mul_comm _ _
      have hdm := Nat.div_add_mod rem rem_new
      have hsub : rem - rem / rem_new * rem_new = rem % rem_new := by omega
      have hquole : rem / rem_new ≤ modu := le_trans (Nat.div_le_self _ _) hle
      have hml : mult_mod_u (rem / rem_new) inv_new modu = rem / rem_new * inv_new % modu :=
        mult_mod_u_eq _ hquole (by omega)
      have hmllt : rem / rem_new * inv_new % modu < modu := Nat.mod_lt _ (by omega)
      have hsml : sub_mod_u inv (mult_mod_u (rem / rem_new) inv_new modu) modu
          = (inv + (modu - rem / rem_new * inv_new % modu)) % modu := by
        rw [hml]
        exact sub_mod_u_eq hinv hmllt
      have hinvnew2 : ((sub_mod_u inv (mult_mod_u (rem / rem_new) inv_new modu) modu : ℕ) : ℤ)
          ≡ (inv : ℤ) - (rem / rem_new : ℕ) * (inv_new : ℤ) [ZMOD (modu : ℤ)] := by
        rw [hsml]
        have hcast : (((inv + (modu - rem / rem_new * inv_new % modu)) % modu : ℕ) : ℤ)
            = ((inv : ℤ) + ((modu : ℤ) - ((rem / rem_new * inv_new % modu : ℕ) : ℤ)))
              % (modu : ℤ) := by
          rw [Int.natCast_mod]
          congr 1
          push_cast [Nat.cast_sub (le_of_lt hmllt)]
          ring
        rw [hcast]
        have h5 : ((rem / rem_new * inv_new % modu : ℕ) : ℤ)
            ≡ ((rem / rem_new : ℕ) : ℤ) * ((inv_new : ℕ) : ℤ) [ZMOD (modu : ℤ)] := by
          rw [Int.natCast_mod]
          push_cast
          exact Int.emod_emod_of_dvd _ dvd_rfl
        have h6 : ((inv : ℤ) + ((modu : ℤ) - ((rem / rem_new * inv_new % modu : ℕ) : ℤ)))
            % (modu : ℤ)
            ≡ (inv : ℤ) + ((modu : ℤ) - ((rem / rem_new * inv_new % modu : ℕ) : ℤ))
            [ZMOD (modu : ℤ)] := Int.emod_emod_of_dvd _ dvd_rfl
        have h7 : (modu : ℤ) ≡ 0 [ZMOD (modu : ℤ)] := Int.modEq_zero_iff_dvd.mpr dvd_rfl
        calc ((inv : ℤ) + ((modu : ℤ) - ((rem / rem_new * inv_new % modu : ℕ) : ℤ)))
              % (modu : ℤ)
            ≡ (inv : ℤ) + ((modu : ℤ) - ((rem / rem_new * inv_new % modu : ℕ) : ℤ))
              [ZMOD (modu : ℤ)] := h6
          _ ≡ (inv : ℤ) + ((0 : ℤ) - ((rem / rem_new : ℕ) : ℤ) * ((inv_new : ℕ) : ℤ))
              [ZMOD (modu : ℤ)] := (Int.ModEq.refl _).add (h7.sub h5)
          _ = (inv : ℤ) - ((rem / rem_new : ℕ) : ℤ) * ((inv_new : ℕ) : ℤ) := by ring
      refine ih rem_new (rem - rem / rem_new * rem_new) inv_new _ (by omega) (by omega)
        (le_trans (le_of_lt hlt) hle) hremnew ?_ ?_ hinvnew
        (sub_mod_u_lt hinv (by rw [hml]; exact hmllt))
      · have hcast2 : ((rem - rem / rem_new * rem_new : ℕ) : ℤ)
            = (rem : ℤ) - ((rem / rem_new : ℕ) : ℤ) * ((rem_new : ℕ) : ℤ) := by
          push_cast [Nat.cast_sub (by omega : rem / rem_new * rem_new ≤ rem)]
          ring
        rw [hcast2]
        calc (rem : ℤ) - ((rem / rem_new : ℕ) : ℤ) * ((rem_new : ℕ) : ℤ)
            ≡ (inv : ℤ) * x1 - ((rem / rem_new : ℕ) : ℤ) * ((inv_new : ℤ) * x1)
              [ZMOD (modu : ℤ)] := hrem.sub ((Int.ModEq.refl _).mul hremnew)
          _ = ((inv : ℤ) - ((rem / rem_new : ℕ) : ℤ) * inv_new) * x1 := by ring
          _ ≡ (sub_mod_u inv (mult_mod_u (rem / rem_new) inv_new modu) modu : ℤ) * x1
              [ZMOD (modu : ℤ)] := (hinvnew2.symm).mul_right _
      · rw [hsub, Nat.gcd_comm rem_new (rem % rem_new), ← Nat.gcd_rec,
          Nat.gcd_comm rem_new rem, hgcd]

theorem multip_inv_spec (x : ℕ) {modu : ℕ} (hm : 2 ≤ modu) :
    (Nat.gcd x modu = 1 →
      multip_inv x modu * x % modu = 1 ∧ multip_inv x modu < modu) ∧
    (Nat.gcd x modu ≠ 1 → multip_inv x modu = 0) := by
  have hx1 : (if x ≥ modu then x % modu else x) = x % modu := by
    by_cases h : x ≥ modu
    · rw [if_pos h]
    · rw [if_neg h]
      exact (Nat.mod_eq_of_lt (by omega)).symm
  have hdef : multip_inv x modu = inv_loop modu (x % modu + 1) modu (x % modu) 0 1 := by
    simp only [multip_inv, hx1]
  have hrem : (modu : ℤ) ≡ ((0 : ℕ) : ℤ) * ((x % modu : ℕ) : ℤ) [ZMOD (modu : ℤ)] := by
    rw [Nat.cast_zero, zero_mul]
    exact Int.modEq_zero_iff_dvd.mpr dvd_rfl
  have hremnew : ((x % modu : ℕ) : ℤ) ≡ ((1 : ℕ) : ℤ) * ((x % modu : ℕ) : ℤ)
      [ZMOD (modu : ℤ)] := by
    rw [Nat.cast_one, one_mul]
  have hkey := inv_loop_spec modu (x % modu) hm (x % modu + 1) modu (x % modu) 0 1
    (by omega) (Nat.mod_lt _ (by omega)) le_rfl hrem hremnew rfl (by omega) (by omega)
  have hg : Nat.gcd modu (x % modu) = Nat.gcd x modu := by
    rw [Nat.gcd_comm modu (x % modu), ← Nat.gcd_rec modu x, Nat.gcd_comm modu x]
  rw [hg] at hkey
  constructor
  · intro hg1
    obtain ⟨h1, h2⟩ := hkey.1 hg1
    rw [hdef]
    refine ⟨?_, h2⟩
    have hcong : inv_loop modu (x % modu + 1) modu (x % modu) 0 1 * (x % modu)
        ≡ inv_loop modu (x % modu + 1) modu (x % modu) 0 1 * x [MOD modu] :=
      (Nat.ModEq.refl _).mul (Nat.mod_modEq x modu)
    have hc2 := hcong.symm
    unfold Nat.ModEq at hc2
    rw [hc2]
    exact h1
  · intro hg1
    rw [hdef]
    exact hkey.2 hg1

theorem multip_inv_mul {x modu : ℕ} (hm : 2 ≤ modu) (hg : Nat.gcd x modu = 1) :
    multip_inv x modu * x % modu = 1 :=
  ((multip_inv_spec x hm).1 hg).1

theorem multip_inv_lt (x : ℕ) {modu : ℕ} (hm : 2 ≤ modu) : multip_inv x modu < modu := by
  by_cases hg : Nat.gcd x modu = 1
  · exact ((multip_inv_spec x hm).1 hg).2
  · rw [(multip_inv_spec x hm).2 hg]
    omega

theorem multip_inv_eq_zero {x modu : ℕ} (hm : 2 ≤ modu) (hg : Nat.gcd x modu ≠ 1) :
    multip_inv x modu = 0 :=
  (multip_inv_spec x hm).2 hg

theorem multip_inv_one (x : ℕ) : multip_inv x 1 = 0 := by
  have hx1 : (if x ≥ 1 then x % 1 else x) = 0 := by
    by_cases h : x ≥ 1
    · rw [if_pos h, Nat.mod_one]
    · rw [if_neg h]
      omega
  simp only [multip_inv, hx1]
  rfl

/-! ### Facts about `range_step` and the sort model -/

theorem range_step_go_shift {m : ℕ} :
    ∀ f base stop, m ≤ stop →
      range_step_go f (base + m) stop m
        = (range_step_go f base (stop - m) m).map (fun v => v + m) := by
  intro f
  induction f with
  | zero => intro base stop h; rfl
  | succ f ih =>
    intro base stop h
    rw [range_step_go, range_step_go]
    by_cases hc : base + m < stop
    · rw [if_pos hc, if_pos (by omega : base < stop - m), List.map_cons, ← ih (base + m) stop h]
    · rw [if_neg hc, if_neg (by omega : ¬ base < stop - m)]
      rfl

theorem range_step_go_eq_map {m : ℕ} (hm : 1 ≤ m) :
    ∀ g f base, base < m → g * m - base ≤ f →
      range_step_go f base (g * m) m = (List.range g).map (fun i => base + i * m) := by
  intro g
  induction g with
  | zero =>
    intro f base hb hf
    cases f with
    | zero => rfl
    | succ f => rw [range_step_go, if_neg (by omega : ¬ base < 0 * m)]; rfl
  | succ g ih =>
    intro f base hb hf
    have hbs : base < (g + 1) * m := by
      have : m ≤ (g + 1) * m := Nat.le_mul_of_pos_left m (by omega)
      omega
    cases f with
    | zero =>
      exfalso
      have : m ≤ (g + 1) * m := Nat.le_mul_of_pos_left m (by omega)
      omega
    | succ f =>
      rw [range_step_go, if_pos hbs]
      have hms : m ≤ (g + 1) * m := Nat.le_mul_of_pos_left m (by omega)
      rw [range_step_go_shift f base ((g + 1) * m) hms]
      have hgm : (g + 1) * m - m = g * m := by
        have : (g + 1) * m = g * m + m := by ring
        omega
      rw [hgm]
      have hfuel : g * m - base ≤ f := by
        have : (g + 1) * m = g * m + m := by ring
        omega
      rw [ih f base hb hfuel]
      rw [List.range_succ_eq_map, List.map_cons, List.map_map, List.map_map]
      congr 1
      · omega
      · apply List.map_congr_left
        intro i _
        simp only [Function.comp_apply, Nat.succ_eq_add_one]
        ring

theorem range_step_eq_map {m : ℕ} (hm : 1 ≤ m) {base g : ℕ} (hbase : base < m) :
    range_step base (g * m) m = (List.range g).map (fun i => base + i * m) :=
  range_step_go_eq_map hm g (g * m + 1) base hbase (by omega)

theorem map_range_sorted_lt {m base g : ℕ} (hm : 1 ≤ m) :
    List.Sorted (· < ·) ((List.range g).map (fun i => base + i * m)) := by
  refine List.Pairwise.map _ ?_ (List.pairwise_lt_range g)
  intro a b hab
  have : a * m < b * m := by
    apply Nat.mul_lt_mul_of_lt_of_le hab le_rfl
    omega
  omega

theorem map_range_mem {m base g v : ℕ} :
    v ∈ (List.range g).map (fun i => base + i * m) ↔ ∃ i < g, v = base + i * m := by
  simp only [List.mem_map, List.mem_range]
  constructor
  · rintro ⟨i, hi, rfl⟩
    exact ⟨i, hi, rfl⟩
  · rintro ⟨i, hi, rfl⟩
    exact ⟨i, hi, rfl⟩

theorem vec_sort_sorted (l : List ℕ) : List.Sorted (· ≤ ·) (vec_sort l) := by
  have h := List.sorted_insertionSort (α := ℕ) (· ≤ ·) l
  exact h

theorem vec_sort_perm (l : List ℕ) : (vec_sort l).Perm l :=
  List.perm_insertionSort _ l

theorem vec_sort_strict {l : List ℕ} (h : l.Nodup) : List.Sorted (· < ·) (vec_sort l) := by
  have h1 : List.Sorted (· ≤ ·) (vec_sort l) := vec_sort_sorted l
  have h2 : (vec_sort l).Nodup := ((vec_sort_perm l).nodup_iff).mpr h
  have h3 := List.Pairwise.and h1 h2
  exact h3.imp (fun hab => lt_of_le_of_ne hab.1 hab.2)

/-! ### Claim C2: behaviour of the sign cast -/

/-- Claim C2 as stated is false: for `x = 5 ≥ 0` and `n = 2` the cast returns
`5` itself (the Rust code passes nonnegative values through `T::try_from`
without reducing them), not the reduced representative
`((x mod n) + n) mod n = 1`. -/
theorem cast_to_unsigned_counterexample :
    cast_to_unsigned 8 5 2 = .ok (some 5) ∧ (((5 : ℤ) % 2 + 2) % 2 = (1 : ℤ)) ∧ (5 : ℕ) ≠ 1 :=
  ⟨rfl, by decide, by decide⟩

/-- Amended claim C2: for any signed `x` of width `w` other than the minimum,
the cast succeeds; the result is congruent to `x` mod `n`; it is the reduced
representative `((x mod n) + n) mod n` exactly when `x < 0`, while a
nonnegative `x` is returned unchanged (hence unreduced whenever `x ≥ n`). -/
theorem cast_to_unsigned_spec (w : ℕ) (x : ℤ) (n : ℕ) (hn : 2 ≤ n)
    (hxlow : -(2 ^ (w - 1) : ℤ) < x) (hxhigh : x < 2 ^ (w - 1)) :
    ∃ r : ℕ, cast_to_unsigned w x n = .ok (some r) ∧
      (r : ℤ) % n = x % n ∧
      (x < 0 → (r : ℤ) = x % n) ∧
      (0 ≤ x → (r : ℤ) = x) := by
  have hww : (2 : ℤ) ^ (w - 1) ≤ 2 ^ w := by
    apply pow_le_pow_right₀ (by norm_num)
    omega
  have h2c : ((2 : ℕ) ^ w : ℤ) = (2 : ℤ) ^ w := by push_cast; ring
  by_cases hx : 0 ≤ x
  · refine ⟨x.toNat, ?_, ?_, ?_, ?_⟩
    · unfold cast_to_unsigned
      rw [if_pos hx, if_pos ?_]
      have h1 : (x.toNat : ℤ) < ((2 : ℕ) ^ w : ℤ) := by
        rw [Int.toNat_of_nonneg hx, h2c]
        omega
      exact_mod_cast h1
    · rw [Int.toNat_of_nonneg hx]
    · intro h; omega
    · intro _; rw [Int.toNat_of_nonneg hx]
  · push_neg at hx
    have hxne : x ≠ -(2 ^ (w - 1) : ℤ) := by omega
    have habs : (x.natAbs : ℤ) = -x := Int.ofNat_natAbs_of_nonpos (le_of_lt hx)
    have habsw : x.natAbs < 2 ^ w := by
      have : (x.natAbs : ℤ) < ((2 : ℕ) ^ w : ℤ) := by rw [h2c]; omega
      exact_mod_cast this
    have habspos : 1 ≤ x.natAbs := by
      have h0 : (0 : ℤ) < (x.natAbs : ℤ) := by omega
      exact_mod_cast h0
    have hmain : ∀ r : ℕ, (r : ℤ) % n = x % n → (r : ℤ) < n →
        ((r : ℤ) % n = x % n ∧ (x < 0 → (r : ℤ) = x % n) ∧ (0 ≤ x → (r : ℤ) = x)) := by
      intro r hr h1
      refine ⟨hr, fun _ => ?_, fun h => absurd h (by omega)⟩
      rw [← hr, Int.emod_eq_of_lt (Int.natCast_nonneg r) h1]
    by_cases hle : x.natAbs ≤ n
    · refine ⟨n - x.natAbs, ?_, ?_⟩
      · unfold cast_to_unsigned
        rw [if_neg (by omega), if_neg hxne, if_pos habsw, if_pos hle]
      · have hcle : (x.natAbs : ℤ) ≤ n := by exact_mod_cast hle
        have hc : ((n - x.natAbs : ℕ) : ℤ) = x + (n : ℤ) * 1 := by
          rw [Nat.cast_sub hle]
          omega
        apply hmain
        · rw [hc, Int.add_mul_emod_self_left]
        · rw [hc]
          omega
    · push_neg at hle
      have hdm := Nat.div_add_mod x.natAbs n
      have hmc : x.natAbs / n * n = n * (x.natAbs / n) := Nat.mul_comm _ _
      have hmlt : x.natAbs % n < n := Nat.mod_lt _ (by omega)
      by_cases hz : x.natAbs % n > 0
      · have hlt : x.natAbs < (x.natAbs / n + 1) * n := by
          have h5 : (x.natAbs / n + 1) * n = n * (x.natAbs / n) + n := by ring
          omega
        refine ⟨(x.natAbs / n + 1) * n - x.natAbs, ?_, ?_⟩
        · unfold cast_to_unsigned
          rw [if_neg (by omega), if_neg hxne, if_pos habsw, if_neg (by omega), if_neg (by omega),
            if_pos hz]
        · have hc : (((x.natAbs / n + 1) * n - x.natAbs : ℕ) : ℤ)
              = x + (n : ℤ) * ((x.natAbs / n : ℕ) + 1) := by
            rw [Nat.cast_sub (le_of_lt hlt), Nat.cast_mul, Nat.cast_add, Nat.cast_one, habs]
            ring
          apply hmain
          · rw [hc, Int.add_mul_emod_self_left]
          · rw [hc]
            have h6 : (x.natAbs / n + 1) * n = n * (x.natAbs / n) + n := by ring
            have h7 : (x.natAbs / n + 1) * n < x.natAbs + n := by omega
            have h8 : ((x.natAbs / n + 1) * n : ℕ) < ((x.natAbs + n : ℕ)) := h7
            have h9 : (((x.natAbs / n + 1) * n : ℕ) : ℤ) < ((x.natAbs : ℤ) + n) := by
              exact_mod_cast h8
            have h10 : (((x.natAbs / n + 1) * n : ℕ) : ℤ)
                = (n : ℤ) * ((x.natAbs / n : ℕ) + 1) := by
              rw [Nat.cast_mul, Nat.cast_add, Nat.cast_one]
              ring
            rw [h10] at h9
            omega
      · push_neg at hz
        have hz0 : x.natAbs % n = 0 := by omega
        have hx0 : x.natAbs / n * n = x.natAbs := by omega
        have hdvd : (n : ℤ) ∣ x := by
          have h9 : n ∣ x.natAbs := Nat.dvd_of_mod_eq_zero hz0
          have h10 : (n : ℤ) ∣ (x.natAbs : ℤ) := Int.natCast_dvd_natCast.mpr h9
          rw [habs] at h10
          exact dvd_neg.mp h10
        refine ⟨x.natAbs / n * n - x.natAbs, ?_, ?_⟩
        · unfold cast_to_unsigned
          rw [if_neg (by omega), if_neg hxne, if_pos habsw, if_neg (by omega), if_neg (by omega),
            if_neg (by omega)]
        · apply hmain
          · rw [hx0, Nat.sub_self, Nat.cast_zero, Int.zero_emod,
              Int.emod_eq_zero_of_dvd hdvd]
          · rw [hx0, Nat.sub_self, Nat.cast_zero]
            omega

/-- Witness for the amended claim C2, at `w = 8`, `x = -13`, `n = 9`
(and the nonnegative side at `x = 5`). -/
theorem cast_to_unsigned_spec_witness :
    ∃ r : ℕ, cast_to_unsigned 8 (-13) 9 = .ok (some r) ∧
      (r : ℤ) % 9 = (-13 : ℤ) % 9 ∧
      ((-13 : ℤ) < 0 → (r : ℤ) = (-13 : ℤ) % 9) ∧
      ((0 : ℤ) ≤ -13 → (r : ℤ) = -13) :=
  cast_to_unsigned_spec 8 (-13) 9 (by norm_num) (by norm_num) (by norm_num)

/-! ### Claim C9: the safe kernel operations stay in `[0, n)` and never wrap -/

theorem wsub_exact {w a b : ℕ} (hb : b ≤ a) (ha : a < 2 ^ w) : wsub w a b = a - b := by
  unfold wsub
  have h1 : a + (2 ^ w - b) = 2 ^ w + (a - b) := by omega
  rw [h1, Nat.add_mod_left, Nat.mod_eq_of_lt (by omega)]

theorem wadd_exact {w a b : ℕ} (h : a + b < 2 ^ w) : wadd w a b = a + b := by
  unfold wadd
  exact Nat.mod_eq_of_lt h

theorem add_mod_uW_eq {w x y n : ℕ} (hx : x < n) (hy : y < n) (hn : n < 2 ^ w) :
    add_mod_uW w x y n = add_mod_u x y n := by
  unfold add_mod_uW add_mod_u
  rw [wsub_exact (le_of_lt hy) hn]
  by_cases h : x < n - y
  · rw [if_pos h, if_pos h, wadd_exact (by omega)]
  · rw [if_neg h, if_neg h, wsub_exact (by omega : max x y ≤ n) hn,
      wsub_exact (by omega : n - max x y ≤ min x y) (by omega : min x y < 2 ^ w)]

theorem sub_mod_uW_eq {w x y n : ℕ} (hx : x < n) (hy : y < n) (hn : n < 2 ^ w) :
    sub_mod_uW w x y n = sub_mod_u x y n := by
  unfold sub_mod_uW sub_mod_u
  by_cases h : x ≥ y
  · rw [if_pos h, if_pos h, wsub_exact h (by omega)]
  · rw [if_neg h, if_neg h, wsub_exact (by omega : x ≤ y) (by omega : y < 2 ^ w),
      wsub_exact (by omega : y - x ≤ n) hn]

theorem mult_mod_loopW_eq {w n : ℕ} (hn : n < 2 ^ w) :
    ∀ f x y res, x < n → res < n →
      mult_mod_loopW w n f x y res = mult_mod_loop n f x y res := by
  intro f
  induction f with
  | zero => intro x y res hx hres; rfl
  | succ f ih =>
    intro x y res hx hres
    rw [mult_mod_loopW, mult_mod_loop]
    by_cases h0 : y = 0
    · rw [if_pos h0, if_pos h0]
    · rw [if_neg h0, if_neg h0]
      rw [add_mod_uW_eq hx hx hn]
      have hres2 : (if y % 2 = 1 then add_mod_uW w res x n else res)
          = (if y % 2 = 1 then add_mod_u res x n else res) := by
        by_cases hp : y % 2 = 1
        · rw [if_pos hp, if_pos hp, add_mod_uW_eq hres hx hn]
        · rw [if_neg hp, if_neg hp]
      rw [hres2]
      apply ih
      · exact add_mod_u_lt hx hx
      · by_cases hp : y % 2 = 1
        · rw [if_pos hp]; exact add_mod_u_lt hres hx
        · rw [if_neg hp]; exact hres

theorem mult_mod_uW_eq {w n : ℕ} (x y : ℕ) (hx : x < n) (hn : n < 2 ^ w) :
    mult_mod_uW w x y n = mult_mod_u x y n :=
  mult_mod_loopW_eq hn y x y 0 hx (by omega)

theorem exp_mod_loopW_eq {w n : ℕ} (hn2 : 2 ≤ n) (hn : n < 2 ^ w) :
    ∀ f base ex res, base < n → res < n →
      exp_mod_loopW w n f base ex res = exp_mod_loop n f base ex res := by
  intro f
  induction f with
  | zero => intro base ex res hb hres; rfl
  | succ f ih =>
    intro base ex res hb hres
    rw [exp_mod_loopW, exp_mod_loop]
    by_cases h0 : ex = 0
    · rw [if_pos h0, if_pos h0]
    · rw [if_neg h0, if_neg h0]
      rw [mult_mod_uW_eq base base hb hn]
      have hres2 : (if ex % 2 = 1 then mult_mod_uW w res base n else res)
          = (if ex % 2 = 1 then mult_mod_u res base n else res) := by
        by_cases hp : ex % 2 = 1
        · rw [if_pos hp, if_pos hp, mult_mod_uW_eq res base hres hn]
        · rw [if_neg hp, if_neg hp]
      rw [hres2]
      apply ih
      · exact mult_mod_u_lt base (le_of_lt hb) (by omega)
      · by_cases hp : ex % 2 = 1
        · rw [if_pos hp]; exact mult_mod_u_lt base (le_of_lt hres) (by omega)
        · rw [if_neg hp]; exact hres

theorem sub_mod_intCast (x y : ℕ) {n : ℕ} (h1 : 1 ≤ n) :
    ((sub_mod x y n : ℕ) : ℤ) = ((x : ℤ) - y) % n := by
  rw [sub_mod_eq x y h1]
  have hylt : y % n ≤ n := le_of_lt (Nat.mod_lt _ (by omega))
  have hcast : ((x % n + (n - y % n) : ℕ) : ℤ)
      = ((x : ℤ) % n + ((n : ℤ) - (y : ℤ) % n)) := by
    rw [Nat.cast_add, Nat.cast_sub hylt, Int.natCast_mod, Int.natCast_mod]
  rw [Int.natCast_mod, hcast]
  conv_rhs => rw [show (x : ℤ) - y = x + (0 - y) by ring]
  rw [Int.add_emod ((x : ℤ) % n) _ n, Int.add_emod (x : ℤ) (0 - (y : ℤ)) n,
    Int.emod_emod_of_dvd _ dvd_rfl]
  congr 2
  rw [show (n : ℤ) - (y : ℤ) % n = -((y : ℤ) % n) + n * 1 by ring,
    Int.add_mul_emod_self_left]
  rw [show (0 : ℤ) - y = -(y : ℤ) by ring]
  exact Int.ModEq.neg
    (show ((y : ℤ) % n) ≡ (y : ℤ) [ZMOD (n : ℤ)] from Int.emod_emod_of_dvd (y : ℤ) dvd_rfl)

/-- Claim C9: for every width `w`, modulus `2 ≤ n < 2^w` and arbitrary
`w`-bit operands, the four safe kernel operations computed with wrapping
machine arithmetic coincide with the plain (non-wrapping) embedding and
produce the mathematically reduced value in `[0, n)`: no computation ever
wraps the `w`-bit type. -/
theorem safe_ops_no_overflow (w n x y : ℕ) (hn : 2 ≤ n) (hnw : n < 2 ^ w)
    (hx : x < 2 ^ w) (hy : y < 2 ^ w) :
    add_modW w x y n = (x + y) % n ∧
    ((sub_modW w x y n : ℤ) = ((x : ℤ) - y) % n) ∧
    mult_modW w x y n = x * y % n ∧
    exp_modW w x y n = x ^ y % n ∧
    add_modW w x y n < n ∧ sub_modW w x y n < n ∧
    mult_modW w x y n < n ∧ exp_modW w x y n < n := by
  have h1 : 1 ≤ n := by omega
  have hadd : add_modW w x y n = add_mod x y n := by
    unfold add_modW add_mod
    by_cases h : x < n ∧ y < n
    · rw [if_pos h, if_pos h, add_mod_uW_eq h.1 h.2 hnw]
    · rw [if_neg h, if_neg h,
        add_mod_uW_eq (Nat.mod_lt _ (by omega)) (Nat.mod_lt _ (by omega)) hnw]
  have hsub : sub_modW w x y n = sub_mod x y n := by
    unfold sub_modW sub_mod
    by_cases h : x < n ∧ y < n
    · rw [if_pos h, if_pos h, sub_mod_uW_eq h.1 h.2 hnw]
    · rw [if_neg h, if_neg h,
        sub_mod_uW_eq (Nat.mod_lt _ (by omega)) (Nat.mod_lt _ (by omega)) hnw]
  have hmul : mult_modW w x y n = mult_mod x y n := by
    unfold mult_modW mult_mod
    by_cases h : x < n ∧ y < n
    · rw [if_pos h, if_pos h, mult_mod_uW_eq x y h.1 hnw]
    · rw [if_neg h, if_neg h, mult_mod_uW_eq _ _ (Nat.mod_lt _ (by omega)) hnw]
  have hexpw : exp_modW w x y n = exp_mod x y n := by
    unfold exp_modW exp_mod
    by_cases h : x < n
    · rw [if_pos h, if_pos h]
      unfold exp_mod_uW exp_mod_u
      exact exp_mod_loopW_eq hn hnw y x y 1 h (by omega)
    · rw [if_neg h, if_neg h]
      unfold exp_mod_uW exp_mod_u
      exact exp_mod_loopW_eq hn hnw y (x % n) y 1 (Nat.mod_lt _ (by omega)) (by omega)
  have hsubz : ((sub_mod x y n : ℕ) : ℤ) = ((x : ℤ) - y) % n := sub_mod_intCast x y h1
  refine ⟨by rw [hadd, add_mod_eq x y h1], by rw [hsub, hsubz], by rw [hmul, mult_mod_eq x y h1],
    by rw [hexpw, exp_mod_eq x y hn], ?_, ?_, ?_, ?_⟩
  · rw [hadd]; exact add_mod_lt x y h1
  · rw [hsub]; exact sub_mod_lt x y h1
  · rw [hmul]; exact mult_mod_lt x y h1
  · rw [hexpw]; exact exp_mod_lt x y hn

/-- Witness for claim C9 at `w = 8`, `n = 255`, `x = 254`, `y = 253`
(the modulus at the top of the width). -/
theorem safe_ops_no_overflow_witness :
    (2 ≤ 255 ∧ 255 < 2 ^ 8 ∧ 254 < 2 ^ 8 ∧ 253 < 2 ^ 8) ∧
    (add_modW 8 254 253 255 = (254 + 253) % 255 ∧
      ((sub_modW 8 254 253 255 : ℤ) = ((254 : ℤ) - 253) % 255) ∧
      mult_modW 8 254 253 255 = 254 * 253 % 255 ∧
      exp_modW 8 254 253 255 = 254 ^ 253 % 255 ∧
      add_modW 8 254 253 255 < 255 ∧ sub_modW 8 254 253 255 < 255 ∧
      mult_modW 8 254 253 255 < 255 ∧ exp_modW 8 254 253 255 < 255) :=
  ⟨by decide, safe_ops_no_overflow 8 255 254 253 (by decide) (by decide) (by decide) (by decide)⟩

/-! ### Claims C3 / C10: characterization of the linear solver -/

/-- Claim C3 as stated is false at `a = 2, b = 0, c = 0, n = 2`: here
`g = gcd(a, n) = 2` divides `c' = (c - b) mod n = 0`, yet `solve` returns
`None` (because of the `a ≡ 0 (mod n)` guard), while the claim asserts that
no solution is returned exactly when `g` does not divide `c'`. -/
theorem lin_solve_characterization_counterexample :
    LinEq.solve ⟨2, 0, 0, 2⟩ = none ∧
    Nat.gcd 2 2 ∣ ((((0 : ℤ) - (0 : ℕ)) % (2 : ℕ)).toNat) :=
  ⟨rfl, by decide⟩

/-- Amended claim C3: for `n ≥ 2` and `a` NOT congruent to `0` mod `n`,
writing `g = gcd(a, n)` and `c' = (c - b) mod n`: `solve` returns no solution
exactly when `g` does not divide `c'`; when `g = 1` it returns the single
solution `a⁻¹ c' mod n`; otherwise it returns exactly `g` solutions spaced
`n / g` apart starting from `(a/g)⁻¹ (c'/g) mod (n/g)`, in strictly
increasing order (`multip_inv` is the modular inverse in both cases, as the
accompanying identities state). -/
theorem lin_solve_characterization (a b c n g cp m : ℕ)
    (hn : 2 ≤ n) (ha : a % n ≠ 0)
    (hg : g = Nat.gcd a n) (hcp : cp = (((c : ℤ) - b) % n).toNat) (hm : m = n / g) :
    (LinEq.solve ⟨a, b, c, n⟩ = none ↔ ¬ g ∣ cp) ∧
    (g = 1 → LinEq.solve ⟨a, b, c, n⟩ = some [multip_inv a n * cp % n] ∧
      multip_inv a n * a % n = 1) ∧
    (1 < g → g ∣ cp →
      LinEq.solve ⟨a, b, c, n⟩
        = some ((List.range g).map (fun i => multip_inv (a / g) m * (cp / g) % m + i * m)) ∧
      List.Sorted (· < ·)
        ((List.range g).map (fun i => multip_inv (a / g) m * (cp / g) % m + i * m)) ∧
      multip_inv (a / g) m * (a / g) % m = 1) := by
  have hn1 : (1 : ℕ) ≤ n := by omega
  have hgdvd_n : g ∣ n := hg ▸ Nat.gcd_dvd_right a n
  have hgdvd_a : g ∣ a := hg ▸ Nat.gcd_dvd_left a n
  have hgpos : 0 < g := by
    rcases Nat.eq_zero_or_pos g with h0 | h0
    · rw [hg] at h0
      have := (Nat.gcd_eq_zero_iff.mp h0).2
      omega
    · exact h0
  have hglt : g < n := by
    rcases eq_or_lt_of_le (Nat.le_of_dvd (by omega) hgdvd_n) with heq | hlt
    · exfalso
      apply ha
      obtain ⟨k, hk⟩ := (heq ▸ hgdvd_a : n ∣ a)
      rw [hk, Nat.mul_mod_right]
    · exact hlt
  have hnm : n = g * m := by
    rw [hm]
    exact (Nat.mul_div_cancel' hgdvd_n).symm
  have hm2 : 2 ≤ m := by
    rcases Nat.lt_or_ge m 2 with h2 | h2
    · interval_cases m
      · rw [Nat.mul_zero] at hnm; omega
      · rw [Nat.mul_one] at hnm; omega
    · exact h2
  have hm1 : (1 : ℕ) ≤ m := by omega
  have hcpz : (cp : ℤ) = ((c : ℤ) - b) % n := by
    rw [hcp]
    exact Int.toNat_of_nonneg (Int.emod_nonneg _ (by exact_mod_cast (by omega : n ≠ 0)))
  have hcplt : cp < n := by
    have h1 : ((c : ℤ) - b) % n < (n : ℤ) := Int.emod_lt_of_pos _ (by exact_mod_cast hn1)
    rw [← hcpz] at h1
    exact_mod_cast h1
  have hccast : ((if b > 0 then sub_mod c b n else c : ℕ) : ℤ) % n = ((c : ℤ) - b) % n := by
    by_cases hb : b > 0
    · rw [if_pos hb, sub_mod_intCast c b hn1]
      exact Int.emod_emod_of_dvd _ dvd_rfl
    · rw [if_neg hb]
      have hb0 : b = 0 := by omega
      rw [hb0]
      norm_num
  have hccp : (if b > 0 then sub_mod c b n else c) % n = cp := by
    have h1 : (((if b > 0 then sub_mod c b n else c) % n : ℕ) : ℤ) = (cp : ℤ) := by
      rw [Int.natCast_mod, hccast, ← hcpz]
    exact_mod_cast h1
  generalize hcode : (if b > 0 then sub_mod c b n else c) = ccode at hccp
  have hcdm := Nat.div_add_mod ccode n
  have hdvd_iff : g ∣ ccode ↔ g ∣ cp := by
    constructor
    · intro h
      have h2 : g ∣ n * (ccode / n) := Dvd.dvd.mul_right hgdvd_n _
      have h3 : cp = ccode - n * (ccode / n) := by omega
      rw [h3]
      exact Nat.dvd_sub' h h2
    · intro h
      have h4 : ccode = n * (ccode / n) + cp := by omega
      rw [h4]
      exact Nat.dvd_add (Dvd.dvd.mul_right hgdvd_n _) h
  have hguard : ¬ (n ≤ 1 ∨ a % n = 0) := by
    push_neg
    exact ⟨by omega, ha⟩
  have hsolve0 : LinEq.solve ⟨a, b, c, n⟩ = lin_solve_core a ccode n := by
    simp only [LinEq.solve]
    rw [if_neg hguard, hcode]
  have hgm : gcd_mod a n = g := by rw [gcd_mod_eq, hg]
  have hccmod : ccode ≡ cp [MOD n] := by
    unfold Nat.ModEq
    rw [hccp, Nat.mod_eq_of_lt hcplt]
  have hmaster : (¬ g ∣ cp ∧ LinEq.solve ⟨a, b, c, n⟩ = none) ∨
      (g ∣ cp ∧ g = 1 ∧ LinEq.solve ⟨a, b, c, n⟩ = some [multip_inv a n * cp % n]) ∨
      (g ∣ cp ∧ 1 < g ∧ LinEq.solve ⟨a, b, c, n⟩
        = some ((List.range g).map (fun i => multip_inv (a / g) m * (cp / g) % m + i * m))) := by
    by_cases hdv : g ∣ cp
    · have hcc : ¬ (ccode % g > 0) := by
        obtain ⟨k, hk⟩ := hdvd_iff.mpr hdv
        rw [hk, Nat.mul_mod_right]
        omega
      by_cases hg1 : g = 1
      · refine Or.inr (Or.inl ⟨hdv, hg1, ?_⟩)
        rw [hsolve0]
        unfold lin_solve_core
        rw [hgm, if_neg hcc, if_pos hg1]
        unfold LinEq.solve_unique
        rw [mult_mod_eq _ _ hn1]
        have h6 : multip_inv a n * ccode ≡ multip_inv a n * cp [MOD n] :=
          (Nat.ModEq.refl _).mul hccmod
        rw [h6]
      · refine Or.inr (Or.inr ⟨hdv, by omega, ?_⟩)
        rw [hsolve0]
        unfold lin_solve_core
        rw [hgm, if_neg hcc, if_neg hg1, ← hm]
        unfold LinEq.solve_unique
        obtain ⟨c1, hc1⟩ := hdv
        have hq : ccode = g * (m * (ccode / n) + c1) := by
          calc ccode = n * (ccode / n) + cp := by omega
            _ = g * (m * (ccode / n) + c1) := by rw [hnm, hc1]; ring
        have hcd : ccode / g = m * (ccode / n) + c1 := by
          conv_lhs => rw [hq]
          exact Nat.mul_div_cancel_left _ hgpos
        have hcpd : cp / g = c1 := by
          rw [hc1]
          exact Nat.mul_div_cancel_left _ hgpos
        have hbase : mult_mod (multip_inv (a / g) m) (ccode / g) m
            = multip_inv (a / g) m * (cp / g) % m := by
          rw [mult_mod_eq _ _ hm1, hcd, hcpd]
          have h7 : multip_inv (a / g) m * (m * (ccode / n) + c1)
              ≡ multip_inv (a / g) m * c1 [MOD m] := by
            apply (Nat.ModEq.refl (multip_inv (a / g) m)).mul
            calc m * (ccode / n) + c1 ≡ 0 + c1 [MOD m] :=
              Nat.ModEq.add_right c1 ((Nat.modEq_zero_iff_dvd).mpr ⟨ccode / n, rfl⟩)
              _ = c1 := by omega
          rw [h7]
        rw [hbase]
        congr 1
        have hblt : multip_inv (a / g) m * (cp / g) % m < m := Nat.mod_lt _ (by omega)
        conv_lhs => rw [hnm]
        exact range_step_eq_map hm1 hblt
    · left
      refine ⟨hdv, ?_⟩
      rw [hsolve0]
      unfold lin_solve_core
      rw [hgm]
      have hcc : ccode % g > 0 := by
        have h5 : ¬ g ∣ ccode := fun h => hdv (hdvd_iff.mp h)
        rcases Nat.eq_zero_or_pos (ccode % g) with h6 | h6
        · exact absurd (Nat.dvd_of_mod_eq_zero h6) h5
        · exact h6
      rw [if_pos hcc]
  refine ⟨?_, ?_, ?_⟩
  · constructor
    · intro hnone
      rcases hmaster with ⟨h1, _⟩ | ⟨_, _, h3⟩ | ⟨_, _, h3⟩
      · exact h1
      · rw [h3] at hnone; exact absurd hnone (by simp)
      · rw [h3] at hnone; exact absurd hnone (by simp)
    · intro hnd
      rcases hmaster with ⟨_, h2⟩ | ⟨h1, _, _⟩ | ⟨h1, _, _⟩
      · exact h2
      · exact absurd h1 hnd
      · exact absurd h1 hnd
  · intro hg1
    rcases hmaster with ⟨h1, _⟩ | ⟨_, _, h3⟩ | ⟨_, hgg, _⟩
    · exact absurd (hg1 ▸ one_dvd cp : g ∣ cp) h1
    · exact ⟨h3, multip_inv_mul hn (hg ▸ hg1 : Nat.gcd a n = 1)⟩
    · omega
  · intro hgg hdv
    rcases hmaster with ⟨h1, _⟩ | ⟨_, hg1, _⟩ | ⟨_, _, h3⟩
    · exact absurd hdv h1
    · omega
    · refine ⟨h3, map_range_sorted_lt hm1, ?_⟩
      have hco : Nat.gcd (a / g) m = 1 := by
        rw [hg, hm, hg]
        exact Nat.coprime_div_gcd_div_gcd (hg ▸ hgpos)
      exact multip_inv_mul hm2 hco

/-- Witness for the amended claim C3 at `a = 3, b = 1, c = 250, n = 255`
(so `g = 3`, `c' = 249`, `n/g = 85`); this is the multi-solution branch. -/
theorem lin_solve_characterization_witness :
    (2 ≤ 255 ∧ (3 : ℕ) % 255 ≠ 0 ∧ (3 : ℕ) = Nat.gcd 3 255 ∧
      (249 : ℕ) = ((((250 : ℕ) : ℤ) - ((1 : ℕ) : ℤ)) % ((255 : ℕ) : ℤ)).toNat ∧
      (85 : ℕ) = 255 / 3) ∧
    ((LinEq.solve ⟨3, 1, 250, 255⟩ = none ↔ ¬ (3 : ℕ) ∣ 249) ∧
      ((3 : ℕ) = 1 → LinEq.solve ⟨3, 1, 250, 255⟩ = some [multip_inv 3 255 * 249 % 255] ∧
        multip_inv 3 255 * 3 % 255 = 1) ∧
      (1 < (3 : ℕ) → (3 : ℕ) ∣ 249 →
        LinEq.solve ⟨3, 1, 250, 255⟩
          = some ((List.range 3).map (fun i => multip_inv (3 / 3) 85 * (249 / 3) % 85 + i * 85)) ∧
        List.Sorted (· < ·)
          ((List.range 3).map (fun i => multip_inv (3 / 3) 85 * (249 / 3) % 85 + i * 85)) ∧
        multip_inv (3 / 3) 85 * (3 / 3) % 85 = 1)) :=
  ⟨⟨by norm_num, by norm_num, by decide, by decide, by norm_num⟩,
    lin_solve_characterization 3 1 250 255 3 249 85 (by norm_num) (by norm_num)
      (by decide) (by decide) (by norm_num)⟩

theorem nat_mod_eq_of_intCast {x y n : ℕ} (h : (x : ℤ) % n = (y : ℤ) % n) : x % n = y % n := by
  have h2 : ((x % n : ℕ) : ℤ) = ((y % n : ℕ) : ℤ) := by
    rw [Int.natCast_mod, Int.natCast_mod]
    exact h
  exact_mod_cast h2

/-- Any solution list produced by the linear solver is strictly increasing,
bounded by the modulus, and every member satisfies the equation. -/
theorem lin_solve_spec {eq : LinEq} {xs : List ℕ} (hs : LinEq.solve eq = some xs) :
    List.Sorted (· < ·) xs ∧
    ∀ v ∈ xs, v < eq.modu ∧ (eq.a * v + eq.b) % eq.modu = eq.c % eq.modu := by
  obtain ⟨a, b, c, n⟩ := eq
  simp only [] at hs ⊢
  by_cases hgu : n ≤ 1 ∨ a % n = 0
  · rw [LinEq.solve, if_pos hgu] at hs
    exact absurd hs (by simp)
  · push_neg at hgu
    obtain ⟨hn', ha⟩ := hgu
    have hn : 2 ≤ n := by omega
    have hn1 : (1 : ℕ) ≤ n := by omega
    set g := Nat.gcd a n with hg
    set cp := (((c : ℤ) - b) % n).toNat with hcp
    set m := n / g with hm
    obtain ⟨hnone, huniq, hmulti⟩ :=
      lin_solve_characterization a b c n g cp m hn ha hg hcp hm
    have hgdvd_n : g ∣ n := Nat.gcd_dvd_right a n
    have hgdvd_a : g ∣ a := Nat.gcd_dvd_left a n
    have hgpos : 0 < g := by
      rcases Nat.eq_zero_or_pos g with h0 | h0
      · rw [hg] at h0
        have := (Nat.gcd_eq_zero_iff.mp h0).2
        omega
      · exact h0
    have hcpz : (cp : ℤ) = ((c : ℤ) - b) % n := by
      rw [hcp]
      exact Int.toNat_of_nonneg (Int.emod_nonneg _ (by exact_mod_cast (by omega : n ≠ 0)))
    have hsound : ∀ v : ℕ, (a : ℤ) * v ≡ (cp : ℤ) [ZMOD (n : ℤ)] →
        (a * v + b) % n = c % n := by
      intro v hv
      apply nat_mod_eq_of_intCast
      have h1 : ((a * v + b : ℕ) : ℤ) = (a : ℤ) * v + b := by push_cast; ring
      rw [h1]
      have h2 : (a : ℤ) * v + b ≡ cp + b [ZMOD (n : ℤ)] := hv.add_right b
      have h3 : ((cp : ℤ) + b) % n = (c : ℤ) % n := by
        have h4a : ((c : ℤ) - b) % n ≡ (c : ℤ) - b [ZMOD (n : ℤ)] :=
          Int.emod_emod_of_dvd _ dvd_rfl
        have h4 := h4a.add_right (b : ℤ)
        rw [hcpz]
        have h5 : ((c : ℤ) - b) + b = c := by ring
        rw [h5] at h4
        exact h4
      exact h2.trans (by rw [Int.ModEq, h3])
    by_cases hdv : g ∣ cp
    · by_cases hg1 : g = 1
      · obtain ⟨hval, hinv⟩ := huniq hg1
        rw [hval] at hs
        have hxs : xs = [multip_inv a n * cp % n] := by
          exact (Option.some.inj hs).symm
        subst hxs
        refine ⟨List.sorted_singleton _, ?_⟩
        intro v hv
        rw [List.mem_singleton] at hv
        subst hv
        refine ⟨Nat.mod_lt _ (by omega), ?_⟩
        apply hsound
        have hinv2 : (multip_inv a n : ℤ) * a ≡ 1 [ZMOD (n : ℤ)] := by
          have h6 : ((multip_inv a n * a % n : ℕ) : ℤ) = ((1 : ℕ) : ℤ) := by
            rw [hinv]
          rw [Int.natCast_mod] at h6
          push_cast at h6
          calc (multip_inv a n : ℤ) * a ≡ (multip_inv a n : ℤ) * a % n [ZMOD (n : ℤ)] :=
            (Int.emod_emod_of_dvd _ dvd_rfl).symm
            _ = 1 := h6
        calc (a : ℤ) * ((multip_inv a n * cp % n : ℕ) : ℤ)
            ≡ (a : ℤ) * ((multip_inv a n : ℤ) * cp) [ZMOD (n : ℤ)] := by
              refine (Int.ModEq.mul_left _ ?_)
              rw [Int.natCast_mod]
              push_cast
              exact Int.emod_emod_of_dvd _ dvd_rfl
          _ = ((multip_inv a n : ℤ) * a) * cp := by ring
          _ ≡ 1 * cp [ZMOD (n : ℤ)] := hinv2.mul_right cp
          _ = (cp : ℤ) := by ring
      · obtain ⟨hval, hsort, hinv⟩ := hmulti (by omega) hdv
        rw [hval] at hs
        have hxs : xs = (List.range g).map (fun i => multip_inv (a / g) m * (cp / g) % m + i * m) :=
          (Option.some.inj hs).symm
        subst hxs
        have hnm : n = g * m := by
          rw [hm]
          exact (Nat.mul_div_cancel' hgdvd_n).symm
        have hm2 : 2 ≤ m := by
          rcases Nat.lt_or_ge m 2 with h2 | h2
          · interval_cases m
            · rw [Nat.mul_zero] at hnm; omega
            · rw [Nat.mul_one] at hnm
              have : g < n := by
                rcases eq_or_lt_of_le (Nat.le_of_dvd (by omega) hgdvd_n) with heq | hlt
                · exfalso
                  apply ha
                  obtain ⟨k, hk⟩ := (heq ▸ hgdvd_a : n ∣ a)
                  rw [hk, Nat.mul_mod_right]
                · exact hlt
              omega
          · exact h2
        refine ⟨hsort, ?_⟩
        intro v hv
        rw [map_range_mem] at hv
        obtain ⟨i, hig, hvi⟩ := hv
        subst hvi
        have hblt : multip_inv (a / g) m * (cp / g) % m < m := Nat.mod_lt _ (by omega)
        constructor
        · have h7 : multip_inv (a / g) m * (cp / g) % m + i * m < m + i * m := by omega
          have h8 : m + i * m = (i + 1) * m := by ring
          have h9 : (i + 1) * m ≤ g * m := Nat.mul_le_mul_right m (by omega)
          omega
        · apply hsound
          have hinv2 : (multip_inv (a / g) m : ℤ) * ((a / g : ℕ) : ℤ) ≡ 1 [ZMOD (m : ℤ)] := by
            have h6 : ((multip_inv (a / g) m * (a / g) % m : ℕ) : ℤ) = ((1 : ℕ) : ℤ) := by
              rw [hinv]
            rw [Int.natCast_mod] at h6
            push_cast at h6
            calc (multip_inv (a / g) m : ℤ) * ((a / g : ℕ) : ℤ)
                ≡ (multip_inv (a / g) m : ℤ) * ((a / g : ℕ) : ℤ) % m [ZMOD (m : ℤ)] :=
                  (Int.emod_emod_of_dvd _ dvd_rfl).symm
              _ = 1 := h6
          have hbase : ((a / g : ℕ) : ℤ) * ((multip_inv (a / g) m * (cp / g) % m : ℕ) : ℤ)
              ≡ ((cp / g : ℕ) : ℤ) [ZMOD (m : ℤ)] := by
            calc ((a / g : ℕ) : ℤ) * ((multip_inv (a / g) m * (cp / g) % m : ℕ) : ℤ)
                ≡ ((a / g : ℕ) : ℤ) * ((multip_inv (a / g) m : ℤ) * ((cp / g : ℕ) : ℤ))
                  [ZMOD (m : ℤ)] := by
                  refine Int.ModEq.mul_left _ ?_
                  rw [Int.natCast_mod]
                  push_cast
                  exact Int.emod_emod_of_dvd _ dvd_rfl
              _ = ((multip_inv (a / g) m : ℤ) * ((a / g : ℕ) : ℤ)) * ((cp / g : ℕ) : ℤ) := by
                  ring
              _ ≡ 1 * ((cp / g : ℕ) : ℤ) [ZMOD (m : ℤ)] := hinv2.mul_right _
              _ = ((cp / g : ℕ) : ℤ) := by ring
          have hstep := hbase.mul_left' (c := (g : ℤ))
          have hcast_n : (g : ℤ) * m = n := by
            rw [hnm]
            push_cast
            ring
          have hcast_cp : (g : ℤ) * ((cp / g : ℕ) : ℤ) = cp := by
            rw [← Nat.cast_mul, Nat.mul_div_cancel' hdv]
          have hcast_a : (g : ℤ) * ((a / g : ℕ) : ℤ) = a := by
            rw [← Nat.cast_mul, Nat.mul_div_cancel' hgdvd_a]
          set base := multip_inv (a / g) m * (cp / g) % m with hbasedef
          have hvz : ((base + i * m : ℕ) : ℤ) = (base : ℤ) + i * m := by push_cast; ring
          rw [hvz]
          have hsplit : (a : ℤ) * ((base : ℤ) + i * m)
              = (g : ℤ) * (((a / g : ℕ) : ℤ) * base)
                + ((g : ℤ) * m) * (((a / g : ℕ) : ℤ) * i) := by
            rw [← hcast_a]
            ring
          rw [hsplit, ← hcast_n]
          calc (g : ℤ) * (((a / g : ℕ) : ℤ) * base)
              + ((g : ℤ) * m) * (((a / g : ℕ) : ℤ) * i)
              ≡ (g : ℤ) * (((a / g : ℕ) : ℤ) * base) [ZMOD (g : ℤ) * m] :=
                Int.add_mul_emod_self_left ((g : ℤ) * (((a / g : ℕ) : ℤ) * base))
                  ((g : ℤ) * m) (((a / g : ℕ) : ℤ) * i)
            _ ≡ (g : ℤ) * ((cp / g : ℕ) : ℤ) [ZMOD (g : ℤ) * m] := hstep
            _ = (cp : ℤ) := hcast_cp
    · have hnone2 := hnone.mpr hdv
      rw [hnone2] at hs
      exact absurd hs (by simp)

/-! ### Claim C5: the first dispatch step of the primality oracle -/

/-- Claim C5 as stated is false for `n = 2`: the oracle `is_odd_prime`
declares `2` composite (the first dispatch step rejects every even number,
with no exception for `2`; the function decides odd primality only). -/
theorem is_odd_prime_two_counterexample : is_odd_prime 2 = false := by decide

/-- Amended claim C5: the first dispatch step declares `n` composite exactly
when `n ≤ 1` or `n` is even -- including `n = 2`; for every other `n` the
oracle proceeds to the remaining dispatch (`is_odd_prime_body`). -/
theorem is_odd_prime_first_dispatch (n : ℕ) :
    ((n ≤ 1 ∨ n % 2 = 0) → is_odd_prime n = false) ∧
    (¬ (n ≤ 1 ∨ n % 2 = 0) → is_odd_prime n = is_odd_prime_body n) := by
  constructor
  · intro h
    rw [is_odd_prime, if_pos h]
  · intro h
    rw [is_odd_prime, if_neg h]

/-- Witness for the amended claim C5 at `n = 4` (rejected by the first step)
and `n = 9` (passed on to the remaining dispatch). -/
theorem is_odd_prime_first_dispatch_witness :
    ((4 ≤ 1 ∨ 4 % 2 = 0) ∧ ¬ (9 ≤ 1 ∨ 9 % 2 = 0)) ∧
    is_odd_prime 4 = false ∧ is_odd_prime 9 = is_odd_prime_body 9 :=
  ⟨⟨by decide, by decide⟩, (is_odd_prime_first_dispatch 4).1 (by decide),
    (is_odd_prime_first_dispatch 9).2 (by decide)⟩

/-- If the oracle answers `true`, the modulus is odd and at least 3. -/
theorem is_odd_prime_true_odd {n : ℕ} (h : is_odd_prime n = true) :
    n % 2 = 1 ∧ 3 ≤ n := by
  by_cases hc : n ≤ 1 ∨ n % 2 = 0
  · rw [is_odd_prime, if_pos hc] at h
    exact absurd h (by simp)
  · push_neg at hc
    omega

/-! ### Claim C6: the Jacobi symbol and the sign-extending shift -/

/-- Claim C6 fails on the code: at width 8 with `x = 128` (top bit set) and
`n = 129` the kernel returns `0`, but the Jacobi symbol `(128 | 129)` is `1`
(the operands are coprime, so `0` is not even a possible value).  The culprit
is `signed_shr`, which copies the top bit while stripping factors of two.
The same happens at width 128 for operands above `2^127`. -/
theorem jacobi_symbol_top_bit_counterexample :
    jacobi_symbol 8 128 129 = 0 ∧ jacobiSym 128 129 = 1 ∧ Nat.gcd 128 129 = 1 := by
  refine ⟨by decide, ?_, by decide⟩
  have h1 : (128 : ℤ) = 2 ^ 7 := by norm_num
  rw [h1, jacobiSym.pow_left, jacobiSym.at_two (by decide), ZMod.χ₈_nat_eq_if_mod_eight]
  norm_num

/-! ### Claim C10: the identically-true equation collapses to `None` -/

/-- Claim C10: for `n ≥ 2`, `LinEq::solve` returns `None` whenever
`a ≡ 0 (mod n)` -- for every `b`, `c`, so in particular when `b ≡ c` and
every residue solves the equation -- and `QuadEq::solve` returns `None`
whenever `a ≡ 0` and `b ≡ 0 (mod n)`, for every `c`, `d`. -/
theorem vanishing_unknown_gives_none (w n a b c aq bq cq dq : ℕ) (hn : 2 ≤ n)
    (ha : a % n = 0) (haq : aq % n = 0) (hbq : bq % n = 0) :
    LinEq.solve ⟨a, b, c, n⟩ = none ∧ QuadEq.solve w ⟨aq, bq, cq, dq, n⟩ = none := by
  constructor
  · rw [LinEq.solve]
    exact if_pos (Or.inr ha)
  · rw [QuadEq.solve]
    rw [if_neg (by omega : ¬ n ≤ 1), if_pos ⟨haq, hbq⟩]

/-- Witness for claim C10 at `n = 5` with `b ≡ c` (`x` vanishes although
every residue satisfies `5x + 1 ≡ 1` and `10x² + 0x + 2 ≡ 2`). -/
theorem vanishing_unknown_gives_none_witness :
    (2 ≤ 5 ∧ 5 % 5 = 0 ∧ 10 % 5 = 0 ∧ 0 % 5 = 0) ∧
    LinEq.solve ⟨5, 1, 1, 5⟩ = none ∧ QuadEq.solve 8 ⟨10, 0, 2, 2, 5⟩ = none :=
  ⟨⟨by decide, by decide, by decide, by decide⟩,
    vanishing_unknown_gives_none 8 5 5 1 1 10 0 2 2 (by decide) (by decide) (by decide)
      (by decide)⟩

/-! ### Claim C8: degenerate inputs -/

/-- Claim C8 fails on the code: a signed solver with modulus `0` (< 2) and a
negative coefficient panics -- the sign cast divides by the modulus -- instead
of returning `None`. -/
theorem degenerate_signed_zero_modulus_counterexample :
    LinEqSigned.solve 8 { a := -3, b := 0, c := 0, modu := 0 } = .error () ∧
    QuadEqSigned.solve 8 { a := -3, b := 0, c := 0, d := 0, modu := 0 } = .error () :=
  ⟨rfl, rfl⟩

/-- For modulus `1` the sign cast never panics: every branch returns `ok`. -/
theorem cast_to_unsigned_one_ok (w : ℕ) (x : ℤ) :
    cast_to_unsigned w x 1 = .ok none ∨ ∃ v, cast_to_unsigned w x 1 = .ok (some v) := by
  rw [cast_to_unsigned]
  split
  · split
    · right; exact ⟨_, rfl⟩
    · left; rfl
  · split
    · left; rfl
    · split
      · split
        · right; exact ⟨_, rfl⟩
        · split
          · omega
          · right; exact ⟨_, rfl⟩
      · left; rfl

/-- The sign cast maps the minimum signed value to a failed (`None`) cast. -/
theorem cast_to_unsigned_min (w : ℕ) (m : ℕ) :
    cast_to_unsigned w (-(2 ^ (w - 1) : ℤ)) m = .ok none := by
  have h1 : (0 : ℤ) < 2 ^ (w - 1) := pow_pos (by norm_num) _
  rw [cast_to_unsigned, if_neg (by omega), if_pos rfl]

/-- For any modulus at least `1` the sign cast never panics: every branch
returns `ok` (the division by the modulus is reached only when the modulus
is `0`). -/
theorem cast_to_unsigned_no_panic (w : ℕ) (x : ℤ) {modu : ℕ} (hm : 1 ≤ modu) :
    cast_to_unsigned w x modu = .ok none ∨
    ∃ v, cast_to_unsigned w x modu = .ok (some v) := by
  rw [cast_to_unsigned]
  split
  · split
    · right; exact ⟨_, rfl⟩
    · left; rfl
  · split
    · left; rfl
    · split
      · split
        · right; exact ⟨_, rfl⟩
        · split
          · omega
          · right; exact ⟨_, rfl⟩
      · left; rfl

/-- For modulus `n ≥ 2` and an in-range signed value, the cast either fails
(`None`, exactly at the signed minimum) or returns a value congruent to the
input. -/
theorem cast_to_unsigned_ok_mod {w : ℕ} {x : ℤ} {n : ℕ} (hn : 2 ≤ n)
    (hlow : -(2 ^ (w - 1) : ℤ) ≤ x) (hhigh : x < 2 ^ (w - 1)) :
    cast_to_unsigned w x n = .ok none ∨
    ∃ r : ℕ, cast_to_unsigned w x n = .ok (some r) ∧ (r : ℤ) % (n : ℤ) = x % (n : ℤ) := by
  rcases eq_or_lt_of_le hlow with heq | hlt
  · left
    rw [← heq]
    exact cast_to_unsigned_min w n
  · obtain ⟨r, h1, h2, _, _⟩ := cast_to_unsigned_spec w x n hn hlt hhigh
    right
    exact ⟨r, h1, h2⟩

/-- A vanishing integer residue carries over to the cast value. -/
theorem cast_residue_zero {r : ℕ} {x : ℤ} {n : ℕ}
    (hmod : (r : ℤ) % (n : ℤ) = x % (n : ℤ)) (hx : x % (n : ℤ) = 0) : r % n = 0 := by
  rw [hx] at hmod
  have h1 : ((r % n : ℕ) : ℤ) = 0 := by
    rw [Int.natCast_mod]
    exact hmod
  exact_mod_cast h1

/-- Amended claim C8: the solve methods return the absent result (`None`) on
every degenerate input of the claim -- unsigned modulus below 2; unsigned
coefficients all `0` modulo `n` so the unknown vanishes (`a` for linear, `a`
and `b` for quadratic); in the signed variants with modulus at least `1`,
any coefficient equal to the signed minimum; signed variants with modulus
`n ≥ 2` whose in-range leading coefficients vanish modulo `n`; and signed
modulus exactly `1` -- except that a signed variant with modulus `0` and a
negative coefficient panics instead (see the counterexample). -/
theorem degenerate_input_handling (w : ℕ) (leq lz : LinEq) (qeq qz : QuadEq)
    (ls1 ls2 ls3 : LinEqSigned) (qs1 qs2 qs3 : QuadEqSigned)
    (hl : leq.modu ≤ 1) (hq : qeq.modu ≤ 1)
    (hlz : lz.a % lz.modu = 0)
    (hqz : qz.a % qz.modu = 0 ∧ qz.b % qz.modu = 0)
    (hm1 : 1 ≤ ls1.modu)
    (hmin1 : ls1.a = -(2 ^ (w - 1) : ℤ) ∨ ls1.b = -(2 ^ (w - 1) : ℤ) ∨
      ls1.c = -(2 ^ (w - 1) : ℤ))
    (hm2 : 1 ≤ qs1.modu)
    (hmin2 : qs1.a = -(2 ^ (w - 1) : ℤ) ∨ qs1.b = -(2 ^ (w - 1) : ℤ) ∨
      qs1.c = -(2 ^ (w - 1) : ℤ) ∨ qs1.d = -(2 ^ (w - 1) : ℤ))
    (hn1 : 2 ≤ ls2.modu)
    (hra1 : -(2 ^ (w - 1) : ℤ) ≤ ls2.a) (hra2 : ls2.a < 2 ^ (w - 1))
    (hva : ls2.a % (ls2.modu : ℤ) = 0)
    (hn2 : 2 ≤ qs2.modu)
    (hqa1 : -(2 ^ (w - 1) : ℤ) ≤ qs2.a) (hqa2 : qs2.a < 2 ^ (w - 1))
    (hqb1 : -(2 ^ (w - 1) : ℤ) ≤ qs2.b) (hqb2 : qs2.b < 2 ^ (w - 1))
    (hvqa : qs2.a % (qs2.modu : ℤ) = 0) (hvqb : qs2.b % (qs2.modu : ℤ) = 0)
    (hm3 : ls3.modu = 1) (hm4 : qs3.modu = 1) :
    LinEq.solve leq = none ∧ QuadEq.solve w qeq = none ∧
    LinEq.solve lz = none ∧ QuadEq.solve w qz = none ∧
    LinEqSigned.solve w ls1 = .ok none ∧ QuadEqSigned.solve w qs1 = .ok none ∧
    LinEqSigned.solve w ls2 = .ok none ∧ QuadEqSigned.solve w qs2 = .ok none ∧
    LinEqSigned.solve w ls3 = .ok none ∧ QuadEqSigned.solve w qs3 = .ok none := by
  refine ⟨?_, ?_, ?_, ?_, ?_, ?_, ?_, ?_, ?_, ?_⟩
  · rw [LinEq.solve]
    exact if_pos (Or.inl hl)
  · rw [QuadEq.solve, if_pos hq]
  · rw [LinEq.solve]
    exact if_pos (Or.inr hlz)
  · by_cases hmq : qz.modu ≤ 1
    · rw [QuadEq.solve, if_pos hmq]
    · rw [QuadEq.solve, if_neg hmq, if_pos hqz]
  · rcases hmin1 with ha | hb | hc
    · rw [LinEqSigned.solve, ha, cast_to_unsigned_min]
    · rcases cast_to_unsigned_no_panic w ls1.a hm1 with h | ⟨va, h⟩
      · rw [LinEqSigned.solve, h]
      · rw [LinEqSigned.solve, h, hb, cast_to_unsigned_min]
    · rcases cast_to_unsigned_no_panic w ls1.a hm1 with h | ⟨va, h⟩
      · rw [LinEqSigned.solve, h]
      · rcases cast_to_unsigned_no_panic w ls1.b hm1 with h2 | ⟨vb, h2⟩
        · rw [LinEqSigned.solve, h, h2]
        · rw [LinEqSigned.solve, h, h2, hc, cast_to_unsigned_min]
  · rcases hmin2 with ha | hb | hc | hd
    · rw [QuadEqSigned.solve, ha, cast_to_unsigned_min]
    · rcases cast_to_unsigned_no_panic w qs1.a hm2 with h | ⟨va, h⟩
      · rw [QuadEqSigned.solve, h]
      · rw [QuadEqSigned.solve, h, hb, cast_to_unsigned_min]
    · rcases cast_to_unsigned_no_panic w qs1.a hm2 with h | ⟨va, h⟩
      · rw [QuadEqSigned.solve, h]
      · rcases cast_to_unsigned_no_panic w qs1.b hm2 with h2 | ⟨vb, h2⟩
        · rw [QuadEqSigned.solve, h, h2]
        · rw [QuadEqSigned.solve, h, h2, hc, cast_to_unsigned_min]
    · rcases cast_to_unsigned_no_panic w qs1.a hm2 with h | ⟨va, h⟩
      · rw [QuadEqSigned.solve, h]
      · rcases cast_to_unsigned_no_panic w qs1.b hm2 with h2 | ⟨vb, h2⟩
        · rw [QuadEqSigned.solve, h, h2]
        · rcases cast_to_unsigned_no_panic w qs1.c hm2 with h3 | ⟨vc, h3⟩
          · rw [QuadEqSigned.solve, h, h2, h3]
          · rw [QuadEqSigned.solve, h, h2, h3, hd, cast_to_unsigned_min]
  · rcases cast_to_unsigned_ok_mod hn1 hra1 hra2 with h | ⟨ra, h, hmod⟩
    · rw [LinEqSigned.solve, h]
    · have hra : ra % ls2.modu = 0 := cast_residue_zero hmod hva
      rcases @cast_to_unsigned_no_panic w ls2.b ls2.modu (by omega) with h2 | ⟨rb, h2⟩
      · rw [LinEqSigned.solve, h, h2]
      · rcases @cast_to_unsigned_no_panic w ls2.c ls2.modu (by omega) with h3 | ⟨rc, h3⟩
        · rw [LinEqSigned.solve, h, h2, h3]
        · rw [LinEqSigned.solve, h, h2, h3]
          show Except.ok (LinEq.solve { a := ra, b := rb, c := rc, modu := ls2.modu })
              = Except.ok (none : Option (List ℕ))
          have hsolve : LinEq.solve { a := ra, b := rb, c := rc, modu := ls2.modu }
              = none := by
            rw [LinEq.solve]
            exact if_pos (Or.inr hra)
          rw [hsolve]
  · rcases cast_to_unsigned_ok_mod hn2 hqa1 hqa2 with h | ⟨ra, h, hmoda⟩
    · rw [QuadEqSigned.solve, h]
    · have hra : ra % qs2.modu = 0 := cast_residue_zero hmoda hvqa
      rcases cast_to_unsigned_ok_mod hn2 hqb1 hqb2 with h2 | ⟨rb, h2, hmodb⟩
      · rw [QuadEqSigned.solve, h, h2]
      · have hrb : rb % qs2.modu = 0 := cast_residue_zero hmodb hvqb
        rcases @cast_to_unsigned_no_panic w qs2.c qs2.modu (by omega) with h3 | ⟨rc, h3⟩
        · rw [QuadEqSigned.solve, h, h2, h3]
        · rcases @cast_to_unsigned_no_panic w qs2.d qs2.modu (by omega) with h4 | ⟨rd, h4⟩
          · rw [QuadEqSigned.solve, h, h2, h3, h4]
          · rw [QuadEqSigned.solve, h, h2, h3, h4]
            show Except.ok (QuadEq.solve w
                { a := ra, b := rb, c := rc, d := rd, modu := qs2.modu })
              = Except.ok (none : Option (List ℕ))
            have hsolve : QuadEq.solve w
                { a := ra, b := rb, c := rc, d := rd, modu := qs2.modu } = none := by
              rw [QuadEq.solve, if_neg (by omega : ¬ qs2.modu ≤ 1), if_pos ⟨hra, hrb⟩]
            rw [hsolve]
  · rcases @cast_to_unsigned_no_panic w ls3.a ls3.modu (by omega) with h | ⟨va, h⟩
    · rw [LinEqSigned.solve, h]
    · rcases @cast_to_unsigned_no_panic w ls3.b ls3.modu (by omega) with h2 | ⟨vb, h2⟩
      · rw [LinEqSigned.solve, h, h2]
      · rcases @cast_to_unsigned_no_panic w ls3.c ls3.modu (by omega) with h3 | ⟨vc, h3⟩
        · rw [LinEqSigned.solve, h, h2, h3]
        · rw [LinEqSigned.solve, h, h2, h3]
          show Except.ok (LinEq.solve { a := va, b := vb, c := vc, modu := ls3.modu })
              = Except.ok (none : Option (List ℕ))
          have hsolve : LinEq.solve { a := va, b := vb, c := vc, modu := ls3.modu }
              = none := by
            rw [LinEq.solve]
            exact if_pos (Or.inl (show ls3.modu ≤ 1 by omega))
          rw [hsolve]
  · rcases @cast_to_unsigned_no_panic w qs3.a qs3.modu (by omega) with h | ⟨va, h⟩
    · rw [QuadEqSigned.solve, h]
    · rcases @cast_to_unsigned_no_panic w qs3.b qs3.modu (by omega) with h2 | ⟨vb, h2⟩
      · rw [QuadEqSigned.solve, h, h2]
      · rcases @cast_to_unsigned_no_panic w qs3.c qs3.modu (by omega) with h3 | ⟨vc, h3⟩
        · rw [QuadEqSigned.solve, h, h2, h3]
        · rcases @cast_to_unsigned_no_panic w qs3.d qs3.modu (by omega) with h4 | ⟨vd, h4⟩
          · rw [QuadEqSigned.solve, h, h2, h3, h4]
          · rw [QuadEqSigned.solve, h, h2, h3, h4]
            show Except.ok (QuadEq.solve w
                { a := va, b := vb, c := vc, d := vd, modu := qs3.modu })
              = Except.ok (none : Option (List ℕ))
            have hsolve : QuadEq.solve w
                { a := va, b := vb, c := vc, d := vd, modu := qs3.modu } = none := by
              rw [QuadEq.solve, if_pos (by omega : qs3.modu ≤ 1)]
            rw [hsolve]

/-- Witness for the amended claim C8 (width 8, i8/u8): one instance per
degenerate category and solver. -/
theorem degenerate_input_handling_witness :
    (({ a := 1, b := 1, c := 1, modu := 1 } : LinEq).modu ≤ 1 ∧
      ({ a := 1, b := 0, c := 1, d := 1, modu := 0 } : QuadEq).modu ≤ 1 ∧
      (10 : ℕ) % 5 = 0 ∧ ((10 : ℕ) % 5 = 0 ∧ (5 : ℕ) % 5 = 0) ∧
      (1 : ℕ) ≤ 9 ∧
      ((-3 : ℤ) = -(2 ^ (8 - 1) : ℤ) ∨ (-128 : ℤ) = -(2 ^ (8 - 1) : ℤ) ∨
        (7 : ℤ) = -(2 ^ (8 - 1) : ℤ)) ∧
      (1 : ℕ) ≤ 9 ∧
      ((2 : ℤ) = -(2 ^ (8 - 1) : ℤ) ∨ (5 : ℤ) = -(2 ^ (8 - 1) : ℤ) ∨
        (-1 : ℤ) = -(2 ^ (8 - 1) : ℤ) ∨ (-128 : ℤ) = -(2 ^ (8 - 1) : ℤ)) ∧
      (2 : ℕ) ≤ 5 ∧ -(2 ^ (8 - 1) : ℤ) ≤ -10 ∧ (-10 : ℤ) < 2 ^ (8 - 1) ∧
      (-10 : ℤ) % (5 : ℤ) = 0 ∧
      (2 : ℕ) ≤ 5 ∧ -(2 ^ (8 - 1) : ℤ) ≤ -10 ∧ (-10 : ℤ) < 2 ^ (8 - 1) ∧
      -(2 ^ (8 - 1) : ℤ) ≤ 5 ∧ (5 : ℤ) < 2 ^ (8 - 1) ∧
      (-10 : ℤ) % (5 : ℤ) = 0 ∧ (5 : ℤ) % (5 : ℤ) = 0 ∧
      ({ a := -7, b := 2, c := -300, modu := 1 } : LinEqSigned).modu = 1 ∧
      ({ a := 5, b := -2, c := 3, d := -1, modu := 1 } : QuadEqSigned).modu = 1) ∧
    LinEq.solve { a := 1, b := 1, c := 1, modu := 1 } = none ∧
    QuadEq.solve 8 { a := 1, b := 0, c := 1, d := 1, modu := 0 } = none ∧
    LinEq.solve { a := 10, b := 3, c := 4, modu := 5 } = none ∧
    QuadEq.solve 8 { a := 10, b := 5, c := 3, d := 4, modu := 5 } = none ∧
    LinEqSigned.solve 8 { a := -3, b := -128, c := 7, modu := 9 } = .ok none ∧
    QuadEqSigned.solve 8 { a := 2, b := 5, c := -1, d := -128, modu := 9 } = .ok none ∧
    LinEqSigned.solve 8 { a := -10, b := 3, c := -4, modu := 5 } = .ok none ∧
    QuadEqSigned.solve 8 { a := -10, b := 5, c := 7, d := -2, modu := 5 } = .ok none ∧
    LinEqSigned.solve 8 { a := -7, b := 2, c := -300, modu := 1 } = .ok none ∧
    QuadEqSigned.solve 8 { a := 5, b := -2, c := 3, d := -1, modu := 1 } = .ok none :=
  ⟨by decide,
    degenerate_input_handling 8
      { a := 1, b := 1, c := 1, modu := 1 } { a := 10, b := 3, c := 4, modu := 5 }
      { a := 1, b := 0, c := 1, d := 1, modu := 0 }
      { a := 10, b := 5, c := 3, d := 4, modu := 5 }
      { a := -3, b := -128, c := 7, modu := 9 } { a := -10, b := 3, c := -4, modu := 5 }
      { a := -7, b := 2, c := -300, modu := 1 }
      { a := 2, b := 5, c := -1, d := -128, modu := 9 }
      { a := -10, b := 5, c := 7, d := -2, modu := 5 }
      { a := 5, b := -2, c := 3, d := -1, modu := 1 }
      (by decide) (by decide) (by decide) (by decide) (by decide) (by decide)
      (by decide) (by decide) (by decide) (by decide) (by decide) (by decide)
      (by decide) (by decide) (by decide) (by decide) (by decide) (by decide)
      (by decide) (by decide) (by decide)⟩

/-! ### Properties of the modelled factorization -/

/-- Trial division is a sorted list of primes `≥ d` multiplying to `n`,
provided no divisor of `n` below `d` remains and the fuel is adequate. -/
theorem factor_go_spec : ∀ fuel n d, 2 ≤ d → 1 ≤ n →
    (∀ k, 2 ≤ k → k < d → ¬ k ∣ n) → 2 * n ≤ fuel + d →
    List.Sorted (· ≤ ·) (factor_go fuel n d) ∧
    (∀ p ∈ factor_go fuel n d, Nat.Prime p ∧ d ≤ p) ∧
    (factor_go fuel n d).prod = n := by
  intro fuel
  induction fuel with
  | zero =>
    intro n d hd hn hinv hfuel
    refine ⟨by simp [factor_go], by simp [factor_go], ?_⟩
    have hn1 : n = 1 := by
      by_contra h
      have h2 : 2 ≤ n := by omega
      exact hinv n h2 (by omega) dvd_rfl
    simp [factor_go, hn1]
  | succ f ih =>
    intro n d hd hn hinv hfuel
    by_cases h1 : n ≤ 1
    · have hn1 : n = 1 := by omega
      simp [factor_go, hn1]
    · push_neg at h1
      by_cases h2 : n % d = 0
      · have hdvd : d ∣ n := Nat.dvd_of_mod_eq_zero h2
        have hdle : d ≤ n := Nat.le_of_dvd (by omega) hdvd
        have hprime : Nat.Prime d := by
          rw [Nat.prime_def_lt]
          refine ⟨hd, fun m hm hmd => ?_⟩
          by_contra hm1
          have hm2 : 2 ≤ m := by
            rcases Nat.eq_zero_or_pos m with h | h
            · subst h
              exact absurd (Nat.eq_zero_of_zero_dvd hmd) (by omega)
            · omega
          exact hinv m hm2 (by omega) (hmd.trans hdvd)
        have hq : 1 ≤ n / d := Nat.div_pos hdle (by omega)
        have hinv2 : ∀ k, 2 ≤ k → k < d → ¬ k ∣ (n / d) := by
          intro k hk2 hkd hkdvd
          exact hinv k hk2 hkd (hkdvd.trans (Nat.div_dvd_of_dvd hdvd))
        have hd2 : n / d ≤ n / 2 := Nat.div_le_div_left hd (by omega)
        have hm2 := Nat.div_add_mod n 2
        have hfuel2 : 2 * (n / d) ≤ f + d := by omega
        obtain ⟨ihs, ihp, ihprod⟩ := ih (n / d) d hd hq hinv2 hfuel2
        have hgo : factor_go (f + 1) n d = d :: factor_go f (n / d) d := by
          rw [factor_go]
          rw [if_neg (by omega), if_pos h2]
        rw [hgo]
        refine ⟨?_, ?_, ?_⟩
        · rw [List.sorted_cons]
          exact ⟨fun b hb => (ihp b hb).2, ihs⟩
        · intro p hp
          rcases List.mem_cons.mp hp with h | h
          · rw [h]
            exact ⟨hprime, le_refl d⟩
          · exact ihp p h
        · rw [List.prod_cons, ihprod]
          exact Nat.mul_div_cancel' hdvd
      · have hinv2 : ∀ k, 2 ≤ k → k < d + 1 → ¬ k ∣ n := by
          intro k hk2 hkd hkdvd
          by_cases hkd2 : k < d
          · exact hinv k hk2 hkd2 hkdvd
          · have hkd3 : k = d := by omega
            subst hkd3
            obtain ⟨c, hc⟩ := hkdvd
            subst hc
            exact h2 (Nat.mul_mod_right k c)
        have hgo : factor_go (f + 1) n d = factor_go f n (d + 1) := by
          rw [factor_go]
          rw [if_neg (by omega), if_neg h2]
        rw [hgo]
        obtain ⟨ihs, ihp, ihprod⟩ := ih n (d + 1) (by omega) hn hinv2 (by omega)
        exact ⟨ihs, fun p hp => ⟨(ihp p hp).1, by have := (ihp p hp).2; omega⟩, ihprod⟩

/-- Run-length encoding of a sorted block list: strictly increasing keys at
least `p`, positive exponents, keys drawn from `p` and the list, and the
power product equal to `p ^ k` times the list product. -/
theorem rle_go_spec : ∀ (l : List ℕ) (p k : ℕ), 1 ≤ k → List.Sorted (· ≤ ·) l →
    (∀ q ∈ l, p ≤ q) →
    List.Sorted (· < ·) ((rle_go l p k).map Prod.fst) ∧
    (∀ x ∈ (rle_go l p k).map Prod.fst, p ≤ x) ∧
    (∀ pk ∈ rle_go l p k, (pk.1 = p ∨ pk.1 ∈ l) ∧ 1 ≤ pk.2) ∧
    ((rle_go l p k).map (fun pk => pk.1 ^ pk.2)).prod = p ^ k * l.prod ∧
    rle_go l p k ≠ [] := by
  intro l
  induction l with
  | nil =>
    intro p k hk _ _
    refine ⟨by simp [rle_go], by simp [rle_go], ?_, by simp [rle_go], by simp [rle_go]⟩
    intro pk hpk
    simp only [rle_go, List.mem_singleton] at hpk
    rw [hpk]
    exact ⟨Or.inl rfl, hk⟩
  | cons q rest ih =>
    intro p k hk hsort hge
    rw [List.sorted_cons] at hsort
    obtain ⟨hqle, hrest⟩ := hsort
    by_cases hqp : q = p
    · have hgo : rle_go (q :: rest) p k = rle_go rest p (k + 1) := by
        rw [rle_go, if_pos hqp]
      rw [hgo]
      have hge2 : ∀ x ∈ rest, p ≤ x := by
        intro x hx
        exact hqp ▸ hqle x hx
      obtain ⟨i1, i2, i3, i4, i5⟩ := ih p (k + 1) (by omega) hrest hge2
      refine ⟨i1, i2, ?_, ?_, i5⟩
      · intro pk hpk
        obtain ⟨h1, h2⟩ := i3 pk hpk
        exact ⟨h1.imp id (fun h => List.mem_cons_of_mem q h), h2⟩
      · rw [i4, List.prod_cons, hqp]
        ring
    · have hgo : rle_go (q :: rest) p k = (p, k) :: rle_go rest q 1 := by
        rw [rle_go, if_neg hqp]
      rw [hgo]
      have hpq : p < q := lt_of_le_of_ne (hge q (List.mem_cons_self q rest)) (Ne.symm hqp)
      obtain ⟨i1, i2, i3, i4, i5⟩ := ih q 1 (le_refl 1) hrest hqle
      refine ⟨?_, ?_, ?_, ?_, by simp⟩
      · rw [List.map_cons, List.sorted_cons]
        exact ⟨fun x hx => lt_of_lt_of_le hpq (i2 x hx), i1⟩
      · intro x hx
        rcases List.mem_cons.mp hx with h | h
        · omega
        · exact le_of_lt (lt_of_lt_of_le hpq (i2 x h))
      · intro pk hpk
        rcases List.mem_cons.mp hpk with h | h
        · rw [h]
          exact ⟨Or.inl rfl, hk⟩
        · obtain ⟨h1, h2⟩ := i3 pk h
          refine ⟨Or.inr ?_, h2⟩
          rcases h1 with h1 | h1
          · rw [h1]
            exact List.mem_cons_self q rest
          · exact List.mem_cons_of_mem q h1
      · rw [List.map_cons, List.prod_cons, i4, List.prod_cons]
        ring

/-- The modelled `prime_factor_repr` of `n ≥ 2`: nonempty, strictly
increasing prime bases, positive exponents, and power product `n`. -/
theorem prime_factor_repr_spec {n : ℕ} (hn : 2 ≤ n) :
    List.Sorted (· < ·) ((prime_factor_repr n).map Prod.fst) ∧
    (∀ pk ∈ prime_factor_repr n, Nat.Prime pk.1 ∧ 1 ≤ pk.2) ∧
    ((prime_factor_repr n).map (fun pk => pk.1 ^ pk.2)).prod = n ∧
    prime_factor_repr n ≠ [] := by
  obtain ⟨hs, hp, hprod⟩ := factor_go_spec (2 * n) n 2 (le_refl 2) (by omega)
    (by intro k h1 h2; omega) (by omega)
  rw [show factor_go (2 * n) n 2 = factor_list n from rfl] at hs hp hprod
  rcases hl : factor_list n with _ | ⟨p, rest⟩
  · rw [hl] at hprod
    simp at hprod
    omega
  · rw [hl] at hs hp hprod
    rw [List.sorted_cons] at hs
    obtain ⟨hple, hrest⟩ := hs
    obtain ⟨r1, r2, r3, r4, r5⟩ := rle_go_spec rest p 1 (le_refl 1) hrest hple
    have hrepr : prime_factor_repr n = rle_go rest p 1 := by
      rw [prime_factor_repr, hl]
    rw [hrepr]
    refine ⟨r1, ?_, ?_, r5⟩
    · intro pk hpk
      obtain ⟨h1, h2⟩ := r3 pk hpk
      refine ⟨?_, h2⟩
      rcases h1 with h1 | h1
      · rw [h1]
        exact (hp p (List.mem_cons_self p rest)).1
      · exact (hp pk.1 (List.mem_cons_of_mem p h1)).1
    · rw [r4, pow_one, ← List.prod_cons, ← hprod]

/-! ### Sortedness and bounds through the odd-prime quadratic path -/

theorem exp_mod_u_lt (ex : ℕ) {base n : ℕ} (hn : 2 ≤ n) (hb : base < n) :
    exp_mod_u base ex n < n := by
  rw [exp_mod_u_eq ex hn hb]
  exact Nat.mod_lt _ (by omega)

theorem exp_mod_u_u128_eq_u (base ex n : ℕ) : exp_mod_u_u128 base ex n = exp_mod_u base ex n :=
  rfl

theorem sub_mod_u_zero_left {x m : ℕ} (hx : 0 < x) : sub_mod_u 0 x m = m - x := by
  rw [sub_mod_u, if_neg (by omega)]
  omega

/-- Any value returned by the Tonelli-Shanks loop is reduced below the
modulus. -/
theorem ts_loop_some_lt {modu : ℕ} (hm : 2 ≤ modu) :
    ∀ f par_c par_t res m x, par_c < modu → par_t < modu → res < modu →
      ts_loop modu f par_c par_t res m = some x → x < modu := by
  intro f
  induction f with
  | zero =>
    intro par_c par_t res m x _ _ _ hs
    exact absurd hs (by rw [ts_loop]; exact Option.noConfusion)
  | succ f ih =>
    intro par_c par_t res m x hc ht hr hs
    rw [ts_loop] at hs
    by_cases h0 : par_t = 0
    · rw [if_pos h0] at hs
      injection hs with h
      omega
    · rw [if_neg h0] at hs
      by_cases h1 : par_t = 1
      · rw [if_pos h1] at hs
        injection hs with h
        omega
      · rw [if_neg h1] at hs
        by_cases h2 : ts_least_i par_t modu m = 0
        · rw [if_pos h2] at hs
          exact absurd hs Option.noConfusion
        · rw [if_neg h2] at hs
          have hb : ts_par_b par_c m (ts_least_i par_t modu m) modu < modu :=
            exp_mod_u_lt _ hm hc
          exact ih _ _ _ _ x
            (mult_mod_u_lt _ (le_of_lt hb) (by omega))
            (mult_mod_u_lt _ (le_of_lt ht) (by omega))
            (mult_mod_u_lt _ (le_of_lt hr) (by omega)) hs

/-- Any value returned by `tonelli_shanks` is reduced below the modulus. -/
theorem tonelli_shanks_lt {q modu x : ℕ} (hm : 2 ≤ modu)
    (hs : tonelli_shanks q modu = some x) : x < modu := by
  rw [tonelli_shanks] at hs
  rcases hf : ((List.range modu).drop 2).find?
      (fun b => exp_mod_u b ((modu - 1) / 2) modu != 1) with _ | nr
  · rw [hf] at hs
    exact absurd hs Option.noConfusion
  · rw [hf] at hs
    have hnr : nr < modu := by
      have hmem := List.mem_of_find?_eq_some hf
      have := List.mem_range.mp (List.mem_of_mem_drop hmem)
      exact this
    exact ts_loop_some_lt hm _ _ _ _ _ _ (exp_mod_u_lt _ hm hnr)
      (exp_mod_lt _ _ hm) (exp_mod_lt _ _ hm) hs

/-- The square-root list of the odd-prime branch is strictly sorted and
reduced. -/
theorem solve_quad_residue_sorted {eq : QuadEq} {xs : List ℕ}
    (hm : 2 ≤ eq.modu) (hodd : eq.modu % 2 = 1)
    (hs : solve_quad_residue_odd_prime_mod eq = some xs) :
    List.Sorted (· < ·) xs ∧ ∀ v ∈ xs, v < eq.modu := by
  rw [solve_quad_residue_odd_prime_mod] at hs
  by_cases hd : eq.d = 0
  · rw [if_pos hd] at hs
    injection hs with h
    rw [← h, hd]
    exact ⟨List.sorted_singleton 0, by intro v hv; simp at hv; omega⟩
  · rw [if_neg hd] at hs
    by_cases he : exp_mod eq.d ((eq.modu - 1) / 2) eq.modu ≠ 1
    · rw [if_pos he] at hs
      exact absurd hs Option.noConfusion
    · rw [if_neg he] at hs
      rcases ht : tonelli_shanks eq.d eq.modu with _ | x
      · rw [ht] at hs
        exact absurd hs Option.noConfusion
      · rw [ht] at hs
        have hs2 : (if x = 0 then some [x]
            else some (vec_sort [x, sub_mod_u 0 x eq.modu])) = some xs := hs
        have hx : x < eq.modu := tonelli_shanks_lt hm ht
        by_cases hx0 : x = 0
        · rw [if_pos hx0] at hs2
          injection hs2 with h
          rw [← h, hx0]
          exact ⟨List.sorted_singleton 0, by intro v hv; simp at hv; omega⟩
        · rw [if_neg hx0] at hs2
          injection hs2 with h
          rw [← h, sub_mod_u_zero_left (by omega)]
          have hne : x ≠ eq.modu - x := by omega
          have hnodup : ([x, eq.modu - x] : List ℕ).Nodup := by
            simp [hne]
          refine ⟨vec_sort_strict hnodup, ?_⟩
          intro v hv
          have hv2 := (vec_sort_perm [x, eq.modu - x]).mem_iff.mp hv
          simp only [List.mem_cons, List.mem_singleton, List.not_mem_nil, or_false] at hv2
          rcases hv2 with h | h <;> omega

/-- Off the `b = d = 0` special case, `solve_linear_singular` is exactly the
linear-solver core on `b·x ≡ d`. -/
theorem solve_linear_singular_eq {eq : QuadEq} (hm : 2 ≤ eq.modu)
    (hb : eq.b % eq.modu ≠ 0) (hbd : ¬ (eq.b = 0 ∧ eq.d = 0)) :
    solve_linear_singular eq = LinEq.solve ⟨eq.b, 0, eq.d, eq.modu⟩ := by
  rw [solve_linear_singular, if_neg hbd]
  show _ = (if eq.modu ≤ 1 ∨ eq.b % eq.modu = 0 then none
    else lin_solve_core eq.b eq.d eq.modu)
  rw [if_neg (show ¬ (eq.modu ≤ 1 ∨ eq.b % eq.modu = 0) by push_neg; exact ⟨by omega, hb⟩)]
  rfl

/-- `solve_linear_singular` returns a strictly sorted list of reduced
residues, each solving `b·x ≡ d`. -/
theorem solve_linear_singular_spec {eq : QuadEq} {xs : List ℕ} (hm : 2 ≤ eq.modu)
    (hs : solve_linear_singular eq = some xs) :
    List.Sorted (· < ·) xs ∧
    ∀ v ∈ xs, v < eq.modu ∧ (eq.b * v) % eq.modu = eq.d % eq.modu := by
  by_cases hbd : eq.b = 0 ∧ eq.d = 0
  · rw [solve_linear_singular, if_pos hbd] at hs
    injection hs with h
    rw [← h]
    refine ⟨List.sorted_singleton 0, ?_⟩
    intro v hv
    simp only [List.mem_singleton] at hv
    rw [hv, hbd.1, hbd.2]
    exact ⟨by omega, rfl⟩
  · by_cases hb0 : eq.b % eq.modu = 0
    · rw [solve_linear_singular, if_neg hbd] at hs
      have hg : gcd_mod eq.b eq.modu = eq.modu := by
        rw [gcd_mod_eq, Nat.gcd_comm]
        exact Nat.gcd_eq_left (Nat.dvd_of_mod_eq_zero hb0)
      rw [hg] at hs
      by_cases hd0 : eq.d % eq.modu > 0
      · rw [if_pos hd0] at hs
        exact absurd hs Option.noConfusion
      · rw [if_neg hd0, if_neg (by omega)] at hs
        injection hs with h
        have hdm : eq.modu / eq.modu = 1 := Nat.div_self (by omega)
        rw [hdm] at h
        have hbase : mult_mod (multip_inv (eq.b / eq.modu) 1) (eq.d / eq.modu) 1 = 0 := by
          rw [mult_mod_eq _ _ (by omega)]
          exact Nat.mod_one _
        rw [hbase] at h
        have hrs : range_step 0 eq.modu 1 = (List.range eq.modu).map (fun i => 0 + i * 1) := by
          have := @range_step_eq_map 1 (by omega) 0 eq.modu (by omega)
          rw [mul_one] at this
          exact this
        rw [hrs] at h
        rw [← h]
        refine ⟨map_range_sorted_lt (by omega), ?_⟩
        intro v hv
        obtain ⟨i, hig, hvi⟩ := map_range_mem.mp hv
        have hv2 : v = i := by omega
        constructor
        · omega
        · rw [Nat.mul_mod, hb0, Nat.zero_mul, Nat.zero_mod]
          omega
    · rw [solve_linear_singular_eq hm hb0 hbd] at hs
      obtain ⟨h1, h2⟩ := lin_solve_spec hs
      refine ⟨h1, ?_⟩
      intro v hv
      obtain ⟨hv1, hv2⟩ := h2 v hv
      rw [add_zero] at hv2
      exact ⟨hv1, hv2⟩

/-- `solve_quad_simple` (odd modulus at least 3) returns a strictly sorted
list of reduced residues. -/
theorem solve_quad_simple_sorted {eq : QuadEq} {xs : List ℕ}
    (hm : 2 ≤ eq.modu) (hodd : eq.modu % 2 = 1)
    (hs : solve_quad_simple eq = some xs) :
    List.Sorted (· < ·) xs ∧ ∀ v ∈ xs, v < eq.modu := by
  rw [solve_quad_simple] at hs
  split at hs
  · exact absurd hs Option.noConfusion
  · split at hs
    · obtain ⟨h1, h2⟩ := solve_linear_singular_spec hm hs
      exact ⟨h1, fun v hv => (h2 v hv).1⟩
    · split at hs
      · exact absurd hs Option.noConfusion
      · exact absurd hs Option.noConfusion
      · rename_i z0 ztail heq
        have hres := @solve_quad_residue_sorted { eq with d := quad_simple_d eq } _
          hm hodd heq
        split at hs
        · exact absurd hs Option.noConfusion
        · rename_i x1 hlin
          obtain ⟨hl1, hl2⟩ := lin_solve_spec hlin
          split at hs
          · injection hs with h
            rw [← h]
            exact ⟨hl1, fun v hv => (hl2 v hv).1⟩
          · rename_i hne
            push_neg at hne
            obtain ⟨hz0, hzt⟩ := hne
            rcases hzt2 : ztail with _ | ⟨zh, zt⟩
            · exact absurd hzt2 hzt
            · rw [hzt2] at hs
              simp only [List.headD_cons] at hs
              split at hs
              · injection hs with h
                rw [← h]
                exact ⟨hl1, fun v hv => (hl2 v hv).1⟩
              · rename_i x2 hlin2
                injection hs with h
                rw [← h]
                obtain ⟨hl3, hl4⟩ := lin_solve_spec hlin2
                have hsortz : z0 < zh := by
                  rw [hzt2] at hres
                  exact List.rel_of_sorted_cons hres.1 zh (List.mem_cons_self zh zt)
                have hz0m : z0 < eq.modu := by
                  refine hres.2 z0 ?_
                  rw [hzt2]
                  exact List.mem_cons_self z0 (zh :: zt)
                have hzhm : zh < eq.modu := by
                  refine hres.2 zh ?_
                  rw [hzt2]
                  exact List.mem_cons_of_mem z0 (List.mem_cons_self zh zt)
                have hnodup : (x1 ++ x2).Nodup := by
                  refine List.Nodup.append hl1.nodup hl3.nodup ?_
                  intro v hv1 hv2
                  have e1 := (hl2 v hv1).2
                  have e2 := (hl4 v hv2).2
                  have : z0 % eq.modu = zh % eq.modu := by
                    rw [← e1, e2]
                  rw [Nat.mod_eq_of_lt hz0m, Nat.mod_eq_of_lt hzhm] at this
                  omega
                refine ⟨vec_sort_strict hnodup, ?_⟩
                intro v hv
                have hv2 := (vec_sort_perm (x1 ++ x2)).mem_iff.mp hv
                rcases List.mem_append.mp hv2 with h | h
                · exact (hl2 v h).1
                · exact (hl4 v h).1

/-! ### Hensel lifting: bounds, residues and duplicate-freedom -/

theorem int_modeq_of_nat {x y n : ℕ} (h : x % n = y % n) : (x : ℤ) ≡ y [ZMOD (n : ℤ)] := by
  show (x : ℤ) % n = (y : ℤ) % n
  rw [← Int.natCast_mod, ← Int.natCast_mod, h]

theorem poly_congr {a b d p : ℤ} {x y : ℤ} (h : x ≡ y [ZMOD p]) :
    a * x * x + b * x - d ≡ a * y * y + b * y - d [ZMOD p] :=
  (((h.mul_left a).mul h).add (h.mul_left b)).sub_right d

theorem quad_poly_val_lt {a b d x m : ℕ} (hm : 1 ≤ m) : quad_poly_val a b d x m < m := by
  rw [quad_poly_val]
  exact add_mod_u_lt (add_mod_u_lt (mult_mod_lt _ _ hm) (mult_mod_lt _ _ hm))
    (sub_mod_lt _ _ hm)

theorem quad_poly_val_modeq {a b d x m : ℕ} (hm : 1 ≤ m) :
    (quad_poly_val a b d x m : ℤ) ≡ (a : ℤ) * x * x + b * x - d [ZMOD (m : ℤ)] := by
  have hX : mult_mod a (mult_mod x x m) m < m := mult_mod_lt _ _ hm
  have hY : mult_mod b x m < m := mult_mod_lt _ _ hm
  have hXY : add_mod_u (mult_mod a (mult_mod x x m) m) (mult_mod b x m) m < m :=
    add_mod_u_lt hX hY
  have hC : sub_mod 0 d m < m := sub_mod_lt _ _ hm
  have hmain : (quad_poly_val a b d x m : ℤ) =
      (((mult_mod a (mult_mod x x m) m : ℤ) + (mult_mod b x m : ℤ)) % m
        + (sub_mod 0 d m : ℤ)) % m := by
    rw [quad_poly_val, add_mod_u_eq hXY hC, add_mod_u_eq hX hY]
    push_cast
    ring_nf
  have e1 : (mult_mod a (mult_mod x x m) m : ℤ) ≡ (a : ℤ) * x * x [ZMOD (m : ℤ)] := by
    have h1 : (mult_mod a (mult_mod x x m) m : ℤ) = ((a : ℤ) * ((x : ℤ) * x % m)) % m := by
      rw [mult_mod_eq _ _ hm, mult_mod_eq _ _ hm]
      push_cast
      ring_nf
    rw [h1]
    have h2 : ((x : ℤ) * x % m) ≡ (x : ℤ) * x [ZMOD (m : ℤ)] := Int.emod_emod_of_dvd _ dvd_rfl
    have h3 : ((a : ℤ) * ((x : ℤ) * x % m)) % m ≡ (a : ℤ) * ((x : ℤ) * x % m)
        [ZMOD (m : ℤ)] := Int.emod_emod_of_dvd _ dvd_rfl
    calc ((a : ℤ) * ((x : ℤ) * x % m)) % m
        ≡ (a : ℤ) * ((x : ℤ) * x % m) [ZMOD (m : ℤ)] := h3
      _ ≡ (a : ℤ) * ((x : ℤ) * x) [ZMOD (m : ℤ)] := h2.mul_left a
      _ = (a : ℤ) * x * x := by ring
  have e2 : (mult_mod b x m : ℤ) ≡ (b : ℤ) * x [ZMOD (m : ℤ)] := by
    have h1 : (mult_mod b x m : ℤ) = ((b : ℤ) * x) % m := by
      rw [mult_mod_eq _ _ hm]
      push_cast
      ring_nf
    rw [h1]
    exact Int.emod_emod_of_dvd _ dvd_rfl
  have e3 : (sub_mod 0 d m : ℤ) ≡ -(d : ℤ) [ZMOD (m : ℤ)] := by
    rw [sub_mod_intCast 0 d hm]
    calc ((0 : ℤ) - d) % m ≡ (0 : ℤ) - d [ZMOD (m : ℤ)] := Int.emod_emod_of_dvd _ dvd_rfl
      _ = -(d : ℤ) := by ring
  rw [hmain]
  calc (((mult_mod a (mult_mod x x m) m : ℤ) + (mult_mod b x m : ℤ)) % m
        + (sub_mod 0 d m : ℤ)) % m
      ≡ ((mult_mod a (mult_mod x x m) m : ℤ) + (mult_mod b x m : ℤ)) % m
        + (sub_mod 0 d m : ℤ) [ZMOD (m : ℤ)] := Int.emod_emod_of_dvd _ dvd_rfl
    _ ≡ ((mult_mod a (mult_mod x x m) m : ℤ) + (mult_mod b x m : ℤ))
        + (sub_mod 0 d m : ℤ) [ZMOD (m : ℤ)] := by
        have h : ((mult_mod a (mult_mod x x m) m : ℤ) + (mult_mod b x m : ℤ)) % m
            ≡ (mult_mod a (mult_mod x x m) m : ℤ) + (mult_mod b x m : ℤ) [ZMOD (m : ℤ)] :=
          Int.emod_emod_of_dvd _ dvd_rfl
        exact h.add_right _
    _ ≡ ((a : ℤ) * x * x + b * x) + -(d : ℤ) [ZMOD (m : ℤ)] := (e1.add e2).add e3
    _ = (a : ℤ) * x * x + b * x - d := by ring

theorem hensel_go_lt {p a b d t : ℕ} (hp : 1 ≤ p) :
    ∀ k modu s, 1 ≤ modu → s < modu → hensel_go p a b d t k modu s < modu * p ^ k := by
  intro k
  induction k with
  | zero =>
    intro modu s hm hs
    rw [hensel_go]
    simpa using hs
  | succ k ih =>
    intro modu s hm hs
    rw [hensel_go]
    have hM : 1 ≤ modu * p := Nat.mul_pos hm hp
    have hstep : sub_mod_u s (mult_mod_u (quad_poly_val a b d s (modu * p)) t (modu * p))
        (modu * p) < modu * p := by
      refine sub_mod_u_lt (by nlinarith) ?_
      exact mult_mod_u_lt _ (le_of_lt (quad_poly_val_lt hM)) hM
    have := ih (modu * p) _ hM hstep
    calc hensel_go p a b d t k (modu * p)
          (sub_mod_u s (mult_mod_u (quad_poly_val a b d s (modu * p)) t (modu * p)) (modu * p))
        < modu * p * p ^ k := this
      _ = modu * p ^ (k + 1) := by ring

theorem sub_mod_u_modeq {x y M : ℕ} (hx : x < M) (hy : y < M) :
    (sub_mod_u x y M : ℤ) ≡ (x : ℤ) - y [ZMOD (M : ℤ)] := by
  rw [sub_mod_u_eq hx hy]
  have h1 : (((x + (M - y)) % M : ℕ) : ℤ) = ((x : ℤ) + ((M : ℤ) - y)) % M := by
    rw [Int.natCast_mod]
    push_cast [Nat.cast_sub (le_of_lt hy)]
    ring_nf
  rw [h1, show (x : ℤ) + ((M : ℤ) - y) = ((x : ℤ) - y) + (M : ℤ) * 1 from by ring,
    Int.add_mul_emod_self_left]
  exact Int.emod_emod_of_dvd _ dvd_rfl

/-- A mod-`M` congruence restricts to any divisor `p` of `M`. -/
theorem modeq_of_dvd_of_modeq {p M : ℤ} {x y : ℤ} (hd : p ∣ M) (h : x ≡ y [ZMOD M]) :
    x ≡ y [ZMOD p] :=
  Int.ModEq.of_dvd hd h

/-- Every Newton step of the non-singular Hensel loop preserves the residue
class mod `p` of a root. -/
theorem hensel_go_modeq_p {p a b d t : ℕ} (hp : 1 ≤ p) :
    ∀ k modu s, 1 ≤ modu → p ∣ modu → s < modu →
      ((a : ℤ) * s * s + b * s - d ≡ 0 [ZMOD (p : ℤ)]) →
      (hensel_go p a b d t k modu s : ℤ) ≡ (s : ℤ) [ZMOD (p : ℤ)] := by
  intro k
  induction k with
  | zero =>
    intro modu s _ _ _ _
    rw [hensel_go]
  | succ k ih =>
    intro modu s hm hdvd hs hroot
    rw [hensel_go]
    have hM : 1 ≤ modu * p := Nat.mul_pos hm hp
    have hdvdM : (p : ℤ) ∣ ((modu * p : ℕ) : ℤ) := by
      push_cast
      exact Dvd.intro modu (mul_comm _ _)
    have hy : mult_mod_u (quad_poly_val a b d s (modu * p)) t (modu * p) < modu * p :=
      mult_mod_u_lt _ (le_of_lt (quad_poly_val_lt hM)) hM
    have hsM : s < modu * p := by nlinarith
    have hstep : (sub_mod_u s (mult_mod_u (quad_poly_val a b d s (modu * p)) t (modu * p))
        (modu * p) : ℤ) ≡ (s : ℤ) [ZMOD (p : ℤ)] := by
      have h1 := sub_mod_u_modeq hsM hy
      have h1p := modeq_of_dvd_of_modeq hdvdM h1
      have h2 : (mult_mod_u (quad_poly_val a b d s (modu * p)) t (modu * p) : ℤ)
          ≡ 0 [ZMOD (p : ℤ)] := by
        have h3 : (mult_mod_u (quad_poly_val a b d s (modu * p)) t (modu * p) : ℤ)
            = ((quad_poly_val a b d s (modu * p) : ℤ) * t) % ((modu * p : ℕ) : ℤ) := by
          rw [mult_mod_u_eq _ (le_of_lt (quad_poly_val_lt hM)) hM]
          push_cast
          ring_nf
        rw [h3]
        have h4 : ((quad_poly_val a b d s (modu * p) : ℤ) * t) % ((modu * p : ℕ) : ℤ)
            ≡ (quad_poly_val a b d s (modu * p) : ℤ) * t [ZMOD (p : ℤ)] :=
          modeq_of_dvd_of_modeq hdvdM (Int.emod_emod_of_dvd _ dvd_rfl)
        have h5 : (quad_poly_val a b d s (modu * p) : ℤ) ≡ 0 [ZMOD (p : ℤ)] := by
          have h6 := modeq_of_dvd_of_modeq hdvdM (quad_poly_val_modeq (m := modu * p)
            (a := a) (b := b) (d := d) (x := s) hM)
          exact h6.trans hroot
        calc ((quad_poly_val a b d s (modu * p) : ℤ) * t) % ((modu * p : ℕ) : ℤ)
            ≡ (quad_poly_val a b d s (modu * p) : ℤ) * t [ZMOD (p : ℤ)] := h4
          _ ≡ 0 * t [ZMOD (p : ℤ)] := h5.mul_right t
          _ = 0 := by ring
      calc (sub_mod_u s (mult_mod_u (quad_poly_val a b d s (modu * p)) t (modu * p))
            (modu * p) : ℤ)
          ≡ (s : ℤ) - (mult_mod_u (quad_poly_val a b d s (modu * p)) t (modu * p) : ℤ)
            [ZMOD (p : ℤ)] := h1p
        _ ≡ (s : ℤ) - 0 [ZMOD (p : ℤ)] := (h2.sub_left _)
        _ = (s : ℤ) := by ring
    have hstep_lt : sub_mod_u s (mult_mod_u (quad_poly_val a b d s (modu * p)) t (modu * p))
        (modu * p) < modu * p := sub_mod_u_lt hsM hy
    have hroot2 : (a : ℤ) * (sub_mod_u s
          (mult_mod_u (quad_poly_val a b d s (modu * p)) t (modu * p)) (modu * p))
        * (sub_mod_u s (mult_mod_u (quad_poly_val a b d s (modu * p)) t (modu * p)) (modu * p))
        + b * (sub_mod_u s (mult_mod_u (quad_poly_val a b d s (modu * p)) t (modu * p))
          (modu * p)) - d ≡ 0 [ZMOD (p : ℤ)] :=
      (poly_congr hstep).trans hroot
    have := ih (modu * p) _ hM (Dvd.intro modu (mul_comm _ _)) hstep_lt hroot2
    exact this.trans hstep

/-- The singular-root lifting loop keeps the list duplicate-free, reduced
below the current modulus, and inside the residue class of the original
root. -/
theorem singular_go_spec {p a b d : ℕ} (hp : 1 ≤ p) (s0 : ℕ) :
    ∀ k modu sols out, 1 ≤ modu → p ∣ modu →
      sols.Nodup → (∀ v ∈ sols, v < modu ∧ (v : ℤ) ≡ (s0 : ℤ) [ZMOD (p : ℤ)]) →
      singular_go p a b d k modu sols = some out →
      out.Nodup ∧ ∀ v ∈ out, v < modu * p ^ k ∧ (v : ℤ) ≡ (s0 : ℤ) [ZMOD (p : ℤ)] := by
  intro k
  induction k with
  | zero =>
    intro modu sols out hm hdvd hnd hmem hs
    rw [singular_go] at hs
    injection hs with h
    subst h
    refine ⟨hnd, ?_⟩
    intro v hv
    rw [pow_zero, mul_one]
    exact hmem v hv
  | succ k ih =>
    intro modu sols out hm hdvd hnd hmem hs
    rw [singular_go] at hs
    split at hs
    · exact absurd hs Option.noConfusion
    · have hmap : ∀ sol, sol < modu →
          range_step sol (modu * p) modu = (List.range p).map (fun i => sol + i * modu) := by
        intro sol hsol
        rw [mul_comm modu p]
        exact range_step_eq_map hm hsol
      have hmemf : ∀ sol ∈ sols, ∀ v ∈ (if quad_poly_val a b d sol (modu * p) % (modu * p) = 0
            then range_step sol (modu * p) modu else []),
          v < modu * p ∧ (v : ℤ) ≡ (s0 : ℤ) [ZMOD (p : ℤ)] := by
        intro sol hsol v hv
        split at hv
        · rw [hmap sol (hmem sol hsol).1] at hv
          obtain ⟨i, hip, hvi⟩ := map_range_mem.mp hv
          have hsoll := (hmem sol hsol).1
          constructor
          · have h1 : i * modu ≤ (p - 1) * modu :=
              Nat.mul_le_mul_right modu (by omega)
            have h2 : (p - 1) * modu + modu = p * modu := by
              cases p with
              | zero => omega
              | succ q => simp [Nat.succ_sub_one]; ring
            have h3 : p * modu = modu * p := Nat.mul_comm p modu
            omega
          · obtain ⟨c, hc⟩ := hdvd
            have hdvd2 : (p : ℤ) ∣ ((i * modu : ℕ) : ℤ) := by
              push_cast [hc]
              exact ⟨i * c, by ring⟩
            have h3 : ((i * modu : ℕ) : ℤ) ≡ 0 [ZMOD (p : ℤ)] :=
              Int.modEq_zero_iff_dvd.mpr hdvd2
            have h4 : (v : ℤ) = (sol : ℤ) + ((i * modu : ℕ) : ℤ) := by
              rw [hvi]
              push_cast
              ring
            calc (v : ℤ) = (sol : ℤ) + ((i * modu : ℕ) : ℤ) := h4
              _ ≡ (sol : ℤ) + 0 [ZMOD (p : ℤ)] := h3.add_left _
              _ = (sol : ℤ) := by ring
              _ ≡ (s0 : ℤ) [ZMOD (p : ℤ)] := (hmem sol hsol).2
        · exact absurd hv (List.not_mem_nil v)
      have hnodupL : (sols.bind fun sol =>
          if quad_poly_val a b d sol (modu * p) % (modu * p) = 0
          then range_step sol (modu * p) modu else []).Nodup := by
        rw [List.nodup_bind]
        constructor
        · intro sol hsol
          split
          · rw [hmap sol (hmem sol hsol).1]
            exact (map_range_sorted_lt hm).nodup
          · exact List.nodup_nil
        · refine hnd.imp_of_mem ?_
          intro sol1 sol2 h1 h2 hne
          intro v hv1 hv2
          simp only [] at hv1 hv2
          have hb1 : v % modu = sol1 := by
            split at hv1
            · rw [hmap sol1 (hmem sol1 h1).1] at hv1
              obtain ⟨i, _, hvi⟩ := map_range_mem.mp hv1
              rw [hvi, Nat.add_mul_mod_self_right]
              exact Nat.mod_eq_of_lt (hmem sol1 h1).1
            · exact absurd hv1 (List.not_mem_nil v)
          have hb2 : v % modu = sol2 := by
            split at hv2
            · rw [hmap sol2 (hmem sol2 h2).1] at hv2
              obtain ⟨i, _, hvi⟩ := map_range_mem.mp hv2
              rw [hvi, Nat.add_mul_mod_self_right]
              exact Nat.mod_eq_of_lt (hmem sol2 h2).1
            · exact absurd hv2 (List.not_mem_nil v)
          exact hne (by omega)
      have := ih (modu * p) _ out (Nat.mul_pos hm hp) (dvd_mul_left p modu) hnodupL
        (fun v hv => by
          obtain ⟨sol, hsol, hvf⟩ := List.mem_bind.mp hv
          exact hmemf sol hsol v hvf) hs
      refine ⟨this.1, ?_⟩
      intro v hv
      obtain ⟨h1, h2⟩ := this.2 v hv
      refine ⟨?_, h2⟩
      calc v < modu * p * p ^ k := h1
        _ = modu * p ^ (k + 1) := by ring

/-- The full Hensel collection: duplicate-free, bounded by the prime power,
and each output congruent mod `p` to one of the input roots. -/
theorem hensel_collect_spec {eq : QuadEq} {prm_k : ℕ} (hp : 2 ≤ eq.modu) (hk : 1 ≤ prm_k) :
    ∀ sub_sols : List ℕ, sub_sols.Nodup → (∀ s ∈ sub_sols, s < eq.modu) →
      (∀ s ∈ sub_sols, gcd_mod eq.modu (hensel_poly_d eq s) = 1 →
        (eq.a : ℤ) * s * s + eq.b * s - eq.d ≡ 0 [ZMOD (eq.modu : ℤ)]) →
      (hensel_collect eq prm_k sub_sols).Nodup ∧
      ∀ v ∈ hensel_collect eq prm_k sub_sols,
        v < eq.modu ^ prm_k ∧ ∃ s ∈ sub_sols, (v : ℤ) ≡ (s : ℤ) [ZMOD (eq.modu : ℤ)] := by
  intro sub_sols
  induction sub_sols with
  | nil =>
    intro _ _ _
    exact ⟨List.nodup_nil, by intro v hv; exact absurd hv (List.not_mem_nil v)⟩
  | cons s rest ih =>
    intro hnd hb hroot
    have hcons : hensel_collect eq prm_k (s :: rest) =
        (if gcd_mod eq.modu (hensel_poly_d eq s) ≠ 1 then
          (match lift_singular_root eq s prm_k with
           | some ls => ls
           | none => [])
        else
          [hensel_go eq.modu eq.a eq.b eq.d (multip_inv (hensel_poly_d eq s) eq.modu)
            (prm_k - 1) eq.modu s])
        ++ hensel_collect eq prm_k rest := rfl
    have hpow : eq.modu * eq.modu ^ (prm_k - 1) = eq.modu ^ prm_k := by
      rw [← pow_succ']
      congr 1
      omega
    have hsmem := hb s (List.mem_cons_self s rest)
    have hG : (if gcd_mod eq.modu (hensel_poly_d eq s) ≠ 1 then
          (match lift_singular_root eq s prm_k with
           | some ls => ls
           | none => [])
        else
          [hensel_go eq.modu eq.a eq.b eq.d (multip_inv (hensel_poly_d eq s) eq.modu)
            (prm_k - 1) eq.modu s]).Nodup ∧
        ∀ v ∈ (if gcd_mod eq.modu (hensel_poly_d eq s) ≠ 1 then
          (match lift_singular_root eq s prm_k with
           | some ls => ls
           | none => [])
        else
          [hensel_go eq.modu eq.a eq.b eq.d (multip_inv (hensel_poly_d eq s) eq.modu)
            (prm_k - 1) eq.modu s]),
          v < eq.modu ^ prm_k ∧ (v : ℤ) ≡ (s : ℤ) [ZMOD (eq.modu : ℤ)] := by
      split
      · rcases hls : lift_singular_root eq s prm_k with _ | ls
        · exact ⟨List.nodup_nil, by intro v hv; exact absurd hv (List.not_mem_nil v)⟩
        · rw [lift_singular_root] at hls
          have := singular_go_spec (by omega) s (prm_k - 1) eq.modu [s] ls (by omega)
            dvd_rfl (List.nodup_singleton s)
            (by
              intro v hv
              simp only [List.mem_singleton] at hv
              rw [hv]
              exact ⟨hsmem, Int.ModEq.refl _⟩) hls
          refine ⟨this.1, ?_⟩
          intro v hv
          obtain ⟨h1, h2⟩ := this.2 v hv
          rw [hpow] at h1
          exact ⟨h1, h2⟩
      · rename_i hgcd
        push_neg at hgcd
        refine ⟨List.nodup_singleton _, ?_⟩
        intro v hv
        simp only [List.mem_singleton] at hv
        rw [hv]
        constructor
        · have hlt : hensel_go eq.modu eq.a eq.b eq.d (multip_inv (hensel_poly_d eq s) eq.modu)
              (prm_k - 1) eq.modu s < eq.modu * eq.modu ^ (prm_k - 1) :=
            hensel_go_lt (by omega) (prm_k - 1) eq.modu s (by omega) hsmem
          rw [hpow] at hlt
          exact hlt
        · exact hensel_go_modeq_p (by omega) (prm_k - 1) eq.modu s (by omega) dvd_rfl hsmem
            (hroot s (List.mem_cons_self s rest) hgcd)
    have hih := ih (List.nodup_cons.mp hnd).2 (fun x hx => hb x (List.mem_cons_of_mem s hx))
      (fun x hx => hroot x (List.mem_cons_of_mem s hx))
    rw [hcons]
    constructor
    · refine List.Nodup.append hG.1 hih.1 ?_
      intro v hv1 hv2
      have h1 := (hG.2 v hv1).2
      obtain ⟨_, s', hs', h2⟩ := hih.2 v hv2
      have h3 : (s : ℤ) ≡ (s' : ℤ) [ZMOD (eq.modu : ℤ)] := h1.symm.trans h2
      have h4 : s = s' := by
        have h5 := nat_mod_eq_of_intCast h3
        have hs'b := hb s' (List.mem_cons_of_mem s hs')
        rw [Nat.mod_eq_of_lt hsmem, Nat.mod_eq_of_lt hs'b] at h5
        exact h5
      exact (List.nodup_cons.mp hnd).1 (h4 ▸ hs')
    · intro v hv
      rcases List.mem_append.mp hv with h | h
      · exact ⟨(hG.2 v h).1, s, List.mem_cons_self s rest, (hG.2 v h).2⟩
      · obtain ⟨h1, s', hs', h2⟩ := hih.2 v h
        exact ⟨h1, s', List.mem_cons_of_mem s hs', h2⟩

/-- `lift_with_hensel_method` output: duplicate-free and reduced below the
prime power. -/
theorem lift_with_hensel_spec {eq : QuadEq} {sub_sols xs : List ℕ} {prm_k : ℕ}
    (hp : 2 ≤ eq.modu) (hk : 1 ≤ prm_k)
    (hnd : sub_sols.Nodup) (hb : ∀ s ∈ sub_sols, s < eq.modu)
    (hroot : ∀ s ∈ sub_sols, gcd_mod eq.modu (hensel_poly_d eq s) = 1 →
      (eq.a : ℤ) * s * s + eq.b * s - eq.d ≡ 0 [ZMOD (eq.modu : ℤ)])
    (hs : lift_with_hensel_method eq sub_sols prm_k = some xs) :
    xs.Nodup ∧ ∀ v ∈ xs, v < eq.modu ^ prm_k := by
  rw [lift_with_hensel_method] at hs
  split at hs
  · exact absurd hs Option.noConfusion
  · injection hs with h
    rw [← h]
    obtain ⟨h1, h2⟩ := hensel_collect_spec hp hk sub_sols hnd hb hroot
    exact ⟨h1, fun v hv => (h2 v hv).1⟩

/-! ### Soundness of Tonelli-Shanks over a prime modulus -/

/-- Invariant of the Tonelli-Shanks loop: `res² ≡ q·par_t`, with `par_c` and
`par_t` units; any answer then squares to `q`. -/
theorem ts_loop_sound {modu : ℕ} (hp : Nat.Prime modu) (q : ℕ) :
    ∀ f par_c par_t res m x,
      ¬ modu ∣ par_c → ¬ modu ∣ par_t →
      res * res ≡ q * par_t [MOD modu] →
      par_c < modu → par_t < modu → res < modu →
      ts_loop modu f par_c par_t res m = some x → x * x ≡ q [MOD modu] := by
  have hm : 2 ≤ modu := hp.two_le
  intro f
  induction f with
  | zero =>
    intro par_c par_t res m x _ _ _ _ _ _ hs
    exact absurd hs (by rw [ts_loop]; exact Option.noConfusion)
  | succ f ih =>
    intro par_c par_t res m x hc hd hinv hcl htl hrl hs
    rw [ts_loop] at hs
    by_cases h0 : par_t = 0
    · exact absurd (h0 ▸ dvd_zero modu) hd
    · rw [if_neg h0] at hs
      by_cases h1 : par_t = 1
      · rw [if_pos h1] at hs
        injection hs with h
        rw [← h]
        calc res * res ≡ q * par_t [MOD modu] := hinv
          _ = q := by rw [h1, Nat.mul_one]
      · rw [if_neg h1] at hs
        by_cases h2 : ts_least_i par_t modu m = 0
        · rw [if_pos h2] at hs
          exact absurd hs Option.noConfusion
        · rw [if_neg h2] at hs
          have hpb_eq : ts_par_b par_c m (ts_least_i par_t modu m) modu
              = par_c ^ (2 ^ (m - ts_least_i par_t modu m - 1) % modu) % modu := by
            rw [ts_par_b, exp_mod_u_u128_eq_u, exp_mod_u_eq _ hm hcl]
          have hpb_lt : ts_par_b par_c m (ts_least_i par_t modu m) modu < modu :=
            exp_mod_u_lt _ hm hcl
          have hpb_nd : ¬ modu ∣ ts_par_b par_c m (ts_least_i par_t modu m) modu := by
            rw [hpb_eq]
            intro hdvd
            rw [Nat.dvd_mod_iff dvd_rfl] at hdvd
            exact hc (hp.dvd_of_dvd_pow hdvd)
          have hnc_nd : ¬ modu ∣ mult_mod_u (ts_par_b par_c m (ts_least_i par_t modu m) modu)
              (ts_par_b par_c m (ts_least_i par_t modu m) modu) modu := by
            rw [mult_mod_u_eq _ (le_of_lt hpb_lt) (by omega)]
            intro hdvd
            rw [Nat.dvd_mod_iff dvd_rfl] at hdvd
            rcases (Nat.Prime.dvd_mul hp).mp hdvd with h | h <;> exact hpb_nd h
          have hnt_nd : ¬ modu ∣ mult_mod_u par_t
              (mult_mod_u (ts_par_b par_c m (ts_least_i par_t modu m) modu)
                (ts_par_b par_c m (ts_least_i par_t modu m) modu) modu) modu := by
            rw [mult_mod_u_eq _ (le_of_lt htl) (by omega)]
            intro hdvd
            rw [Nat.dvd_mod_iff dvd_rfl] at hdvd
            rcases (Nat.Prime.dvd_mul hp).mp hdvd with h | h
            · exact hd h
            · exact hnc_nd h
          refine ih _ _ _ _ x hnc_nd hnt_nd ?_
            (mult_mod_u_lt _ (le_of_lt hpb_lt) (by omega))
            (mult_mod_u_lt _ (le_of_lt htl) (by omega))
            (mult_mod_u_lt _ (le_of_lt hrl) (by omega)) hs
          have e1 : mult_mod_u res (ts_par_b par_c m (ts_least_i par_t modu m) modu) modu
              ≡ res * ts_par_b par_c m (ts_least_i par_t modu m) modu [MOD modu] := by
            rw [mult_mod_u_eq _ (le_of_lt hrl) (by omega)]
            exact Nat.mod_modEq _ _
          have e2 : mult_mod_u (ts_par_b par_c m (ts_least_i par_t modu m) modu)
              (ts_par_b par_c m (ts_least_i par_t modu m) modu) modu
              ≡ ts_par_b par_c m (ts_least_i par_t modu m) modu
                * ts_par_b par_c m (ts_least_i par_t modu m) modu [MOD modu] := by
            rw [mult_mod_u_eq _ (le_of_lt hpb_lt) (by omega)]
            exact Nat.mod_modEq _ _
          have e3 : mult_mod_u par_t
              (mult_mod_u (ts_par_b par_c m (ts_least_i par_t modu m) modu)
                (ts_par_b par_c m (ts_least_i par_t modu m) modu) modu) modu
              ≡ par_t * (ts_par_b par_c m (ts_least_i par_t modu m) modu
                * ts_par_b par_c m (ts_least_i par_t modu m) modu) [MOD modu] := by
            rw [mult_mod_u_eq _ (le_of_lt htl) (by omega)]
            exact (Nat.mod_modEq _ _).trans (e2.mul_left par_t)
          calc mult_mod_u res (ts_par_b par_c m (ts_least_i par_t modu m) modu) modu
                * mult_mod_u res (ts_par_b par_c m (ts_least_i par_t modu m) modu) modu
              ≡ (res * ts_par_b par_c m (ts_least_i par_t modu m) modu)
                * (res * ts_par_b par_c m (ts_least_i par_t modu m) modu) [MOD modu] :=
                e1.mul e1
            _ = (res * res) * (ts_par_b par_c m (ts_least_i par_t modu m) modu
                * ts_par_b par_c m (ts_least_i par_t modu m) modu) := by ring
            _ ≡ (q * par_t) * (ts_par_b par_c m (ts_least_i par_t modu m) modu
                * ts_par_b par_c m (ts_least_i par_t modu m) modu) [MOD modu] :=
                hinv.mul_right _
            _ = q * (par_t * (ts_par_b par_c m (ts_least_i par_t modu m) modu
                * ts_par_b par_c m (ts_least_i par_t modu m) modu)) := by ring
            _ ≡ q * (mult_mod_u par_t
                (mult_mod_u (ts_par_b par_c m (ts_least_i par_t modu m) modu)
                  (ts_par_b par_c m (ts_least_i par_t modu m) modu) modu) modu)
                [MOD modu] := (e3.symm).mul_left q

theorem drop_range_aux : ∀ k s n, (List.range' s n).drop k = List.range' (s + k) (n - k) := by
  intro k
  induction k with
  | zero => simp
  | succ k ih =>
    intro s n
    cases n with
    | zero => simp
    | succ n =>
      rw [List.range'_succ, List.drop_succ_cons, ih]
      congr 1 <;> omega

theorem mem_drop_range {k n v : ℕ} (h : v ∈ (List.range n).drop k) : k ≤ v ∧ v < n := by
  rw [List.range_eq_range', drop_range_aux] at h
  have := List.mem_range'_1.mp h
  omega

theorem mult_mod_modeq (x y : ℕ) {m : ℕ} (hm : 1 ≤ m) :
    (mult_mod x y m : ℤ) ≡ (x : ℤ) * y [ZMOD (m : ℤ)] := by
  have h1 : (mult_mod x y m : ℤ) = ((x : ℤ) * y) % m := by
    rw [mult_mod_eq _ _ hm]
    push_cast
    ring_nf
  rw [h1]
  exact Int.emod_emod_of_dvd _ dvd_rfl

/-- Soundness of `tonelli_shanks` over a prime modulus: an answer squares to
`q`. -/
theorem tonelli_shanks_sound {q modu x : ℕ} (hp : Nat.Prime modu)
    (hq : ¬ modu ∣ q) (hs : tonelli_shanks q modu = some x) :
    x * x ≡ q [MOD modu] := by
  have hm : 2 ≤ modu := hp.two_le
  rw [tonelli_shanks] at hs
  rcases hf : ((List.range modu).drop 2).find?
      (fun b => exp_mod_u b ((modu - 1) / 2) modu != 1) with _ | nr
  · rw [hf] at hs
    exact absurd hs Option.noConfusion
  · rw [hf] at hs
    obtain ⟨hnr2, hnrm⟩ := mem_drop_range (List.mem_of_find?_eq_some hf)
    have hnrd : ¬ modu ∣ nr := by
      intro hdvd
      have := Nat.le_of_dvd (by omega) hdvd
      omega
    have hmodd : (modu - 1) / 2 ^ trailing_zeros (modu - 1) % 2 = 1 :=
      (trailing_zeros_spec (n := modu - 1) (by omega)).2
    have hcd : ¬ modu ∣ exp_mod_u nr ((modu - 1) / 2 ^ trailing_zeros (modu - 1)) modu := by
      rw [exp_mod_u_eq _ hm hnrm]
      intro hdvd
      rw [Nat.dvd_mod_iff dvd_rfl] at hdvd
      exact hnrd (hp.dvd_of_dvd_pow hdvd)
    have htd : ¬ modu ∣ exp_mod q ((modu - 1) / 2 ^ trailing_zeros (modu - 1)) modu := by
      rw [exp_mod_eq _ _ hm]
      intro hdvd
      rw [Nat.dvd_mod_iff dvd_rfl] at hdvd
      exact hq (hp.dvd_of_dvd_pow hdvd)
    have hinv : exp_mod q (((modu - 1) / 2 ^ trailing_zeros (modu - 1) + 1) / 2) modu
        * exp_mod q (((modu - 1) / 2 ^ trailing_zeros (modu - 1) + 1) / 2) modu
        ≡ q * exp_mod q ((modu - 1) / 2 ^ trailing_zeros (modu - 1)) modu [MOD modu] := by
      rw [exp_mod_eq _ _ hm, exp_mod_eq _ _ hm]
      have h1 : q ^ (((modu - 1) / 2 ^ trailing_zeros (modu - 1) + 1) / 2) % modu
          * (q ^ (((modu - 1) / 2 ^ trailing_zeros (modu - 1) + 1) / 2) % modu)
          ≡ q ^ (((modu - 1) / 2 ^ trailing_zeros (modu - 1) + 1) / 2)
            * q ^ (((modu - 1) / 2 ^ trailing_zeros (modu - 1) + 1) / 2) [MOD modu] :=
        (Nat.mod_modEq _ _).mul (Nat.mod_modEq _ _)
      have h2 : q ^ (((modu - 1) / 2 ^ trailing_zeros (modu - 1) + 1) / 2)
            * q ^ (((modu - 1) / 2 ^ trailing_zeros (modu - 1) + 1) / 2)
          = q * q ^ ((modu - 1) / 2 ^ trailing_zeros (modu - 1)) := by
        rw [← pow_add]
        have h3 : ((modu - 1) / 2 ^ trailing_zeros (modu - 1) + 1) / 2
            + ((modu - 1) / 2 ^ trailing_zeros (modu - 1) + 1) / 2
            = (modu - 1) / 2 ^ trailing_zeros (modu - 1) + 1 := by omega
        rw [h3, pow_succ']
      calc q ^ (((modu - 1) / 2 ^ trailing_zeros (modu - 1) + 1) / 2) % modu
            * (q ^ (((modu - 1) / 2 ^ trailing_zeros (modu - 1) + 1) / 2) % modu)
          ≡ q * q ^ ((modu - 1) / 2 ^ trailing_zeros (modu - 1)) [MOD modu] := h2 ▸ h1
        _ ≡ q * (q ^ ((modu - 1) / 2 ^ trailing_zeros (modu - 1)) % modu) [MOD modu] :=
          (Nat.mod_modEq _ _).symm.mul_left q
    exact ts_loop_sound hp q _ _ _ _ _ x hcd htd hinv (exp_mod_u_lt _ hm hnrm)
      (exp_mod_lt _ _ hm) (exp_mod_lt _ _ hm) hs

/-- The negation of a square root is a square root. -/
theorem neg_root_sq {x m : ℕ} (hx : x ≤ m) :
    (m - x) * (m - x) ≡ x * x [MOD m] := by
  show ((m - x) * (m - x)) % m = (x * x) % m
  apply nat_mod_eq_of_intCast
  have h1 : (((m - x) * (m - x) : ℕ) : ℤ) = ((m : ℤ) - x) * ((m : ℤ) - x) := by
    push_cast [Nat.cast_sub hx]
    ring
  rw [h1, show ((m : ℤ) - x) * ((m : ℤ) - x) = (x : ℤ) * x + (m : ℤ) * ((m : ℤ) - 2 * x)
    from by ring]
  push_cast
  rw [Int.add_mul_emod_self_left]

/-- Every value in the square-root list of the odd-prime branch squares to
`d` mod the (prime) modulus. -/
theorem solve_quad_residue_roots {eq : QuadEq} {xs : List ℕ}
    (hp : Nat.Prime eq.modu) (hbig : 2 < eq.modu)
    (hs : solve_quad_residue_odd_prime_mod eq = some xs) :
    ∀ z ∈ xs, z * z ≡ eq.d [MOD eq.modu] := by
  have hm : 2 ≤ eq.modu := hp.two_le
  rw [solve_quad_residue_odd_prime_mod] at hs
  by_cases hd : eq.d = 0
  · rw [if_pos hd] at hs
    injection hs with h
    intro z hz
    rw [← h] at hz
    simp only [List.mem_singleton] at hz
    rw [hz, hd]
  · rw [if_neg hd] at hs
    by_cases he : exp_mod eq.d ((eq.modu - 1) / 2) eq.modu ≠ 1
    · rw [if_pos he] at hs
      exact absurd hs Option.noConfusion
    · rw [if_neg he] at hs
      push_neg at he
      have hqd : ¬ eq.modu ∣ eq.d := by
        intro hdvd
        have he2 : eq.d ^ ((eq.modu - 1) / 2) % eq.modu = 1 := by
          rw [← exp_mod_eq _ _ hm]
          exact he
        have hdvd2 : eq.modu ∣ eq.d ^ ((eq.modu - 1) / 2) := dvd_pow hdvd (by omega)
        obtain ⟨c, hc⟩ := hdvd2
        rw [hc, Nat.mul_mod_right] at he2
        omega
      rcases ht : tonelli_shanks eq.d eq.modu with _ | x
      · rw [ht] at hs
        exact absurd hs Option.noConfusion
      · rw [ht] at hs
        have hs2 : (if x = 0 then some [x]
            else some (vec_sort [x, sub_mod_u 0 x eq.modu])) = some xs := hs
        have hx : x < eq.modu := tonelli_shanks_lt hm ht
        have hsq : x * x ≡ eq.d [MOD eq.modu] := tonelli_shanks_sound hp hqd ht
        by_cases hx0 : x = 0
        · rw [if_pos hx0] at hs2
          injection hs2 with h
          intro z hz
          rw [← h] at hz
          simp only [List.mem_singleton] at hz
          rw [hz]
          exact hsq
        · rw [if_neg hx0] at hs2
          injection hs2 with h
          intro z hz
          rw [← h, sub_mod_u_zero_left (by omega)] at hz
          have hz2 := (vec_sort_perm [x, eq.modu - x]).mem_iff.mp hz
          simp only [List.mem_cons, List.mem_singleton, List.not_mem_nil, or_false] at hz2
          rcases hz2 with h2 | h2
          · rw [h2]
            exact hsq
          · rw [h2]
            exact (neg_root_sq (by omega)).trans hsq

theorem quad_simple_d_modeq {eq : QuadEq} (hm : 1 ≤ eq.modu) :
    (quad_simple_d eq : ℤ) ≡ (eq.b : ℤ) * eq.b + 4 * ((eq.a : ℤ) * eq.d)
      [ZMOD (eq.modu : ℤ)] := by
  have hX : mult_mod eq.b eq.b eq.modu < eq.modu := mult_mod_lt _ _ hm
  have hY : mult_mod 4 (mult_mod eq.a eq.d eq.modu) eq.modu < eq.modu := mult_mod_lt _ _ hm
  rw [quad_simple_d, add_mod_u_eq hX hY]
  have h1 : (((mult_mod eq.b eq.b eq.modu
        + mult_mod 4 (mult_mod eq.a eq.d eq.modu) eq.modu) % eq.modu : ℕ) : ℤ)
      = ((mult_mod eq.b eq.b eq.modu : ℤ)
        + (mult_mod 4 (mult_mod eq.a eq.d eq.modu) eq.modu : ℤ)) % (eq.modu : ℤ) := by
    push_cast
    ring_nf
  rw [h1]
  have e1 := mult_mod_modeq eq.b eq.b hm
  have e2 : (mult_mod 4 (mult_mod eq.a eq.d eq.modu) eq.modu : ℤ)
      ≡ 4 * ((eq.a : ℤ) * eq.d) [ZMOD (eq.modu : ℤ)] := by
    have h2 := mult_mod_modeq 4 (mult_mod eq.a eq.d eq.modu) hm
    have h3 := (mult_mod_modeq eq.a eq.d hm).mul_left ((4 : ℕ) : ℤ)
    have h4 : ((4 : ℕ) : ℤ) = (4 : ℤ) := by norm_num
    rw [h4] at h2 h3
    exact h2.trans h3
  calc ((mult_mod eq.b eq.b eq.modu : ℤ)
        + (mult_mod 4 (mult_mod eq.a eq.d eq.modu) eq.modu : ℤ)) % (eq.modu : ℤ)
      ≡ (mult_mod eq.b eq.b eq.modu : ℤ)
        + (mult_mod 4 (mult_mod eq.a eq.d eq.modu) eq.modu : ℤ) [ZMOD (eq.modu : ℤ)] :=
      Int.emod_emod_of_dvd _ dvd_rfl
    _ ≡ (eq.b : ℤ) * eq.b + 4 * ((eq.a : ℤ) * eq.d) [ZMOD (eq.modu : ℤ)] := e1.add e2

theorem lin_root_int {A b z m v : ℕ} (h : (A * v + b) % m = z % m) :
    ((A : ℤ) * v + b) ≡ (z : ℤ) [ZMOD (m : ℤ)] := by
  have h2 : ((A * v + b : ℕ) : ℤ) ≡ ((z : ℕ) : ℤ) [ZMOD (m : ℤ)] := int_modeq_of_nat h
  push_cast at h2
  exact h2

/-- Every solution of `solve_quad_simple` (prime odd modulus) is a root of
the quadratic polynomial. -/
theorem solve_quad_simple_roots {eq : QuadEq} {xs : List ℕ}
    (hp : Nat.Prime eq.modu) (hbig : 2 < eq.modu)
    (hs : solve_quad_simple eq = some xs) :
    ∀ v ∈ xs, (eq.a : ℤ) * v * v + eq.b * v - eq.d ≡ 0 [ZMOD (eq.modu : ℤ)] := by
  have hm : 2 ≤ eq.modu := hp.two_le
  rw [solve_quad_simple] at hs
  split at hs
  · exact absurd hs Option.noConfusion
  · split at hs
    · rename_i ha
      obtain ⟨_, h2⟩ := solve_linear_singular_spec hm hs
      intro v hv
      have hbv : ((eq.b : ℤ) * v) ≡ (eq.d : ℤ) [ZMOD (eq.modu : ℤ)] := by
        have h3 : ((eq.b * v : ℕ) : ℤ) ≡ ((eq.d : ℕ) : ℤ) [ZMOD (eq.modu : ℤ)] :=
          int_modeq_of_nat (h2 v hv).2
        push_cast at h3
        exact h3
      have ha2 : (eq.a : ℤ) ≡ 0 [ZMOD (eq.modu : ℤ)] := by
        have h4 : ((eq.a % eq.modu : ℕ) : ℤ) = ((0 : ℕ) : ℤ) := by rw [ha]
        have h5 : eq.a % eq.modu = 0 % eq.modu := by rw [ha, Nat.zero_mod]
        exact int_modeq_of_nat h5
      calc (eq.a : ℤ) * v * v + eq.b * v - eq.d
          ≡ 0 * v * v + eq.b * v - eq.d [ZMOD (eq.modu : ℤ)] :=
            (((ha2.mul_right _).mul_right _).add_right _).sub_right _
        _ = (eq.b : ℤ) * v - eq.d := by ring
        _ ≡ (eq.d : ℤ) - eq.d [ZMOD (eq.modu : ℤ)] := hbv.sub_right _
        _ = 0 := by ring
    · rename_i ha
      -- main branch: complete the square
      have hcop : Int.gcd ((eq.modu : ℕ) : ℤ) ((4 * eq.a : ℕ) : ℤ) = 1 := by
        rw [Int.gcd_natCast_natCast]
        have h2a : ¬ eq.modu ∣ eq.a := by
          intro hdvd
          obtain ⟨c, hc⟩ := hdvd
          rw [hc, Nat.mul_mod_right] at ha
          exact ha rfl
        have h24 : ¬ eq.modu ∣ 4 := by
          intro hdvd
          have h25 : eq.modu ∣ 2 ^ 2 := by norm_num at hdvd ⊢; exact hdvd
          have h26 := hp.dvd_of_dvd_pow h25
          have := Nat.le_of_dvd (by omega) h26
          omega
        have h27 : ¬ eq.modu ∣ 4 * eq.a := by
          intro hdvd
          rcases (Nat.Prime.dvd_mul hp).mp hdvd with h | h
          · exact h24 h
          · exact h2a h
        exact (Nat.Prime.coprime_iff_not_dvd hp).mpr h27
      have hroots : ∀ z x1 v, solve_quad_residue_odd_prime_mod
            { eq with d := quad_simple_d eq } = some x1 → z ∈ x1 → v < eq.modu →
          ((mult_mod 2 eq.a eq.modu) * v + eq.b) % eq.modu = z % eq.modu →
          (eq.a : ℤ) * v * v + eq.b * v - eq.d ≡ 0 [ZMOD (eq.modu : ℤ)] := by
        intro z x1 v hres hz hvm hlin
        have hz2 : (z * z : ℕ) ≡ quad_simple_d eq [MOD eq.modu] :=
          @solve_quad_residue_roots { eq with d := quad_simple_d eq } _ hp hbig hres z hz
        have hz3 : (z : ℤ) * z ≡ (quad_simple_d eq : ℤ) [ZMOD (eq.modu : ℤ)] := by
          have h3 : ((z * z : ℕ) : ℤ) ≡ ((quad_simple_d eq : ℕ) : ℤ)
              [ZMOD (eq.modu : ℤ)] := int_modeq_of_nat hz2
          push_cast at h3
          exact h3
        have hA : (mult_mod 2 eq.a eq.modu : ℤ) ≡ 2 * (eq.a : ℤ)
            [ZMOD (eq.modu : ℤ)] := by
          have h2 := mult_mod_modeq 2 eq.a (m := eq.modu) (by omega)
          have h4 : ((2 : ℕ) : ℤ) = (2 : ℤ) := by norm_num
          rw [h4] at h2
          exact h2
        have h1 : ((mult_mod 2 eq.a eq.modu : ℤ) * v + eq.b) ≡ (z : ℤ)
            [ZMOD (eq.modu : ℤ)] := lin_root_int hlin
        have h2 : (2 * (eq.a : ℤ) * v + eq.b) ≡ (z : ℤ) [ZMOD (eq.modu : ℤ)] :=
          (((hA.mul_right v).add_right _).symm).trans h1
        have h6 : (2 * (eq.a : ℤ) * v + eq.b) * (2 * (eq.a : ℤ) * v + eq.b)
            ≡ (eq.b : ℤ) * eq.b + 4 * ((eq.a : ℤ) * eq.d) [ZMOD (eq.modu : ℤ)] :=
          (h2.mul h2).trans (hz3.trans (quad_simple_d_modeq (by omega)))
        have h7 : (4 * (eq.a : ℤ)) * ((eq.a : ℤ) * v * v + eq.b * v) + (eq.b : ℤ) * eq.b
            ≡ (4 * (eq.a : ℤ)) * eq.d + (eq.b : ℤ) * eq.b [ZMOD (eq.modu : ℤ)] := by
          calc (4 * (eq.a : ℤ)) * ((eq.a : ℤ) * v * v + eq.b * v) + (eq.b : ℤ) * eq.b
              = (2 * (eq.a : ℤ) * v + eq.b) * (2 * (eq.a : ℤ) * v + eq.b) := by ring
            _ ≡ (eq.b : ℤ) * eq.b + 4 * ((eq.a : ℤ) * eq.d) [ZMOD (eq.modu : ℤ)] := h6
            _ = (4 * (eq.a : ℤ)) * eq.d + (eq.b : ℤ) * eq.b := by ring
        have h8 : (4 * (eq.a : ℤ)) * ((eq.a : ℤ) * v * v + eq.b * v)
            ≡ (4 * (eq.a : ℤ)) * eq.d [ZMOD (eq.modu : ℤ)] :=
          (Int.ModEq.refl ((eq.b : ℤ) * eq.b)).add_right_cancel h7
        have h9 : ((4 * eq.a : ℕ) : ℤ) * ((eq.a : ℤ) * v * v + eq.b * v)
            ≡ ((4 * eq.a : ℕ) : ℤ) * eq.d [ZMOD (eq.modu : ℤ)] := by
          push_cast
          exact h8
        have h10 : ((eq.a : ℤ) * v * v + eq.b * v) ≡ (eq.d : ℤ) [ZMOD (eq.modu : ℤ)] := by
          have h11 := Int.ModEq.cancel_left_div_gcd
            (show (0 : ℤ) < ((eq.modu : ℕ) : ℤ) by exact_mod_cast (by omega : 0 < eq.modu)) h9
          rw [hcop] at h11
          simpa using h11
        calc (eq.a : ℤ) * v * v + eq.b * v - eq.d
            ≡ (eq.d : ℤ) - eq.d [ZMOD (eq.modu : ℤ)] := h10.sub_right _
          _ = 0 := by ring
      split at hs
      · exact absurd hs Option.noConfusion
      · exact absurd hs Option.noConfusion
      · rename_i z0 ztail heq
        split at hs
        · exact absurd hs Option.noConfusion
        · rename_i x1 hlin
          obtain ⟨hl1, hl2⟩ := lin_solve_spec hlin
          split at hs
          · injection hs with h
            intro v hv
            rw [← h] at hv
            exact hroots z0 (z0 :: ztail) v heq (List.mem_cons_self _ _)
              (hl2 v hv).1 (hl2 v hv).2
          · rename_i hne
            push_neg at hne
            rcases hzt2 : ztail with _ | ⟨zh, zt⟩
            · exact absurd hzt2 hne.2
            · rw [hzt2] at hs
              simp only [List.headD_cons] at hs
              split at hs
              · injection hs with h
                intro v hv
                rw [← h] at hv
                exact hroots z0 (z0 :: ztail) v heq (List.mem_cons_self _ _)
                  (hl2 v hv).1 (hl2 v hv).2
              · rename_i x2 hlin2
                injection hs with h
                obtain ⟨hl3, hl4⟩ := lin_solve_spec hlin2
                intro v hv
                rw [← h] at hv
                have hv2 := (vec_sort_perm (x1 ++ x2)).mem_iff.mp hv
                rcases List.mem_append.mp hv2 with hmem | hmem
                · exact hroots z0 (z0 :: ztail) v heq (List.mem_cons_self _ _)
                    (hl2 v hmem).1 (hl2 v hmem).2
                · refine hroots zh (z0 :: ztail) v heq ?_ (hl4 v hmem).1 (hl4 v hmem).2
                  rw [hzt2]
                  exact List.mem_cons_of_mem z0 (List.mem_cons_self zh zt)

/-! ### The power-of-two odd-square lifting -/

/-- One odd-square lifting step: exact value, square congruence at the next
power, and preservation of the residue mod 4. -/
theorem pow2_step_one {d T k J s : ℕ} (hT : T = 2 ^ k) (hJ : 3 ≤ J) (hJk : J + 1 ≤ k)
    (hs2 : s % 2 = 1) (hsle : s ≤ 2 ^ (J - 1))
    (hsq : s * s ≡ d [MOD 2 ^ J]) :
    ∃ w : ℤ, (((s * s % T : ℕ) : ℤ) - d = 2 ^ J * w) ∧
      pow2_step d T s J = s + w.natAbs % 2 * 2 ^ (J - 1) ∧
      pow2_step d T s J * pow2_step d T s J ≡ d [MOD 2 ^ (J + 1)] ∧
      pow2_step d T s J % 4 = s % 4 := by
  have hT1 : 1 ≤ T := by
    rw [hT]
    exact Nat.one_le_pow k 2 (by norm_num)
  have hJeq : (2 : ℕ) ^ J = 2 ^ (J - 1) * 2 := by
    rw [← pow_succ]
    congr 1
    omega
  have h2J : (2 : ℕ) ^ J / 2 = 2 ^ (J - 1) := by omega
  have hdvdT : (2 : ℕ) ^ (J + 1) ∣ T := by
    rw [hT]
    exact pow_dvd_pow 2 (by omega)
  have hdvdTJ : (2 : ℕ) ^ J ∣ T := by
    rw [hT]
    exact pow_dvd_pow 2 (by omega)
  have hmm : mult_mod s s T = s * s % T := mult_mod_eq s s hT1
  have hmod1 : s * s % T ≡ d [MOD 2 ^ J] :=
    (Nat.ModEq.of_dvd hdvdTJ (Nat.mod_modEq (s * s) T)).trans hsq
  have hdvdA : ((2 : ℤ) ^ J) ∣ (((s * s % T : ℕ) : ℤ) - d) := by
    have h1 : ((s * s % T : ℕ) : ℤ) ≡ (d : ℤ) [ZMOD ((2 ^ J : ℕ) : ℤ)] :=
      int_modeq_of_nat hmod1
    have h2 := Int.ModEq.dvd h1
    have h3 : (((2 : ℕ) ^ J : ℕ) : ℤ) = (2 : ℤ) ^ J := by push_cast; ring
    rw [h3] at h2
    have h4 := dvd_neg.mpr h2
    rw [neg_sub] at h4
    exact h4
  obtain ⟨w, hw⟩ := hdvdA
  refine ⟨w, hw, ?_⟩
  have hpos : (0 : ℕ) < 2 ^ J := by positivity
  have hDbit : (if s * s % T ≥ d then (s * s % T - d) / 2 ^ J else (d - s * s % T) / 2 ^ J)
      = w.natAbs := by
    by_cases hc : s * s % T ≥ d
    · rw [if_pos hc]
      have h1 : ((s * s % T - d : ℕ) : ℤ) = 2 ^ J * w := by
        rw [Nat.cast_sub hc]
        exact hw
      have h2 : s * s % T - d = (2 ^ J * w).natAbs := by
        rw [← h1]
        exact (Int.natAbs_ofNat _).symm
      rw [h2, Int.natAbs_mul]
      have h3 : ((2 : ℤ) ^ J).natAbs = 2 ^ J := by
        rw [Int.natAbs_pow]
        rfl
      rw [h3, Nat.mul_div_cancel_left _ hpos]
    · rw [if_neg hc]
      push_neg at hc
      have h1 : ((d - s * s % T : ℕ) : ℤ) = 2 ^ J * (-w) := by
        rw [Nat.cast_sub (le_of_lt hc)]
        rw [show (d : ℤ) - (s * s % T : ℕ) = -(((s * s % T : ℕ) : ℤ) - d) from by ring, hw]
        ring
      have h2 : d - s * s % T = (2 ^ J * (-w)).natAbs := by
        rw [← h1]
        exact (Int.natAbs_ofNat _).symm
      rw [h2, Int.natAbs_mul]
      have h3 : ((2 : ℤ) ^ J).natAbs = 2 ^ J := by
        rw [Int.natAbs_pow]
        rfl
      rw [h3, Int.natAbs_neg, Nat.mul_div_cancel_left _ hpos]
  have hbit1 : w.natAbs % 2 ≤ 1 := by omega
  have hval : pow2_step d T s J = s + w.natAbs % 2 * 2 ^ (J - 1) := by
    rw [pow2_step, hmm, hDbit, h2J]
    have hlt : s + w.natAbs % 2 * 2 ^ (J - 1) < T := by
      have h1 : w.natAbs % 2 * 2 ^ (J - 1) ≤ 2 ^ (J - 1) := by
        calc w.natAbs % 2 * 2 ^ (J - 1) ≤ 1 * 2 ^ (J - 1) :=
            Nat.mul_le_mul_right _ hbit1
          _ = 2 ^ (J - 1) := by ring
      have h2 : (2 : ℕ) ^ J < T := by
        rw [hT]
        exact Nat.pow_lt_pow_right (by norm_num) (by omega)
      omega
    rw [add_mod_eq _ _ hT1, Nat.mod_eq_of_lt hlt]
  refine ⟨hval, ?_, ?_⟩
  · -- square congruence at the next power of two
    rw [hval]
    show (s + w.natAbs % 2 * 2 ^ (J - 1)) * (s + w.natAbs % 2 * 2 ^ (J - 1)) % 2 ^ (J + 1)
      = d % 2 ^ (J + 1)
    apply nat_mod_eq_of_intCast
    have hmodc : (((2 : ℕ) ^ (J + 1) : ℕ) : ℤ) = (2 : ℤ) ^ (J + 1) := by push_cast; ring
    rw [hmodc]
    obtain ⟨t2, ht2⟩ : ∃ t2 : ℤ, (T : ℤ) = 2 ^ (J + 1) * t2 := by
      obtain ⟨c, hc⟩ := hdvdT
      exact ⟨(c : ℤ), by rw [hc]; push_cast; ring⟩
    have hqZ : ((s * s : ℕ) : ℤ) = (T : ℤ) * ((s * s / T : ℕ) : ℤ) + ((s * s % T : ℕ) : ℤ) := by
      have h1 : T * (s * s / T) + s * s % T = s * s := Nat.div_add_mod (s * s) T
      rw [← Nat.cast_mul, ← Nat.cast_add, h1]
    have hrw : ((s * s % T : ℕ) : ℤ) = (d : ℤ) + 2 ^ J * w := by omega
    have hppJ : (2 : ℤ) ^ (J - 1) * 2 ^ (J - 1) = 2 ^ (J + 1) * 2 ^ (J - 3) := by
      rw [← pow_add, ← pow_add]
      congr 1
      omega
    have hJZ : (2 : ℤ) ^ J = 2 ^ (J - 1) * 2 := by
      rw [← pow_succ]
      congr 1
      omega
    obtain ⟨u, hu⟩ : ∃ u : ℤ, (s : ℤ) = 2 * u + 1 := by
      refine ⟨((s / 2 : ℕ) : ℤ), ?_⟩
      have h1 : 2 * (s / 2) + 1 = s := by omega
      rw [show (2 : ℤ) * ((s / 2 : ℕ) : ℤ) + 1 = ((2 * (s / 2) + 1 : ℕ) : ℤ) from by
        push_cast; ring, h1]
    rcases (show w.natAbs % 2 = 0 ∨ w.natAbs % 2 = 1 by omega) with hb | hb
    · rw [hb]
      have hwe : Even w := Int.natAbs_even.mp (Nat.even_iff.mpr hb)
      obtain ⟨c, hc⟩ := hwe
      have hX : (((s + 0 * 2 ^ (J - 1)) * (s + 0 * 2 ^ (J - 1)) : ℕ) : ℤ)
          = (d : ℤ) + 2 ^ (J + 1) * (t2 * ((s * s / T : ℕ) : ℤ) + c) := by
        have h1 : (((s + 0 * 2 ^ (J - 1)) * (s + 0 * 2 ^ (J - 1)) : ℕ) : ℤ)
            = ((s * s : ℕ) : ℤ) := by push_cast; ring
        rw [h1, hqZ, hrw, ht2, hc]
        have h2 : (2 : ℤ) ^ J * (c + c) = 2 ^ (J + 1) * c := by
          rw [pow_succ]
          ring
        rw [h2]
        ring
      rw [hX, Int.add_mul_emod_self_left]
    · rw [hb]
      have hwo : Odd w := Int.natAbs_odd.mp (Nat.odd_iff.mpr hb)
      obtain ⟨c, hc⟩ := hwo
      have hX : (((s + 1 * 2 ^ (J - 1)) * (s + 1 * 2 ^ (J - 1)) : ℕ) : ℤ)
          = (d : ℤ) + 2 ^ (J + 1) * (t2 * ((s * s / T : ℕ) : ℤ) + c + u + 1 + 2 ^ (J - 3)) := by
        have h1 : (((s + 1 * 2 ^ (J - 1)) * (s + 1 * 2 ^ (J - 1)) : ℕ) : ℤ)
            = ((s * s : ℕ) : ℤ) + (s : ℤ) * 2 ^ J + 2 ^ (J - 1) * 2 ^ (J - 1) := by
          push_cast
          rw [hJZ]
          ring
        rw [h1, hqZ, hrw, ht2, hc, hppJ, hu]
        have h2 : (2 : ℤ) ^ J * (2 * c + 1) + (2 * u + 1) * 2 ^ J
            = 2 ^ (J + 1) * (c + u + 1) := by
          rw [pow_succ]
          ring
        have h3 : 2 ^ (J + 1) * t2 * ((s * s / T : ℕ) : ℤ) + ((d : ℤ) + 2 ^ J * (2 * c + 1))
            + (2 * u + 1) * 2 ^ J + 2 ^ (J + 1) * 2 ^ (J - 3)
            = (d : ℤ) + (2 ^ (J + 1) * t2 * ((s * s / T : ℕ) : ℤ)
              + (2 ^ J * (2 * c + 1) + (2 * u + 1) * 2 ^ J) + 2 ^ (J + 1) * 2 ^ (J - 3)) := by
          ring
        rw [h3, h2]
        ring
      rw [hX, Int.add_mul_emod_self_left]
  · -- residue mod 4 is preserved
    rw [hval]
    obtain ⟨e, he⟩ : ∃ e, (2 : ℕ) ^ (J - 1) = e * 4 := by
      refine ⟨2 ^ (J - 3), ?_⟩
      rw [show (4 : ℕ) = 2 ^ 2 from rfl, ← pow_add]
      congr 1
      omega
    rw [he, show s + w.natAbs % 2 * (e * 4) = s + w.natAbs % 2 * e * 4 from by ring,
      Nat.add_mul_mod_self_right]

/-- The joint step invariant for the two lifting branches: residues mod 4,
squares at the next power, and the branch sum `2^J`. -/
theorem pow2_step_spec {d T k J a b : ℕ} (hT : T = 2 ^ k)
    (hJ : 3 ≤ J) (hJk : J + 1 ≤ k)
    (ha4 : a % 4 = 1) (hb4 : b % 4 = 3) (hsum : a + b = 2 ^ (J - 1))
    (hA : a * a ≡ d [MOD 2 ^ J]) (hB : b * b ≡ d [MOD 2 ^ J]) :
    pow2_step d T a J % 4 = 1 ∧ pow2_step d T b J % 4 = 3 ∧
    pow2_step d T a J + pow2_step d T b J = 2 ^ J ∧
    pow2_step d T a J * pow2_step d T a J ≡ d [MOD 2 ^ (J + 1)] ∧
    pow2_step d T b J * pow2_step d T b J ≡ d [MOD 2 ^ (J + 1)] := by
  have ha2 : a % 2 = 1 := by omega
  have hb2 : b % 2 = 1 := by omega
  have hale : a ≤ 2 ^ (J - 1) := by omega
  have hble : b ≤ 2 ^ (J - 1) := by omega
  obtain ⟨wa, hwa, hva, hsqa, hm4a⟩ := pow2_step_one hT hJ hJk ha2 hale hA
  obtain ⟨wb, hwb, hvb, hsqb, hm4b⟩ := pow2_step_one hT hJ hJk hb2 hble hB
  refine ⟨by rw [hm4a, ha4], by rw [hm4b, hb4], ?_, hsqa, hsqb⟩
  have hdvdT : (2 : ℕ) ^ (J + 1) ∣ T := by
    rw [hT]
    exact pow_dvd_pow 2 (by omega)
  obtain ⟨t2, ht2⟩ : ∃ t2 : ℤ, (T : ℤ) = 2 ^ (J + 1) * t2 := by
    obtain ⟨c, hc⟩ := hdvdT
    exact ⟨(c : ℤ), by rw [hc]; push_cast; ring⟩
  have hqZa : ((a * a : ℕ) : ℤ) = (T : ℤ) * ((a * a / T : ℕ) : ℤ) + ((a * a % T : ℕ) : ℤ) := by
    have h1 : T * (a * a / T) + a * a % T = a * a := Nat.div_add_mod (a * a) T
    rw [← Nat.cast_mul, ← Nat.cast_add, h1]
  have hqZb : ((b * b : ℕ) : ℤ) = (T : ℤ) * ((b * b / T : ℕ) : ℤ) + ((b * b % T : ℕ) : ℤ) := by
    have h1 : T * (b * b / T) + b * b % T = b * b := Nat.div_add_mod (b * b) T
    rw [← Nat.cast_mul, ← Nat.cast_add, h1]
  have ea : (a : ℤ) * a - d = 2 ^ (J + 1) * (t2 * ((a * a / T : ℕ) : ℤ)) + 2 ^ J * wa := by
    have h1 : ((a * a : ℕ) : ℤ) = (a : ℤ) * a := by push_cast; ring
    have h2 : ((a * a % T : ℕ) : ℤ) = (d : ℤ) + 2 ^ J * wa := by omega
    rw [h1, ht2, h2] at hqZa
    linear_combination hqZa
  have eb : (b : ℤ) * b - d = 2 ^ (J + 1) * (t2 * ((b * b / T : ℕ) : ℤ)) + 2 ^ J * wb := by
    have h1 : ((b * b : ℕ) : ℤ) = (b : ℤ) * b := by push_cast; ring
    have h2 : ((b * b % T : ℕ) : ℤ) = (d : ℤ) + 2 ^ J * wb := by omega
    rw [h1, ht2, h2] at hqZb
    linear_combination hqZb
  have hbval : (b : ℤ) = 2 ^ (J - 1) - a := by
    have h1 : ((a + b : ℕ) : ℤ) = ((2 ^ (J - 1) : ℕ) : ℤ) := by rw [hsum]
    push_cast at h1
    linarith
  have hQ : (2 : ℤ) ^ (J - 1) * 2 = 2 ^ J := by
    rw [← pow_succ]
    congr 1
    omega
  have hQQ : (2 : ℤ) ^ (J - 1) * 2 ^ (J - 1) = 2 ^ (J + 1) * 2 ^ (J - 3) := by
    rw [← pow_add, ← pow_add]
    congr 1
    omega
  have hP1 : (2 : ℤ) ^ (J + 1) = 2 ^ J * 2 := by
    rw [← pow_succ]
  have hcancel : wa + wb = 2 * (2 ^ (J - 3) + t2 * ((a * a / T : ℕ) : ℤ)
      - t2 * ((b * b / T : ℕ) : ℤ) + wa) - (a : ℤ) := by
    have hP0 : ((2 : ℤ) ^ J) ≠ 0 := by positivity
    refine mul_left_cancel₀ hP0 ?_
    rw [hbval] at eb
    linear_combination ea - eb + hQQ + ((2 : ℤ) ^ (J - 3) - t2 * ((b * b / T : ℕ) : ℤ)
      + t2 * ((a * a / T : ℕ) : ℤ)) * hP1 - (a : ℤ) * hQ
  obtain ⟨u, hu⟩ : ∃ u : ℤ, (a : ℤ) = 2 * u + 1 := by
    refine ⟨((a / 2 : ℕ) : ℤ), ?_⟩
    have h1 : 2 * (a / 2) + 1 = a := by omega
    rw [show (2 : ℤ) * ((a / 2 : ℕ) : ℤ) + 1 = ((2 * (a / 2) + 1 : ℕ) : ℤ) from by
      push_cast; ring, h1]
  have hoddsum : Odd (wa + wb) := by
    refine ⟨2 ^ (J - 3) + t2 * ((a * a / T : ℕ) : ℤ)
      - t2 * ((b * b / T : ℕ) : ℤ) + wa - u - 1, ?_⟩
    rw [hcancel, hu]
    ring
  have hbits : wa.natAbs % 2 + wb.natAbs % 2 = 1 := by
    rcases Int.even_or_odd wa with hwa2 | hwa2
    · have h1 : wa.natAbs % 2 = 0 := Nat.even_iff.mp (Int.natAbs_even.mpr hwa2)
      have h2 : Odd wb := by
        have h3 := hoddsum.sub_even hwa2
        have h4 : wa + wb - wa = wb := by ring
        rw [h4] at h3
        exact h3
      have h5 : wb.natAbs % 2 = 1 := Nat.odd_iff.mp (Int.natAbs_odd.mpr h2)
      omega
    · have h1 : wa.natAbs % 2 = 1 := Nat.odd_iff.mp (Int.natAbs_odd.mpr hwa2)
      have h2 : Even wb := by
        have h3 := hoddsum.sub_odd hwa2
        have h4 : wa + wb - wa = wb := by ring
        rw [h4] at h3
        exact h3
      have h5 : wb.natAbs % 2 = 0 := Nat.even_iff.mp (Int.natAbs_even.mpr h2)
      omega
  rw [hva, hvb]
  have hJ2 : 2 ^ (J - 1) + 2 ^ (J - 1) = 2 ^ J := by
    rw [← two_mul, ← pow_succ']
    congr 1
    omega
  rcases (show wa.natAbs % 2 = 0 ∧ wb.natAbs % 2 = 1 ∨ wa.natAbs % 2 = 1 ∧ wb.natAbs % 2 = 0
      by omega) with ⟨h1, h2⟩ | ⟨h1, h2⟩ <;> rw [h1, h2] <;> omega

/-! ### The power-of-two pipeline: duplicate-freeness and bounds -/

theorem solve_quad_simple_mod_two_spec {eq : QuadEq} {xs : List ℕ}
    (hs : solve_quad_simple_mod_two eq = some xs) :
    xs.Nodup ∧ ∀ v ∈ xs, v < 2 := by
  rw [solve_quad_simple_mod_two] at hs
  split at hs
  · injection hs with h; rw [← h]; exact ⟨by decide, by decide⟩
  · split at hs
    · injection hs with h; rw [← h]; exact ⟨by decide, by decide⟩
    · split at hs
      · exact absurd hs Option.noConfusion
      · injection hs with h; rw [← h]; exact ⟨by decide, by decide⟩

theorem solve_quad_simple_mod_four_spec {eq : QuadEq} {total : ℕ} {xs : List ℕ}
    (hs : solve_quad_simple_mod_four eq total = some xs) :
    xs.Nodup ∧ ∀ v ∈ xs, v < 4 := by
  rw [solve_quad_simple_mod_four] at hs
  split at hs
  · split at hs
    · injection hs with h; rw [← h]; exact ⟨by decide, by decide⟩
    · split at hs
      · injection hs with h; rw [← h]; exact ⟨by decide, by decide⟩
      · split at hs
        · injection hs with h; rw [← h]; exact ⟨by decide, by decide⟩
        · exact absurd hs Option.noConfusion
  · split at hs
    · split at hs
      · injection hs with h; rw [← h]; exact ⟨by decide, by decide⟩
      · exact absurd hs Option.noConfusion
    · exact absurd hs Option.noConfusion

theorem search_possible_solutions_spec {eq : QuadEq} {xs : List ℕ} (hm2 : eq.modu = 2)
    (hs : search_possible_solutions_mod_power_of_two eq = some xs) :
    xs.Nodup ∧ ∀ s ∈ xs, s < eq.modu ∧
      (eq.a : ℤ) * s * s + eq.b * s - eq.d ≡ 0 [ZMOD (eq.modu : ℤ)] := by
  rw [search_possible_solutions_mod_power_of_two] at hs
  split at hs
  · exact absurd hs Option.noConfusion
  · injection hs with h
    rw [← h]
    refine ⟨List.Nodup.filter _ (by decide), ?_⟩
    intro s hsmem
    rw [List.mem_filter] at hsmem
    obtain ⟨hmem, hpred⟩ := hsmem
    have hslt : s < eq.modu := by
      rw [hm2]
      have h01 : s = 0 ∨ s = 1 := by simpa using hmem
      omega
    refine ⟨hslt, ?_⟩
    have hzero : sub_mod (add_mod_u (mult_mod eq.a (s * s) eq.modu)
        (mult_mod eq.b s eq.modu) eq.modu) eq.d eq.modu = 0 := by
      simpa using hpred
    have hm1 : 1 ≤ eq.modu := by omega
    have hz := sub_mod_intCast (add_mod_u (mult_mod eq.a (s * s) eq.modu)
        (mult_mod eq.b s eq.modu) eq.modu) eq.d hm1
    rw [hzero] at hz
    have hmain : ((add_mod_u (mult_mod eq.a (s * s) eq.modu)
        (mult_mod eq.b s eq.modu) eq.modu : ℕ) : ℤ)
        ≡ (eq.a : ℤ) * s * s + eq.b * s [ZMOD (eq.modu : ℤ)] := by
      rw [add_mod_u_eq (mult_mod_lt _ _ hm1) (mult_mod_lt _ _ hm1),
        mult_mod_eq _ _ hm1, mult_mod_eq _ _ hm1]
      have h1 : (eq.a * (s * s) % eq.modu + eq.b * s % eq.modu) % eq.modu
          = (eq.a * (s * s) + eq.b * s) % eq.modu := (Nat.add_mod _ _ _).symm
      rw [h1]
      have h2 := int_modeq_of_nat
        (x := (eq.a * (s * s) + eq.b * s) % eq.modu) (y := eq.a * (s * s) + eq.b * s)
        (n := eq.modu) (Nat.mod_mod_of_dvd _ dvd_rfl)
      refine h2.trans ?_
      have : ((eq.a * (s * s) + eq.b * s : ℕ) : ℤ) = (eq.a : ℤ) * s * s + eq.b * s := by
        push_cast; ring
      rw [this]
    have hdz : ((eq.a : ℤ) * s * s + eq.b * s - eq.d) % (eq.modu : ℤ) = 0 := by
      have h3 : ((eq.a : ℤ) * s * s + eq.b * s - eq.d)
          ≡ ((add_mod_u (mult_mod eq.a (s * s) eq.modu)
            (mult_mod eq.b s eq.modu) eq.modu : ℕ) : ℤ) - eq.d [ZMOD (eq.modu : ℤ)] :=
        Int.ModEq.sub hmain.symm (Int.ModEq.refl _)
      norm_num at hz
      calc ((eq.a : ℤ) * s * s + eq.b * s - eq.d) % (eq.modu : ℤ)
          = (((add_mod_u (mult_mod eq.a (s * s) eq.modu)
              (mult_mod eq.b s eq.modu) eq.modu : ℕ) : ℤ) - eq.d) % (eq.modu : ℤ) := h3
        _ = 0 := hz.symm
    show ((eq.a : ℤ) * s * s + eq.b * s - eq.d) % (eq.modu : ℤ) = 0 % (eq.modu : ℤ)
    rw [Int.zero_emod]
    exact hdz

theorem scale_possible_solutions_spec {eq : QuadEq} {sub_sols xs : List ℕ}
    {prm_k m_prm_k t : ℕ} (hm : 1 ≤ eq.modu ^ prm_k)
    (hs : scale_possible_solutions_mod_power_of_two eq sub_sols prm_k m_prm_k t = some xs) :
    xs.Nodup ∧ ∀ v ∈ xs, v < eq.modu ^ prm_k := by
  rw [scale_possible_solutions_mod_power_of_two] at hs
  split at hs
  · exact absurd hs Option.noConfusion
  · injection hs with h
    rw [← h]
    refine ⟨List.nodup_dedup _, ?_⟩
    intro v hv
    rw [List.mem_dedup, List.mem_bind] at hv
    obtain ⟨s, hsmem, hv⟩ := hv
    rw [List.mem_map] at hv
    obtain ⟨r, hrmem, hv⟩ := hv
    rw [← hv]
    exact add_mod_lt _ _ hm

theorem lcdpot_le_left {x : ℕ} (hx : x ≠ 0) (y z : ℕ) :
    largest_common_dividing_power_of_two x y z ≤ trailing_zeros x := by
  rw [largest_common_dividing_power_of_two]
  split
  · omega
  · split
    · omega
    · split
      · exact le_trans (Nat.min_le_left _ _) le_rfl
      · exact le_trans (Nat.min_le_right _ _) (Nat.min_le_left _ _)

theorem lcdpot_le_mid (x : ℕ) {y : ℕ} (hy : y ≠ 0) (z : ℕ) :
    largest_common_dividing_power_of_two x y z ≤ trailing_zeros y := by
  rw [largest_common_dividing_power_of_two]
  split
  · omega
  · split
    · omega
    · split
      · exact Nat.min_le_right _ _
      · exact le_trans (Nat.min_le_right _ _) (Nat.min_le_right _ _)

theorem tz_lt_of_lt_pow {x n : ℕ} (hx : x ≠ 0) (hlt : x < 2 ^ n) :
    trailing_zeros x < n := by
  obtain ⟨hdvd, _⟩ := trailing_zeros_spec hx
  have h1 : 2 ^ trailing_zeros x ≤ x := Nat.le_of_dvd (by omega) hdvd
  have h2 : 2 ^ trailing_zeros x < 2 ^ n := by omega
  exact (Nat.pow_lt_pow_iff_right (by norm_num)).mp h2

theorem pow2_fold_inv {d T k : ℕ} (hT : T = 2 ^ k) (hd8 : d % 8 = 1) :
    ∀ c, 3 + c ≤ k →
      ((List.range' 3 c).foldl (pow2_step d T) 1) % 4 = 1 ∧
      ((List.range' 3 c).foldl (pow2_step d T) 3) % 4 = 3 ∧
      ((List.range' 3 c).foldl (pow2_step d T) 1)
        + ((List.range' 3 c).foldl (pow2_step d T) 3) = 2 ^ (2 + c) ∧
      ((List.range' 3 c).foldl (pow2_step d T) 1) * ((List.range' 3 c).foldl (pow2_step d T) 1)
        ≡ d [MOD 2 ^ (3 + c)] ∧
      ((List.range' 3 c).foldl (pow2_step d T) 3) * ((List.range' 3 c).foldl (pow2_step d T) 3)
        ≡ d [MOD 2 ^ (3 + c)] := by
  intro c
  induction c with
  | zero =>
    intro hk
    refine ⟨rfl, rfl, rfl, ?_, ?_⟩
    · show 1 * 1 % 2 ^ (3 + 0) = d % 2 ^ (3 + 0)
      norm_num
      omega
    · show 3 * 3 % 2 ^ (3 + 0) = d % 2 ^ (3 + 0)
      norm_num
      omega
  | succ c ih =>
    intro hk
    obtain ⟨h1, h2, h3, h4, h5⟩ := ih (by omega)
    have hcat : List.range' 3 (c + 1) = List.range' 3 c ++ [3 + 1 * c] :=
      List.range'_concat 3 c
    have hone : 3 + 1 * c = 3 + c := by omega
    rw [hcat, hone, List.foldl_append, List.foldl_append]
    have h3' : (List.range' 3 c).foldl (pow2_step d T) 1
        + (List.range' 3 c).foldl (pow2_step d T) 3 = 2 ^ (3 + c - 1) := by
      rw [show 3 + c - 1 = 2 + c from by omega]
      exact h3
    obtain ⟨g1, g2, g3, g4, g5⟩ := pow2_step_spec hT (by omega) (by omega) h1 h2 h3' h4 h5
    refine ⟨?_, ?_, ?_, ?_, ?_⟩
    · simpa using g1
    · simpa using g2
    · rw [show 2 + (c + 1) = 3 + c from by omega]
      simpa using g3
    · exact g4
    · exact g5

theorem pow2_lift_spec {d T k : ℕ} (hT : T = 2 ^ k) (hd8 : d % 8 = 1) (hk : 3 ≤ k) :
    pow2_lift d T 1 k % 4 = 1 ∧ pow2_lift d T 3 k % 4 = 3 ∧
    pow2_lift d T 1 k + pow2_lift d T 3 k = 2 ^ (k - 1) ∧
    pow2_lift d T 1 k * pow2_lift d T 1 k ≡ d [MOD T] ∧
    pow2_lift d T 3 k * pow2_lift d T 3 k ≡ d [MOD T] := by
  obtain ⟨h1, h2, h3, h4, h5⟩ := pow2_fold_inv hT hd8 (k - 3) (by omega)
  rw [show 2 + (k - 3) = k - 1 from by omega] at h3
  rw [show 3 + (k - 3) = k from by omega] at h4 h5
  rw [← hT] at h4 h5
  rw [pow2_lift]
  exact ⟨h1, h2, h3, h4, h5⟩

theorem solve_quad_simple_mod_higher_spec {w : ℕ} {eq : QuadEq} {prm_k total : ℕ}
    {xs : List ℕ} (hm2 : eq.modu = 2) (hb0 : eq.b = 0) (hk3 : 3 ≤ prm_k)
    (htot : total = 2 ^ prm_k)
    (hs : solve_quad_simple_mod_higher_power_of_two w eq prm_k total = some xs) :
    xs.Nodup ∧ ∀ v ∈ xs, v < total := by
  rw [solve_quad_simple_mod_higher_power_of_two] at hs
  split at hs
  · -- the d = 0 arm: multiples of the half power
    injection hs with h
    rw [← h]
    rw [hm2]
    have he : (prm_k + 1) / 2 ≤ prm_k := by omega
    have hsplit : total = 2 ^ (prm_k - (prm_k + 1) / 2) * 2 ^ ((prm_k + 1) / 2) := by
      rw [htot, ← pow_add]
      congr 1
      omega
    rw [hsplit, range_step_eq_map (Nat.one_le_two_pow) (Nat.pos_pow_of_pos _ (by norm_num))]
    constructor
    · exact (map_range_sorted_lt Nat.one_le_two_pow).imp (fun hab => Nat.ne_of_lt hab)
    · intro v hv
      rw [map_range_mem] at hv
      obtain ⟨i, hi, rfl⟩ := hv
      have h1 : i + 1 ≤ 2 ^ (prm_k - (prm_k + 1) / 2) := hi
      have h2 : (i + 1) * 2 ^ ((prm_k + 1) / 2)
          ≤ 2 ^ (prm_k - (prm_k + 1) / 2) * 2 ^ ((prm_k + 1) / 2) :=
        Nat.mul_le_mul_right _ h1
      have h3 : 1 ≤ 2 ^ ((prm_k + 1) / 2) := Nat.one_le_two_pow
      have h4 : (i + 1) * 2 ^ ((prm_k + 1) / 2)
          = i * 2 ^ ((prm_k + 1) / 2) + 2 ^ ((prm_k + 1) / 2) := by ring
      calc 0 + i * 2 ^ ((prm_k + 1) / 2) < (i + 1) * 2 ^ ((prm_k + 1) / 2) := by omega
        _ ≤ 2 ^ (prm_k - (prm_k + 1) / 2) * 2 ^ ((prm_k + 1) / 2) := h2
  · -- the remaining arms
    rename_i hdd0
    split at hs
    rotate_left
    · -- the perfect-square fallback arm and the final none arm
      split at hs
      · obtain ⟨ea, eb, ec, ed, em⟩ := eq
        simp only [] at hm2 hb0
        subst hm2
        subst hb0
        rw [htot]
        refine lift_with_hensel_spec (by norm_num) (by omega) (by simp) ?_ ?_ hs
        · intro s hsmem
          rw [List.mem_singleton] at hsmem
          subst hsmem
          norm_num
        · intro s hsmem hgcd
          rw [List.mem_singleton] at hsmem
          subst hsmem
          exact absurd (show gcd_mod 2 0 = 1 from hgcd) (by decide)
      · exact absurd hs Option.noConfusion
    rename_i hdd8
    injection hs with h
    obtain ⟨l1, l2, l3, l4, l5⟩ :=
      pow2_lift_spec (d := mult_mod (multip_inv eq.a total) eq.d total) htot hdd8 hk3
    rw [← h]
    generalize pow2_lift (mult_mod (multip_inv eq.a total) eq.d total) total 1 prm_k = A
      at l1 l3 l4 ⊢
    generalize pow2_lift (mult_mod (multip_inv eq.a total) eq.d total) total 3 prm_k = B
      at l2 l3 l5 ⊢
    have hHQ : (2 : ℕ) ^ (prm_k - 1) = 4 * 2 ^ (prm_k - 3) := by
      rw [show (4 : ℕ) = 2 ^ 2 from rfl, ← pow_add]
      congr 1
      omega
    have hT2 : total = 2 * 2 ^ (prm_k - 1) := by
      rw [htot, ← pow_succ']
      congr 1
      omega
    have hQ1 : 1 ≤ 2 ^ (prm_k - 3) := Nat.one_le_two_pow
    constructor
    · simp only [List.nodup_cons, List.mem_cons, List.not_mem_nil, or_false,
        List.mem_singleton, List.nodup_nil, and_true, not_or, not_false_eq_true]
      omega
    · intro v hv
      simp only [List.mem_cons, List.not_mem_nil, or_false, List.mem_singleton] at hv
      rcases hv with rfl | rfl | rfl | rfl <;> omega

/-- The `b = 0` power-of-two solver (with the inlined even-terms recursion)
returns a duplicate-free list of values below the total modulus. -/
theorem solve_quad_residue_pow2_spec {w : ℕ} :
    ∀ (fuel : ℕ) (eq : QuadEq) (prm_k total : ℕ) (xs : List ℕ),
      eq.modu = 2 → eq.b = 0 → 1 ≤ prm_k → total = 2 ^ prm_k →
      solve_quad_residue_power_of_two_mod w fuel eq prm_k total = some xs →
      xs.Nodup ∧ ∀ v ∈ xs, v < total := by
  intro fuel
  induction fuel with
  | zero =>
    intro eq prm_k total xs _ _ _ _ hs
    exact absurd hs (by rw [solve_quad_residue_power_of_two_mod]; exact Option.noConfusion)
  | succ fuel ih =>
    intro eq prm_k total xs hm2 hb0 hk htot hs
    rw [solve_quad_residue_power_of_two_mod] at hs
    split at hs
    · rename_i hk1
      obtain ⟨h1, h2⟩ := solve_quad_simple_mod_two_spec hs
      exact ⟨h1, by rw [htot, hk1]; exact fun v hv => by have := h2 v hv; norm_num; omega⟩
    · split at hs
      · rename_i hk1 hk2
        obtain ⟨h1, h2⟩ := solve_quad_simple_mod_four_spec hs
        exact ⟨h1, by rw [htot, hk2]; exact fun v hv => by have := h2 v hv; norm_num; omega⟩
      · split at hs
        · rename_i hk1 hk2 hgcd
          exact solve_quad_simple_mod_higher_spec hm2 hb0 (by omega) htot hs
        · split at hs
          · rename_i hk1 hk2 hgcd hEV
            split at hs
            · rename_i sols hrec
              have htpos : 0 < total := by rw [htot]; exact Nat.pos_pow_of_pos _ (by norm_num)
              have hamod : eq.a % total ≠ 0 := by omega
              have htlt : even_terms_t eq total < prm_k := by
                have h1 : even_terms_t eq total ≤ trailing_zeros (eq.a % total) :=
                  lcdpot_le_left hamod total (eq.d % total)
                have h2 : trailing_zeros (eq.a % total) < prm_k := by
                  refine tz_lt_of_lt_pow hamod ?_
                  rw [← htot]
                  exact Nat.mod_lt _ htpos
                omega
              obtain ⟨hnd, hb⟩ := ih
                { eq with a := eq.a / 2 ^ even_terms_t eq total,
                          d := eq.d / 2 ^ even_terms_t eq total }
                (prm_k - even_terms_t eq total)
                (eq.modu ^ (prm_k - even_terms_t eq total)) sols hm2 hb0 (by omega)
                (by show eq.modu ^ (prm_k - even_terms_t eq total)
                      = 2 ^ (prm_k - even_terms_t eq total)
                    rw [hm2]) hrec
              have hm' : 1 ≤ eq.modu ^ prm_k := by
                rw [hm2]
                exact Nat.one_le_two_pow
              obtain ⟨g1, g2⟩ := scale_possible_solutions_spec hm' hs
              refine ⟨g1, fun v hv => ?_⟩
              have := g2 v hv
              rw [hm2] at this
              rw [htot]
              exact this
            · exact absurd hs Option.noConfusion
          · exact absurd hs Option.noConfusion

/-- `solve_quad_mod_power_of_two`: duplicate-free values below the total
power-of-two modulus. -/
theorem solve_quad_mod_pow2_spec {w : ℕ} {eq : QuadEq} {prm_k total : ℕ} {xs : List ℕ}
    (hm2 : eq.modu = 2) (hk : 1 ≤ prm_k) (htot : total = 2 ^ prm_k)
    (hs : solve_quad_mod_power_of_two w eq prm_k total = some xs) :
    xs.Nodup ∧ ∀ v ∈ xs, v < total := by
  rw [solve_quad_mod_power_of_two] at hs
  split at hs
  · rename_i hb0
    exact solve_quad_residue_pow2_spec (prm_k + 1) eq prm_k total xs hm2 hb0 hk htot hs
  · rename_i hb0
    have htpos : 0 < total := by rw [htot]; exact Nat.pos_pow_of_pos _ (by norm_num)
    have htlt : pow2_t eq total < prm_k := by
      rw [pow2_t]
      by_cases hbz : eq.b % total = 0
      · rw [largest_common_dividing_power_of_two]
        split
        · omega
        · split
          · omega
          · exact absurd hbz (by rename_i h1 h2; push_neg at h2; omega)
      · have h1 : largest_common_dividing_power_of_two (eq.a % total) (eq.b % total)
            (eq.d % total) ≤ trailing_zeros (eq.b % total) :=
          lcdpot_le_mid _ hbz _
        have h2 : trailing_zeros (eq.b % total) < prm_k := by
          refine tz_lt_of_lt_pow hbz ?_
          rw [← htot]
          exact Nat.mod_lt _ htpos
        omega
    have hsm : (pow2_shift eq (pow2_t eq total)).modu = 2 := hm2
    split at hs
    · exact absurd hs Option.noConfusion
    · split at hs
      · exact absurd hs Option.noConfusion
      · rename_i simple_sols hsearch
        obtain ⟨snd, sprop⟩ := search_possible_solutions_spec hsm hsearch
        split at hs
        · -- prm_k > 1: the Hensel lift, possibly rescaled
          split at hs
          · exact absurd hs Option.noConfusion
          · rename_i sols hlift
            obtain ⟨g1, g2⟩ := lift_with_hensel_spec hsm.ge
              (by omega) snd (fun s hmem => (sprop s hmem).1)
              (fun s hmem _ => (sprop s hmem).2) hlift
            split at hs
            · rename_i ht0
              injection hs with h
              rw [← h]
              refine ⟨g1, fun v hv => ?_⟩
              have := g2 v hv
              rw [hsm, ht0, Nat.sub_zero, ← htot] at this
              exact this
            · have hm' : 1 ≤ eq.modu ^ prm_k := by rw [hm2]; exact Nat.one_le_two_pow
              obtain ⟨g3, g4⟩ := scale_possible_solutions_spec hm' hs
              refine ⟨g3, fun v hv => ?_⟩
              have := g4 v hv
              rw [hm2, ← htot] at this
              exact this
        · -- prm_k = 1: rescale the searched solutions directly
          have hm' : 1 ≤ eq.modu ^ prm_k := by rw [hm2]; exact Nat.one_le_two_pow
          obtain ⟨g3, g4⟩ := scale_possible_solutions_spec hm' hs
          refine ⟨g3, fun v hv => ?_⟩
          have := g4 v hv
          rw [hm2, ← htot] at this
          exact this

/-! ### The composite path: per-factor solutions and the CRT combination -/

theorem composite_sub_sols_spec {w : ℕ} {eq : QuadEq} {p k : ℕ} {xs : List ℕ}
    (hp : Nat.Prime p) (hk : 1 ≤ k)
    (hs : composite_sub_sols w eq p k = some xs) :
    xs.Nodup ∧ ∀ v ∈ xs, v < p ^ k := by
  rw [composite_sub_sols] at hs
  by_cases hp2 : p > 2
  · rw [if_pos hp2] at hs
    have hodd : p % 2 = 1 := Nat.odd_iff.mp (hp.odd_of_ne_two (by omega))
    split at hs
    · rename_i ys hys
      obtain ⟨hsort, hbound⟩ := @solve_quad_simple_sorted { eq with modu := p } _
        hp.two_le hodd hys
      split at hs
      · rename_i hk1
        injection hs with h
        rw [← h]
        have hkk : k = 1 := by omega
        rw [hkk, pow_one]
        exact ⟨hsort.imp (fun hab => Nat.ne_of_lt hab), hbound⟩
      · refine @lift_with_hensel_spec { eq with modu := p } _ _ _ hp.two_le hk
          (hsort.imp (fun hab => Nat.ne_of_lt hab)) hbound ?_ hs
        intro s hsmem hgcd
        exact @solve_quad_simple_roots { eq with modu := p } _ hp hp2 hys s hsmem
    · exact absurd hs Option.noConfusion
  · rw [if_neg hp2] at hs
    have hp2' : p = 2 := by have := hp.two_le; omega
    subst hp2'
    exact @solve_quad_mod_pow2_spec w { eq with modu := 2 } k (2 ^ k) _ rfl hk rfl hs

theorem composite_collect_spec {w : ℕ} {eq : QuadEq} :
    ∀ (fr : List (ℕ × ℕ)) (groups : List (List ℕ × ℕ)),
      (∀ pk ∈ fr, Nat.Prime pk.1 ∧ 1 ≤ pk.2) →
      composite_collect w eq fr = some groups →
      groups.map Prod.snd = fr.map (fun pk => pk.1 ^ pk.2) ∧
      ∀ g ∈ groups, g.1 ≠ [] ∧ g.1.Nodup ∧ ∀ v ∈ g.1, v < g.2 := by
  intro fr
  induction fr with
  | nil =>
    intro groups _ hc
    rw [composite_collect] at hc
    injection hc with h
    rw [← h]
    exact ⟨rfl, fun g hg => absurd hg (List.not_mem_nil g)⟩
  | cons pk rest ih =>
    intro groups hpr hc
    obtain ⟨p, k⟩ := pk
    rw [composite_collect] at hc
    split at hc
    · exact absurd hc Option.noConfusion
    · rename_i ss hss
      split at hc
      · exact absurd hc Option.noConfusion
      · rename_i hemp
        split at hc
        · exact absurd hc Option.noConfusion
        · rename_i groups' hrest
          injection hc with h
          obtain ⟨hp, hk⟩ := hpr (p, k) (List.mem_cons_self _ _)
          obtain ⟨hmap, hprops⟩ := ih groups'
            (fun x hx => hpr x (List.mem_cons_of_mem _ hx)) hrest
          obtain ⟨hnd, hbound⟩ := composite_sub_sols_spec hp hk hss
          rw [← h]
          constructor
          · rw [List.map_cons, List.map_cons, hmap]
          · intro g hg
            rcases List.mem_cons.mp hg with rfl | hg
            · exact ⟨hemp, hnd, hbound⟩
            · exact hprops g hg

theorem index_combos_mem : ∀ (bounds cs : List ℕ),
    cs ∈ index_combos bounds ↔ List.Forall₂ (fun c b => c < b) cs bounds := by
  intro bounds
  induction bounds with
  | nil =>
    intro cs
    rw [index_combos]
    constructor
    · intro h
      rw [List.mem_singleton] at h
      subst h
      exact List.Forall₂.nil
    · intro h
      cases h
      exact List.mem_singleton.mpr rfl
  | cons n ns ih =>
    intro cs
    rw [index_combos, List.mem_bind]
    constructor
    · rintro ⟨i, hi, hmem⟩
      rw [List.mem_map] at hmem
      obtain ⟨rest, hrest, hcons⟩ := hmem
      rw [List.mem_range] at hi
      rw [← hcons]
      exact List.Forall₂.cons hi ((ih rest).mp hrest)
    · intro h
      cases h with
      | cons hc htail =>
        rename_i c ct
        exact ⟨c, List.mem_range.mpr hc, List.mem_map.mpr ⟨ct, (ih ct).mpr htail, rfl⟩⟩

theorem index_combos_nodup : ∀ bounds : List ℕ, (index_combos bounds).Nodup := by
  intro bounds
  induction bounds with
  | nil => exact List.nodup_singleton _
  | cons n ns ih =>
    rw [index_combos]
    apply List.nodup_bind.mpr
    refine ⟨fun i _ => ih.map (fun a b hab => by injection hab), ?_⟩
    refine (List.pairwise_lt_range n).imp ?_
    intro a b hab
    intro x hx hy
    rw [List.mem_map] at hx hy
    obtain ⟨ra, _, hxa⟩ := hx
    obtain ⟨rb, _, hxb⟩ := hy
    rw [← hxa] at hxb
    injection hxb with h1 h2
    omega

theorem crt_term_lt {M : ℕ} (hm : 2 ≤ M) (x Mi : ℕ) : crt_term M x Mi < M := by
  rw [crt_term]
  exact mult_mod_u_lt _ (le_of_lt (mult_mod_lt _ _ (by omega))) (by omega)

theorem crt_term_eq {M : ℕ} (hm : 2 ≤ M) (x Mi : ℕ) :
    crt_term M x Mi = (x * (M / Mi) % M) * multip_inv (M / Mi) Mi % M := by
  rw [crt_term, mult_mod_u_eq _ (le_of_lt (mult_mod_lt _ _ (by omega))) (by omega),
    mult_mod_eq _ _ (by omega)]

theorem crt_term_vanish {M Mi m : ℕ} (hm : 2 ≤ M) (hdvd : m ∣ M) (hdvd2 : m ∣ M / Mi)
    (x : ℕ) : crt_term M x Mi % m = 0 := by
  rw [crt_term_eq hm]
  rw [Nat.mod_mod_of_dvd _ hdvd]
  obtain ⟨c, hc⟩ := hdvd2
  have h2 : (x * (M / Mi) % M) % m = x * (M / Mi) % m := Nat.mod_mod_of_dvd _ hdvd
  have h3 : x * (M / Mi) % m = 0 := by
    rw [hc, show x * (m * c) = m * (x * c) from by ring, Nat.mul_mod_right]
  rw [Nat.mul_mod, h2, h3, Nat.zero_mul, Nat.zero_mod]

theorem crt_term_self {M Mi : ℕ} (hm : 2 ≤ M) (hdvd : Mi ∣ M)
    (hinv : (M / Mi) * multip_inv (M / Mi) Mi ≡ 1 [MOD Mi]) (x : ℕ) :
    crt_term M x Mi ≡ x [MOD Mi] := by
  rw [crt_term_eq hm]
  have h1 : (x * (M / Mi) % M) * multip_inv (M / Mi) Mi % M
      ≡ (x * (M / Mi) % M) * multip_inv (M / Mi) Mi [MOD Mi] :=
    Nat.ModEq.of_dvd hdvd (Nat.mod_modEq _ _)
  have h2 : x * (M / Mi) % M ≡ x * (M / Mi) [MOD Mi] :=
    Nat.ModEq.of_dvd hdvd (Nat.mod_modEq _ _)
  calc (x * (M / Mi) % M) * multip_inv (M / Mi) Mi % M
      ≡ (x * (M / Mi) % M) * multip_inv (M / Mi) Mi [MOD Mi] := h1
    _ ≡ (x * (M / Mi)) * multip_inv (M / Mi) Mi [MOD Mi] := h2.mul_right _
    _ = x * ((M / Mi) * multip_inv (M / Mi) Mi) := by ring
    _ ≡ x * 1 [MOD Mi] := Nat.ModEq.mul_left x hinv
    _ = x := mul_one x

theorem crt_sum_vanish {M m : ℕ} (hm : 2 ≤ M) (hmdvd : m ∣ M) :
    ∀ (gs : List (List ℕ × ℕ)) (cs : List ℕ) (acc : ℕ),
      acc < M → (∀ g ∈ gs, m ∣ M / g.2) →
      crt_sum M gs cs acc ≡ acc [MOD m] := by
  intro gs
  induction gs with
  | nil =>
    intro cs acc _ _
    rw [crt_sum]
  | cons g gt ih =>
    intro cs acc hacc hdv
    cases cs with
    | nil => rw [crt_sum]
    | cons c ct =>
      rw [crt_sum]
      have hterm : crt_term M (g.1.getD c 0) g.2 < M := crt_term_lt hm _ _
      have hlt : add_mod_u acc (crt_term M (g.1.getD c 0) g.2) M < M :=
        add_mod_u_lt hacc hterm
      have h1 := ih ct _ hlt (fun g' hg' => hdv g' (List.mem_cons_of_mem g hg'))
      have h2 : add_mod_u acc (crt_term M (g.1.getD c 0) g.2) M ≡ acc [MOD m] := by
        rw [add_mod_u_eq hacc hterm]
        calc (acc + crt_term M (g.1.getD c 0) g.2) % M
            ≡ acc + crt_term M (g.1.getD c 0) g.2 [MOD m] :=
              Nat.ModEq.of_dvd hmdvd (Nat.mod_modEq _ _)
          _ ≡ acc + 0 [MOD m] := by
              refine Nat.ModEq.add_left acc ?_
              show crt_term M (g.1.getD c 0) g.2 % m = 0 % m
              rw [Nat.zero_mod]
              exact crt_term_vanish hm hmdvd (hdv g (List.mem_cons_self g gt)) _
          _ = acc := Nat.add_zero acc
      exact h1.trans h2

theorem crt_sum_head {M : ℕ} (hm : 2 ≤ M) {g : List ℕ × ℕ} {gt : List (List ℕ × ℕ)}
    (c : ℕ) (ct : List ℕ) (acc : ℕ) (hacc : acc < M)
    (hdvd : g.2 ∣ M)
    (hinv : (M / g.2) * multip_inv (M / g.2) g.2 ≡ 1 [MOD g.2])
    (htail : ∀ g' ∈ gt, g.2 ∣ M / g'.2) :
    crt_sum M (g :: gt) (c :: ct) acc ≡ acc + g.1.getD c 0 [MOD g.2] := by
  rw [crt_sum]
  have hterm : crt_term M (g.1.getD c 0) g.2 < M := crt_term_lt hm _ _
  have hlt : add_mod_u acc (crt_term M (g.1.getD c 0) g.2) M < M := add_mod_u_lt hacc hterm
  have h1 := crt_sum_vanish hm hdvd gt ct _ hlt htail
  refine h1.trans ?_
  rw [add_mod_u_eq hacc hterm]
  calc (acc + crt_term M (g.1.getD c 0) g.2) % M
      ≡ acc + crt_term M (g.1.getD c 0) g.2 [MOD g.2] :=
        Nat.ModEq.of_dvd hdvd (Nat.mod_modEq _ _)
    _ ≡ acc + g.1.getD c 0 [MOD g.2] :=
        Nat.ModEq.add_left acc (crt_term_self hm hdvd hinv _)

theorem getD_eq_get_aux : ∀ (l : List ℕ) (n : ℕ) (h : n < l.length),
    l.getD n 0 = l.get ⟨n, h⟩ := by
  intro l
  induction l with
  | nil => intro n h; exact absurd h (by simp)
  | cons a t ih =>
    intro n h
    cases n with
    | zero => rfl
    | succ n => exact ih n (by simpa using h)

theorem crt_sum_inj {M : ℕ} (hm : 2 ≤ M) :
    ∀ (gs : List (List ℕ × ℕ)) (cs cs' : List ℕ) (acc : ℕ), acc < M →
      (∀ g ∈ gs, g.2 ∣ M ∧
        (M / g.2) * multip_inv (M / g.2) g.2 ≡ 1 [MOD g.2] ∧
        g.1.Nodup ∧ ∀ v ∈ g.1, v < g.2) →
      List.Pairwise (fun g g' => g.2 ∣ M / g'.2) gs →
      List.Forall₂ (fun c g => c < (g : List ℕ × ℕ).1.length) cs gs →
      List.Forall₂ (fun c g => c < (g : List ℕ × ℕ).1.length) cs' gs →
      crt_sum M gs cs acc = crt_sum M gs cs' acc → cs = cs' := by
  intro gs
  induction gs with
  | nil =>
    intro cs cs' acc _ _ _ h1 h2 _
    cases h1
    cases h2
    rfl
  | cons g gt ih =>
    intro cs cs' acc hacc hg hpw h1 h2 heq
    cases h1 with
    | cons hc h1t =>
      rename_i c ct
      cases h2 with
      | cons hc' h2t =>
        rename_i c' ct'
        rw [List.pairwise_cons] at hpw
        obtain ⟨hpwhead, hpwtail⟩ := hpw
        obtain ⟨hgdvd, hginv, hgnd, hgb⟩ := hg g (List.mem_cons_self g gt)
        by_cases hcc : c = c'
        · subst hcc
          rw [crt_sum, crt_sum] at heq
          have hrec := ih ct ct' _ (add_mod_u_lt hacc (crt_term_lt hm _ _))
            (fun g' hmem => hg g' (List.mem_cons_of_mem g hmem)) hpwtail h1t h2t heq
          rw [hrec]
        · exfalso
          have hh1 := @crt_sum_head M hm g gt c ct acc hacc hgdvd hginv hpwhead
          have hh2 := @crt_sum_head M hm g gt c' ct' acc hacc hgdvd hginv hpwhead
          rw [heq] at hh1
          have hx : acc + g.1.getD c 0 ≡ acc + g.1.getD c' 0 [MOD g.2] :=
            hh1.symm.trans hh2
          have hx2 : g.1.getD c 0 ≡ g.1.getD c' 0 [MOD g.2] :=
            Nat.ModEq.add_left_cancel' acc hx
          have hgc : g.1.getD c 0 = g.1.get ⟨c, hc⟩ := getD_eq_get_aux _ _ hc
          have hgc' : g.1.getD c' 0 = g.1.get ⟨c', hc'⟩ := getD_eq_get_aux _ _ hc'
          have hlt1 : g.1.getD c 0 < g.2 := by
            rw [hgc]
            exact hgb _ (List.get_mem _ _ _)
          have hlt2 : g.1.getD c' 0 < g.2 := by
            rw [hgc']
            exact hgb _ (List.get_mem _ _ _)
          have heqv : g.1.getD c 0 = g.1.getD c' 0 := by
            have h3 : g.1.getD c 0 % g.2 = g.1.getD c' 0 % g.2 := hx2
            rw [Nat.mod_eq_of_lt hlt1, Nat.mod_eq_of_lt hlt2] at h3
            exact h3
          rw [hgc, hgc'] at heqv
          have hfin : (⟨c, hc⟩ : Fin g.1.length) = ⟨c', hc'⟩ :=
            (List.Nodup.get_inj_iff hgnd).mp heqv
          exact hcc (congrArg Fin.val hfin)

theorem coprime_list_prod {a : ℕ} : ∀ l : List ℕ, (∀ b ∈ l, Nat.Coprime b a) →
    Nat.Coprime l.prod a := by
  intro l
  induction l with
  | nil =>
    intro _
    rw [List.prod_nil]
    exact Nat.coprime_one_left a
  | cons b t ih =>
    intro h
    rw [List.prod_cons]
    exact Nat.Coprime.mul (h b (List.mem_cons_self b t))
      (ih fun x hx => h x (List.mem_cons_of_mem b hx))

theorem pairwise_mul_dvd : ∀ (P : List ℕ) (M : ℕ), P.prod ∣ M →
    List.Pairwise (fun x y => x * y ∣ M) P := by
  intro P
  induction P with
  | nil => intro M _; exact List.Pairwise.nil
  | cons a t ih =>
    intro M h
    rw [List.prod_cons] at h
    refine List.pairwise_cons.mpr ⟨?_, ih M (dvd_trans (dvd_mul_left t.prod a) h)⟩
    intro b hb
    exact dvd_trans (mul_dvd_mul_left a (List.dvd_prod hb)) h

theorem dvd_div_of_mul_dvd_tot {x y M : ℕ} (hy : 0 < y) (h : x * y ∣ M) : x ∣ M / y := by
  obtain ⟨c, hc⟩ := h
  rw [hc, show x * y * c = y * (x * c) from by ring, Nat.mul_div_cancel_left _ hy]
  exact dvd_mul_right x c

theorem moduli_props : ∀ (P : List ℕ), (∀ m ∈ P, 2 ≤ m) → List.Pairwise Nat.Coprime P →
    ∀ m ∈ P, Nat.Coprime (P.prod / m) m := by
  intro P
  induction P with
  | nil => intro _ _ m hm; exact absurd hm (List.not_mem_nil m)
  | cons a t ih =>
    intro hb hpw m hm
    rw [List.pairwise_cons] at hpw
    obtain ⟨hhead, htail⟩ := hpw
    rw [List.prod_cons]
    rcases List.mem_cons.mp hm with rfl | hm
    · rw [Nat.mul_div_cancel_left _
        (by have := hb m (List.mem_cons_self m t); omega : 0 < m)]
      exact coprime_list_prod t (fun b hbm => (hhead b hbm).symm)
    · have hmdvd : m ∣ t.prod := List.dvd_prod hm
      rw [Nat.mul_div_assoc a hmdvd]
      exact Nat.Coprime.mul (hhead m hm)
        (ih (fun b hbm => hb b (List.mem_cons_of_mem a hbm)) htail m hm)

theorem prime_pow_pairwise_coprime {fr : List (ℕ × ℕ)}
    (hsort : List.Sorted (· < ·) (fr.map Prod.fst))
    (hpr : ∀ pk ∈ fr, Nat.Prime pk.1 ∧ 1 ≤ pk.2) :
    List.Pairwise Nat.Coprime (fr.map fun pk => pk.1 ^ pk.2) := by
  rw [List.pairwise_map]
  have hs : List.Pairwise (fun pk pk' : ℕ × ℕ => pk.1 < pk'.1) fr :=
    List.pairwise_map.mp hsort
  refine List.Pairwise.imp_of_mem ?_ hs
  intro pk pk' hmem hmem' hlt
  exact Nat.Coprime.pow _ _ ((Nat.coprime_primes (hpr pk hmem).1 (hpr pk' hmem').1).mpr
    (Nat.ne_of_lt hlt))

/-- The CRT recombination of `combine_solution_for_compo_modu` is strictly
increasing: the index combinations are duplicate-free and distinct
combinations give distinct sums. -/
theorem combine_sorted {M : ℕ} (hm : 2 ≤ M) {groups : List (List ℕ × ℕ)}
    (hne : groups ≠ [])
    (hg : ∀ g ∈ groups, g.1 ≠ [] ∧ g.2 ∣ M ∧
      (M / g.2) * multip_inv (M / g.2) g.2 ≡ 1 [MOD g.2] ∧
      g.1.Nodup ∧ ∀ v ∈ g.1, v < g.2)
    (hpw : List.Pairwise (fun g g' => g.2 ∣ M / g'.2) groups) :
    List.Sorted (· < ·) (combine_solution_for_compo_modu groups M) := by
  have hguard : ¬ ((groups.map fun g => g.1.length).isEmpty = true ∨
      (groups.map fun g => g.1.length).any (fun v => v == 0) = true) := by
    rintro (h | h)
    · rw [List.isEmpty_iff] at h
      exact hne (List.map_eq_nil.mp h)
    · rw [List.any_eq_true] at h
      obtain ⟨x, hx, hx0⟩ := h
      rw [List.mem_map] at hx
      obtain ⟨g, hgm, hlen⟩ := hx
      have hx0' : x = 0 := by simpa using hx0
      rw [hx0'] at hlen
      exact (hg g hgm).1 (List.length_eq_zero.mp hlen)
  have hred : combine_solution_for_compo_modu groups M
      = vec_sort ((index_combos (groups.map fun g => g.1.length)).map
          fun combi => crt_sum M groups combi 0) := by
    rw [combine_solution_for_compo_modu, make_index_combinations, if_neg hguard]
  rw [hred]
  apply vec_sort_strict
  refine List.Nodup.map_on ?_ (index_combos_nodup _)
  intro cs hcs cs' hcs' heq
  refine crt_sum_inj hm groups cs cs' 0 (by omega)
    (fun g hgm => ⟨(hg g hgm).2.1, (hg g hgm).2.2.1, (hg g hgm).2.2.2.1,
      (hg g hgm).2.2.2.2⟩) hpw ?_ ?_ heq
  · exact List.forall₂_map_right_iff.mp ((index_combos_mem _ _).mp hcs)
  · exact List.forall₂_map_right_iff.mp ((index_combos_mem _ _).mp hcs')

/-- `solve_quad_composite_mod` on the modelled prime factor representation
always emits a strictly increasing list. -/
theorem solve_quad_composite_sorted {w : ℕ} {eq : QuadEq} {xs : List ℕ}
    (hn : 2 ≤ eq.modu)
    (hs : solve_quad_composite_mod w eq (prime_factor_repr eq.modu) = some xs) :
    List.Sorted (· < ·) xs := by
  obtain ⟨hsort, hpr, hprod, hne⟩ := prime_factor_repr_spec hn
  rw [solve_quad_composite_mod] at hs
  split at hs
  · exact absurd hs Option.noConfusion
  · rename_i groups hc
    obtain ⟨hmap, hprops⟩ := composite_collect_spec _ groups hpr hc
    have hglen : groups.length = (prime_factor_repr eq.modu).length := by
      have h1 := congrArg List.length hmap
      simpa using h1
    split at hs
    · rename_i hlen
      injection hs with h
      rw [← h]
      have hPprod : (groups.map Prod.snd).prod = eq.modu := by rw [hmap, hprod]
      have hP2 : ∀ m ∈ groups.map Prod.snd, 2 ≤ m := by
        intro m hmem
        rw [hmap, List.mem_map] at hmem
        obtain ⟨pk, hpk, hval⟩ := hmem
        rw [← hval]
        calc 2 ≤ pk.1 := (hpr pk hpk).1.two_le
          _ ≤ pk.1 ^ pk.2 := Nat.le_self_pow (by have := (hpr pk hpk).2; omega) _
      have hPco : List.Pairwise Nat.Coprime (groups.map Prod.snd) := by
        rw [hmap]
        exact prime_pow_pairwise_coprime hsort hpr
      have hPdvd : List.Pairwise (fun x y => x * y ∣ eq.modu) (groups.map Prod.snd) :=
        pairwise_mul_dvd _ _ (hPprod ▸ dvd_rfl)
      refine combine_sorted hn ?_ ?_ ?_
      · intro hnil
        rw [hnil] at hglen
        exact hne (List.length_eq_zero.mp hglen.symm)
      · intro g hgm
        have hg2 : 2 ≤ g.2 := hP2 g.2 (List.mem_map.mpr ⟨g, hgm, rfl⟩)
        have hgdvd : g.2 ∣ eq.modu := by
          rw [← hPprod]
          exact List.dvd_prod (List.mem_map.mpr ⟨g, hgm, rfl⟩)
        have hcop : Nat.Coprime (eq.modu / g.2) g.2 := by
          rw [← hPprod]
          exact moduli_props _ hP2 hPco g.2 (List.mem_map.mpr ⟨g, hgm, rfl⟩)
        refine ⟨(hprops g hgm).1, hgdvd, ?_, (hprops g hgm).2.1, (hprops g hgm).2.2⟩
        have hmul := multip_inv_mul hg2 hcop
        show eq.modu / g.2 * multip_inv (eq.modu / g.2) g.2 % g.2 = 1 % g.2
        rw [Nat.mod_eq_of_lt (by omega : (1 : ℕ) < g.2), mul_comm]
        exact hmul
      · have h1 : List.Pairwise (fun g g' : List ℕ × ℕ => g.2 * g'.2 ∣ eq.modu) groups :=
          List.pairwise_map.mp hPdvd
        refine List.Pairwise.imp_of_mem ?_ h1
        intro g g' hgm hgm' hdd
        have hpos : 0 < g'.2 := by
          have := hP2 g'.2 (List.mem_map.mpr ⟨g', hgm', rfl⟩)
          omega
        exact dvd_div_of_mul_dvd_tot hpos hdd
    · rename_i hlen
      injection hs with h
      rw [← h]
      cases groups with
      | nil =>
        have : ([] : List (List ℕ × ℕ)).bind (fun g => g.1) = [] := rfl
        rw [this]
        exact List.sorted_nil
      | cons g gt =>
        cases gt with
        | nil =>
          have hbind : ([g].bind fun g => g.1) = g.1 := by simp
          rw [hbind]
          exact vec_sort_strict (hprops g (List.mem_cons_self _ _)).2.1
        | cons g' gt' =>
          exfalso
          rw [List.length_cons, List.length_cons] at hglen
          omega

/-- `QuadEq::solve` only emits strictly increasing lists. -/
theorem quad_solve_sorted {w : ℕ} {eq : QuadEq} {xs : List ℕ}
    (hs : QuadEq.solve w eq = some xs) : List.Sorted (· < ·) xs := by
  rw [QuadEq.solve] at hs
  split at hs
  · exact absurd hs Option.noConfusion
  · rename_i hm1
    split at hs
    · exact absurd hs Option.noConfusion
    · split at hs
      · exact (lin_solve_spec hs).1
      · have hqm : (quad_zero_c eq).modu = eq.modu := by
          rw [quad_zero_c]
          split <;> rfl
        split at hs
        · rename_i hprime
          obtain ⟨hodd, h3⟩ := is_odd_prime_true_odd hprime
          split at hs
          · exact (solve_quad_residue_sorted (by rw [hqm]; omega)
              (by rw [hqm]; exact hodd) hs).1
          · exact (solve_quad_simple_sorted (by rw [hqm]; omega)
              (by rw [hqm]; exact hodd) hs).1
        · rw [← hqm] at hs
          exact solve_quad_composite_sorted (by rw [hqm]; omega) hs

/-- `LinEqSigned::solve` answers come from `LinEq::solve`, so they are
strictly increasing. -/
theorem lin_signed_sorted {w : ℕ} {eq : LinEqSigned} {xs : List ℕ}
    (hs : LinEqSigned.solve w eq = .ok (some xs)) : List.Sorted (· < ·) xs := by
  rw [LinEqSigned.solve] at hs
  split at hs
  · exact absurd hs (by exact fun h => Except.noConfusion h)
  · injection hs with h
    exact absurd h Option.noConfusion
  · split at hs
    · exact absurd hs (by exact fun h => Except.noConfusion h)
    · injection hs with h
      exact absurd h Option.noConfusion
    · split at hs
      · exact absurd hs (by exact fun h => Except.noConfusion h)
      · injection hs with h
        exact absurd h Option.noConfusion
      · injection hs with h
        exact (lin_solve_spec h).1

/-- `QuadEqSigned::solve` answers come from `QuadEq::solve`, so they are
strictly increasing. -/
theorem quad_signed_sorted {w : ℕ} {eq : QuadEqSigned} {xs : List ℕ}
    (hs : QuadEqSigned.solve w eq = .ok (some xs)) : List.Sorted (· < ·) xs := by
  rw [QuadEqSigned.solve] at hs
  split at hs
  · exact absurd hs (by exact fun h => Except.noConfusion h)
  · injection hs with h
    exact absurd h Option.noConfusion
  · split at hs
    · exact absurd hs (by exact fun h => Except.noConfusion h)
    · injection hs with h
      exact absurd h Option.noConfusion
    · split at hs
      · exact absurd hs (by exact fun h => Except.noConfusion h)
      · injection hs with h
        exact absurd h Option.noConfusion
      · split at hs
        · exact absurd hs (by exact fun h => Except.noConfusion h)
        · injection hs with h
          exact absurd h Option.noConfusion
        · injection hs with h
          exact quad_solve_sorted h

/-! ### Claim C4: solution lists are strictly increasing -/

/-- Claim C4: every solution list returned by `LinEq::solve`,
`LinEqSigned::solve`, `QuadEq::solve`, or `QuadEqSigned::solve` is strictly
increasing, hence contains no duplicate residues; in particular the
CRT-combined lists for composite moduli and the rescaled lists of the
power-of-two pipeline are duplicate-free and sorted. -/
theorem solution_lists_strictly_increasing (w : ℕ) (leq : LinEq) (lseq : LinEqSigned)
    (qeq : QuadEq) (qseq : QuadEqSigned) (xs1 xs2 xs3 xs4 : List ℕ)
    (h1 : LinEq.solve leq = some xs1)
    (h2 : LinEqSigned.solve w lseq = .ok (some xs2))
    (h3 : QuadEq.solve w qeq = some xs3)
    (h4 : QuadEqSigned.solve w qseq = .ok (some xs4)) :
    List.Sorted (· < ·) xs1 ∧ List.Sorted (· < ·) xs2 ∧
    List.Sorted (· < ·) xs3 ∧ List.Sorted (· < ·) xs4 :=
  ⟨(lin_solve_spec h1).1, lin_signed_sorted h2, quad_solve_sorted h3, quad_signed_sorted h4⟩

/-- Witness for claim C4: concrete runs of all four solvers. -/
theorem solution_lists_strictly_increasing_witness :
    LinEq.solve { a := 1, b := 0, c := 1, modu := 3 } = some [1] ∧
    LinEqSigned.solve 8 { a := 1, b := 0, c := 1, modu := 3 } = .ok (some [1]) ∧
    QuadEq.solve 8 { a := 1, b := 0, c := 0, d := 1, modu := 3 } = some [1, 2] ∧
    QuadEqSigned.solve 8 { a := 1, b := 0, c := 0, d := 1, modu := 3 } = .ok (some [1, 2]) ∧
    (List.Sorted (· < ·) [1] ∧ List.Sorted (· < ·) [1] ∧
      List.Sorted (· < ·) [1, 2] ∧ List.Sorted (· < ·) [1, 2]) :=
  ⟨rfl, rfl, rfl, rfl,
    solution_lists_strictly_increasing 8
      { a := 1, b := 0, c := 1, modu := 3 }
      { a := 1, b := 0, c := 1, modu := 3 }
      { a := 1, b := 0, c := 0, d := 1, modu := 3 }
      { a := 1, b := 0, c := 0, d := 1, modu := 3 }
      [1] [1] [1, 2] [1, 2] rfl rfl rfl rfl⟩
